import Mathlib

/-!
# JavascriptBigInt (ChakraCore `lib/Runtime/Library/JavascriptBigInt.cpp`)

A shallow embedding of the big-integer value of ChakraCore and proofs about it.

Conventions of the embedding:

* `digit_t` is an unsigned machine word of `8 * sizeofDigit` bits; a digit is a `Nat` and
  every arithmetic step of the source is followed by an explicit `% base`.
* The digit buffer `m_digits` is a `List Nat` whose length is the number of digits that were
  really allocated. A read or a write at an index outside the buffer is undefined behaviour in
  the source and is the fault `outOfBounds` here.
* `AssertOrFailFast` terminates the process: fault `failFast`. A plain `Assert` is compiled out
  of a release build and is not part of the embedding.
* The declarations of the header (`digit_t`, `SIZE_MAX`) and the recycler are not part of the
  translated file; they are the fields of `Config`. The constructor, which sets `m_maxLength`
  before it calls `InitFromCharDigits`, is in the header too: `InitFromCharDigits` is run on
  an object `self` that carries that `m_maxLength`.
* A freshly allocated buffer holds zeros (the source leaves its content unspecified and never
  reads a cell before writing it).
* The value-returning operations work on a heap, the list of the objects allocated so far; a
  pointer is an index into it. Every object holds its own buffer: `New` allocates one and
  copies the digits into it.
-/

namespace Js

/-- Ways in which an operation does not return. -/
inductive Fault
  | failFast
  | outOfBounds
deriving DecidableEq, Repr

deriving instance DecidableEq for Except

/-- Platform constants and the allocator, which the translated file takes from elsewhere. -/
structure Config where
  /-- The value of `sizeof(digit_t)`, in bytes. -/
  sizeofDigit : Nat
  /-- The value of `SIZE_MAX`. -/
  sizeMax : Nat
  /-- Whether `RecyclerNewArrayLeaf` of that many digits returns a buffer in `Resize`. -/
  allocOk : Nat → Bool

/-- Width of a digit in bits. -/
def Config.digitBits (cfg : Config) : Nat := 8 * cfg.sizeofDigit

/-- The radix `2 ^ W` of the magnitude; `digit_t` arithmetic is modulo this number. -/
def Config.base (cfg : Config) : Nat := 2 ^ cfg.digitBits

/-- The fields of a `JavascriptBigInt`. -/
structure JavascriptBigInt where
  m_digits : List Nat
  m_length : Nat
  m_maxLength : Nat
  m_isNegative : Bool
deriving DecidableEq, Repr

/-- Read of `buf[i]`. -/
def readDigit (buf : List Nat) (i : Nat) : Except Fault Nat :=
  match buf[i]? with
  | some d => .ok d
  | none => .error .outOfBounds

/-- Write `buf[i] = v`. -/
def writeDigit (buf : List Nat) (i v : Nat) : Except Fault (List Nat) :=
  if i < buf.length then .ok (buf.set i v) else .error .outOfBounds

/-- Modelled from the spec: `js_memcpy_s` is declared outside the translated file. It copies
the existing `count` digits of `src` into the new buffer `dst` (spec 4.2), counted here in
digits; a destination that is too small is the fault `failFast`, a source that is too short
is `outOfBounds`. -/
def js_memcpy_s (dst : List Nat) (src : List Nat) (count : Nat) : Except Fault (List Nat) :=
  if dst.length < count then .error .failFast
  else if src.length < count then .error .outOfBounds
  else .ok (src.take count ++ dst.drop count)

/-- Source: `JavascriptBigInt::Resize`. The result is the returned flag and the object. -/
def Resize (cfg : Config) (self : JavascriptBigInt) (length : Nat) :
    Except Fault (Bool × JavascriptBigInt) :=
  if length ≤ self.m_maxLength then .ok (true, self)
  else
    let length := (length + length) % cfg.base
    if cfg.sizeMax / cfg.sizeofDigit < length then .ok (false, self)
    else if cfg.allocOk length = false then .ok (false, self)
    else
      let digits := List.replicate length 0
      if 0 < self.m_length then
        match js_memcpy_s digits self.m_digits self.m_length with
        | .ok digits => .ok (true, { self with m_digits := digits, m_maxLength := length })
        | .error e => .error e
      else .ok (true, { self with m_digits := digits, m_maxLength := length })

/-- Source: `JavascriptBigInt::AddDigit`; the pair is the returned sum and `*carry`. -/
def AddDigit (cfg : Config) (a b carry : Nat) : Nat × Nat :=
  let result := (a + b) % cfg.base
  if result < a then (result, (carry + 1) % cfg.base) else (result, carry)

/-- Source: `JavascriptBigInt::SubDigit`; the pair is the returned difference and `*borrow`. -/
def SubDigit (cfg : Config) (a b borrow : Nat) : Nat × Nat :=
  let result := (a + (cfg.base - b % cfg.base)) % cfg.base
  if result > a then (result, (borrow + 1) % cfg.base) else (result, borrow)

/-- Source: `JavascriptBigInt::IsZero`, with the short-circuit of `&&`. -/
def IsZero (pbi : JavascriptBigInt) : Except Fault Bool :=
  if pbi.m_length = 1 then
    match readDigit pbi.m_digits 0 with
    | .ok d => .ok (d == 0)
    | .error e => .error e
  else .ok false

/-- The carry loop of `AbsoluteIncrement`: the first argument counts the indices that are left
below `m_length`, the second is `i`. -/
def absoluteIncrementLoop (cfg : Config) :
    Nat → Nat → List Nat → Nat → Except Fault (List Nat × Nat)
  | 0, _, digits, carry => .ok (digits, carry)
  | n + 1, i, digits, carry =>
    if carry > 0 then
      match readDigit digits i with
      | .error e => .error e
      | .ok d =>
        match writeDigit digits i (AddDigit cfg d carry 0).1 with
        | .error e => .error e
        | .ok digits => absoluteIncrementLoop cfg n (i + 1) digits (AddDigit cfg d carry 0).2
    else .ok (digits, carry)

/-- The statement `m_digits[m_length++] = v` after the guard
`m_length >= m_maxLength && !Resize(m_length + 1)`; `onFail` is what the guarded branch does. -/
def appendDigit (cfg : Config) (self : JavascriptBigInt) (v : Nat)
    (onFail : JavascriptBigInt → Except Fault (Bool × JavascriptBigInt)) :
    Except Fault (Bool × JavascriptBigInt) :=
  let store (r : JavascriptBigInt) : Except Fault (Bool × JavascriptBigInt) :=
    match writeDigit r.m_digits r.m_length v with
    | .error e => .error e
    | .ok digits => .ok (true, { r with m_digits := digits, m_length := (r.m_length + 1) % cfg.base })
  if self.m_length ≥ self.m_maxLength then
    match Resize cfg self ((self.m_length + 1) % cfg.base) with
    | .error e => .error e
    | .ok (false, r) => onFail r
    | .ok (true, r) => store r
  else store self

/-- Source: `JavascriptBigInt::AbsoluteIncrement`. -/
def AbsoluteIncrement (cfg : Config) (pbi : JavascriptBigInt) : Except Fault JavascriptBigInt :=
  match absoluteIncrementLoop cfg pbi.m_length 0 pbi.m_digits 1 with
  | .error e => .error e
  | .ok (digits, carry) =>
    let result := { pbi with m_digits := digits }
    if carry > 0 then
      match appendDigit cfg result carry (fun _ => .error .failFast) with
      | .error e => .error e
      | .ok (_, r) => .ok r
    else .ok result

/-- The borrow loop of `AbsoluteDecrement`. -/
def absoluteDecrementLoop (cfg : Config) :
    Nat → Nat → List Nat → Nat → Except Fault (List Nat × Nat)
  | 0, _, digits, borrow => .ok (digits, borrow)
  | n + 1, i, digits, borrow =>
    if borrow > 0 then
      match readDigit digits i with
      | .error e => .error e
      | .ok d =>
        match writeDigit digits i (SubDigit cfg d borrow 0).1 with
        | .error e => .error e
        | .ok digits => absoluteDecrementLoop cfg n (i + 1) digits (SubDigit cfg d borrow 0).2
    else .ok (digits, borrow)

/-- Source: `JavascriptBigInt::AbsoluteDecrement`. `m_length - 1` and `m_length--` are
`digit_t` arithmetic. -/
def AbsoluteDecrement (cfg : Config) (pbi : JavascriptBigInt) : Except Fault JavascriptBigInt :=
  match absoluteDecrementLoop cfg pbi.m_length 0 pbi.m_digits 1 with
  | .error e => .error e
  | .ok (digits, _) =>
    let result := { pbi with m_digits := digits }
    match readDigit result.m_digits ((result.m_length + (cfg.base - 1)) % cfg.base) with
    | .error e => .error e
    | .ok top =>
      if top = 0 then
        .ok { result with m_length := (result.m_length + (cfg.base - 1)) % cfg.base }
      else .ok result

/-- Source: `JavascriptBigInt::Increment(JavascriptBigInt *)`. -/
def Increment (cfg : Config) (pbi : JavascriptBigInt) : Except Fault JavascriptBigInt :=
  if pbi.m_isNegative then
    let isMinusOne : Except Fault Bool :=
      if pbi.m_length = 1 then
        match readDigit pbi.m_digits 0 with
        | .ok d => .ok (d == 1)
        | .error e => .error e
      else .ok false
    match isMinusOne with
    | .error e => .error e
    | .ok true =>
      match writeDigit pbi.m_digits 0 0 with
      | .error e => .error e
      | .ok digits => .ok { pbi with m_digits := digits, m_isNegative := false }
    | .ok false => AbsoluteDecrement cfg pbi
  else AbsoluteIncrement cfg pbi

/-- Source: `JavascriptBigInt::Decrement(JavascriptBigInt *)`. -/
def Decrement (cfg : Config) (pbi : JavascriptBigInt) : Except Fault JavascriptBigInt :=
  if pbi.m_isNegative then AbsoluteIncrement cfg pbi
  else
    match IsZero pbi with
    | .error e => .error e
    | .ok true =>
      match writeDigit pbi.m_digits 0 1 with
      | .error e => .error e
      | .ok digits => .ok { pbi with m_digits := digits, m_isNegative := true }
    | .ok false => AbsoluteDecrement cfg pbi

/-- Source: `JavascriptBigInt::MulDigit`; the pair is the returned low digit and
`*resultHigh`. -/
def MulDigit (cfg : Config) (a b : Nat) : Nat × Nat :=
  let kHalfDigitBits := (cfg.sizeofDigit * 4) % cfg.base
  let kHalfDigitMask := ((1 <<< kHalfDigitBits) % cfg.base + (cfg.base - 1)) % cfg.base
  let aLow := a &&& kHalfDigitMask
  let aHigh := a >>> kHalfDigitBits
  let bLow := b &&& kHalfDigitMask
  let bHigh := b >>> kHalfDigitBits
  let rLow := (aLow * bLow) % cfg.base
  let rMid1 := (aLow * bHigh) % cfg.base
  let rMid2 := (aHigh * bLow) % cfg.base
  let rHigh := (aHigh * bHigh) % cfg.base
  let step1 := AddDigit cfg rLow ((rMid1 <<< kHalfDigitBits) % cfg.base) 0
  let step2 := AddDigit cfg step1.1 ((rMid2 <<< kHalfDigitBits) % cfg.base) step1.2
  (step2.1, ((rMid1 >>> kHalfDigitBits) + (rMid2 >>> kHalfDigitBits) + rHigh + step2.2) % cfg.base)

/-- The digit loop of `MulThenAdd`: the first argument counts the digits left before
`pDigitLimit`, the second is the index `pDigit - m_digits`. The two stores to `*pDigit` of one
iteration are one write of the final digit. -/
def mulThenAddLoop (cfg : Config) (digitMul : Nat) :
    Nat → Nat → List Nat → Nat → Except Fault (List Nat × Nat)
  | 0, _, digits, digitAdd => .ok (digits, digitAdd)
  | n + 1, i, digits, digitAdd =>
    match readDigit digits i with
    | .error e => .error e
    | .ok d =>
      let prod := MulDigit cfg d digitMul
      let sum := if digitAdd > 0 then AddDigit cfg prod.1 digitAdd prod.2 else prod
      match writeDigit digits i sum.1 with
      | .error e => .error e
      | .ok digits => mulThenAddLoop cfg digitMul n (i + 1) digits sum.2

/-- Source: `JavascriptBigInt::MulThenAdd`; the result is the returned flag and the object. -/
def MulThenAdd (cfg : Config) (self : JavascriptBigInt) (digitMul digitAdd : Nat) :
    Except Fault (Bool × JavascriptBigInt) :=
  match mulThenAddLoop cfg digitMul self.m_length 0 self.m_digits digitAdd with
  | .error e => .error e
  | .ok (digits, digitAdd) =>
    let self := { self with m_digits := digits }
    if 0 < digitAdd then appendDigit cfg self digitAdd (fun r => .ok (false, r))
    else .ok (true, self)

/-- The character loop of `InitFromCharDigits`: the first argument counts the characters left
before `pCharLimit`, `chars` are the characters from `pChar` on. The state is the object,
`digitMul` and `digitAdd`. -/
def initFromCharDigitsLoop (cfg : Config) :
    Nat → List Nat → JavascriptBigInt × Nat × Nat → Except Fault (JavascriptBigInt × Nat × Nat)
  | 0, _, st => .ok st
  | _ + 1, [], _ => .error .outOfBounds
  | n + 1, c :: chars, (self, digitMul, digitAdd) =>
    let flushed : Except Fault (JavascriptBigInt × Nat × Nat) :=
      if digitMul = 1000000000 then
        match MulThenAdd cfg self digitMul digitAdd with
        | .error e => .error e
        | .ok (_, r) => .ok (r, 1, 0)
      else .ok (self, digitMul, digitAdd)
    match flushed with
    | .error e => .error e
    | .ok (self, digitMul, digitAdd) =>
      initFromCharDigitsLoop cfg n chars
        (self, (digitMul * 10) % cfg.base,
          (digitAdd * 10 + c + (cfg.base - 48 % cfg.base)) % cfg.base)

/-- Source: `JavascriptBigInt::InitFromCharDigits`, run on an object `self` whose
`m_maxLength` the constructor has set. `pChar` is the list of character codes. -/
def InitFromCharDigits (cfg : Config) (self : JavascriptBigInt) (pChar : List Nat)
    (charLength : Nat) (isNegative : Bool) : Except Fault JavascriptBigInt :=
  let self : JavascriptBigInt :=
    { self with m_length := 0, m_digits := List.replicate self.m_maxLength 0,
                m_isNegative := isNegative }
  match initFromCharDigitsLoop cfg (charLength - 1) pChar (self, 1, 0) with
  | .error e => .error e
  | .ok (self, digitMul, digitAdd) =>
    match MulThenAdd cfg self digitMul digitAdd with
    | .error e => .error e
    | .ok (_, self) =>
      if self.m_length = 0 then
        match writeDigit self.m_digits 0 0 with
        | .error e => .error e
        | .ok digits => .ok { self with m_isNegative := false, m_length := 1, m_digits := digits }
      else .ok self

/-- The scan of `Compare` from `index` downwards: `none` when the loop body returns 0,
`some index` when it stops at a differing digit. -/
def compareLoop (a b : List Nat) : Nat → Except Fault (Option Nat)
  | 0 =>
    match readDigit a 0, readDigit b 0 with
    | .ok x, .ok y => if x = y then .ok none else .ok (some 0)
    | .error e, _ => .error e
    | _, .error e => .error e
  | index + 1 =>
    match readDigit a (index + 1), readDigit b (index + 1) with
    | .ok x, .ok y => if x = y then compareLoop a b index else .ok (some (index + 1))
    | .error e, _ => .error e
    | _, .error e => .error e

/-- Source: `JavascriptBigInt::Compare`. -/
def Compare (self pbi : JavascriptBigInt) : Except Fault Int :=
  if self.m_isNegative != pbi.m_isNegative then
    if self.m_isNegative then .ok (-1) else .ok 1
  else
    let sign : Int := if self.m_isNegative then -1 else 1
    if self.m_length > pbi.m_length then .ok (1 * sign)
    else if self.m_length < pbi.m_length then .ok (-1 * sign)
    else if 0 = self.m_length then .ok 0
    else
      match compareLoop self.m_digits pbi.m_digits (self.m_length - 1) with
      | .error e => .error e
      | .ok none => .ok 0
      | .ok (some index) =>
        match readDigit self.m_digits index, readDigit pbi.m_digits index with
        | .ok x, .ok y => .ok (sign * (if x > y then 1 else -1))
        | .error e, _ => .error e
        | _, .error e => .error e

/-- Source: `JavascriptBigInt::LessThan(Var, Var)`. -/
def LessThan (aLeft aRight : JavascriptBigInt) : Except Fault Bool :=
  match Compare aLeft aRight with
  | .ok r => .ok (decide (r < 0))
  | .error e => .error e

/-- Source: `JavascriptBigInt::Equals(Var, Var)`. -/
def Equals (aLeft aRight : JavascriptBigInt) : Except Fault Bool :=
  match Compare aLeft aRight with
  | .ok r => .ok (decide (r = 0))
  | .error e => .error e

/-! ## Denotation and the invariants of the data model -/

/-- The natural number `sum of ds[i] * base ^ i` of a digit list, least significant first. -/
def digitsValue (cfg : Config) : List Nat → Nat
  | [] => 0
  | d :: ds => d + cfg.base * digitsValue cfg ds

/-- Magnitude of a value: its first `m_length` digits read in radix `base`. -/
def magnitude (cfg : Config) (x : JavascriptBigInt) : Nat :=
  digitsValue cfg (x.m_digits.take x.m_length)

/-- The signed integer denoted by `(m_isNegative, first m_length digits)`. -/
def val (cfg : Config) (x : JavascriptBigInt) : Int :=
  if x.m_isNegative then -(magnitude cfg x : Int) else (magnitude cfg x : Int)

/-- The buffer is what the fields say: `m_maxLength` cells were allocated, each holds a
`digit_t`, and `m_maxLength` is itself a `digit_t`. -/
def BufferOk (cfg : Config) (x : JavascriptBigInt) : Prop :=
  x.m_digits.length = x.m_maxLength ∧ x.m_maxLength < cfg.base ∧ ∀ d ∈ x.m_digits, d < cfg.base

instance (cfg : Config) (x : JavascriptBigInt) : Decidable (BufferOk cfg x) := by
  unfold BufferOk
  infer_instance

/-- Canonical form: the buffer is what the fields say, `1 <= length <= capacity`, no
most-significant zero digit except in the magnitude `[0]` of length 1, and zero is not
negative. -/
def Canonical (cfg : Config) (x : JavascriptBigInt) : Prop :=
  BufferOk cfg x ∧ 1 ≤ x.m_length ∧ x.m_length ≤ x.m_maxLength ∧
  (x.m_digits[x.m_length - 1]? = some 0 → x.m_length = 1 ∧ x.m_isNegative = false)

instance (cfg : Config) (x : JavascriptBigInt) : Decidable (Canonical cfg x) := by
  unfold Canonical
  infer_instance

/-- The number written in decimal by a list of character codes. -/
def decimalValue (chars : List Nat) : Nat :=
  chars.foldl (fun acc c => acc * 10 + (c - 48)) 0

/-- Character codes of the ASCII decimal digits. -/
def IsDigit (c : Nat) : Prop := 48 ≤ c ∧ c ≤ 57

instance (c : Nat) : Decidable (IsDigit c) := by
  unfold IsDigit
  infer_instance

/-- A platform with 32-bit digits and a 32-bit `size_t`. -/
def cfg32 : Config :=
  { sizeofDigit := 4, sizeMax := 4294967295, allocOk := fun _ => true }

/-- A platform with 64-bit digits and a 64-bit `size_t`. -/
def cfg64 : Config :=
  { sizeofDigit := 8, sizeMax := 18446744073709551615, allocOk := fun _ => true }

/-- List form of the carry loop of `AbsoluteIncrement`, used to reason about it: the digits
the loop runs over and the incoming carry give the new digits and the outgoing carry. -/
def incList (cfg : Config) : List Nat → Nat → List Nat × Nat
  | [], carry => ([], carry)
  | d :: ds, carry =>
    if carry > 0 then
      ((AddDigit cfg d carry 0).1 :: (incList cfg ds (AddDigit cfg d carry 0).2).1,
        (incList cfg ds (AddDigit cfg d carry 0).2).2)
    else (d :: ds, carry)

/-- List form of the borrow loop of `AbsoluteDecrement`. -/
def decList (cfg : Config) : List Nat → Nat → List Nat × Nat
  | [], borrow => ([], borrow)
  | d :: ds, borrow =>
    if borrow > 0 then
      ((SubDigit cfg d borrow 0).1 :: (decList cfg ds (SubDigit cfg d borrow 0).2).1,
        (decList cfg ds (SubDigit cfg d borrow 0).2).2)
    else (d :: ds, borrow)

/-- One iteration of the digit loop of `MulThenAdd` on the digit `d`. -/
def mulAddStep (cfg : Config) (digitMul d digitAdd : Nat) : Nat × Nat :=
  if digitAdd > 0 then
    AddDigit cfg (MulDigit cfg d digitMul).1 digitAdd (MulDigit cfg d digitMul).2
  else MulDigit cfg d digitMul

/-- List form of the digit loop of `MulThenAdd`. -/
def mulList (cfg : Config) (digitMul : Nat) : List Nat → Nat → List Nat × Nat
  | [], digitAdd => ([], digitAdd)
  | d :: ds, digitAdd =>
    ((mulAddStep cfg digitMul d digitAdd).1 ::
        (mulList cfg digitMul ds (mulAddStep cfg digitMul d digitAdd).2).1,
      (mulList cfg digitMul ds (mulAddStep cfg digitMul d digitAdd).2).2)

/-- The fields describe the buffer and the length fits the capacity. -/
def WellFormed (cfg : Config) (x : JavascriptBigInt) : Prop :=
  BufferOk cfg x ∧ x.m_length ≤ x.m_maxLength

instance (cfg : Config) (x : JavascriptBigInt) : Decidable (WellFormed cfg x) := by
  unfold WellFormed
  infer_instance

/-- The two in-place operations of a sequence of increments and decrements. -/
inductive Op
  | increment
  | decrement
deriving DecidableEq, Repr

/-- One in-place operation. -/
def applyOp (cfg : Config) : Op → JavascriptBigInt → Except Fault JavascriptBigInt
  | .increment, x => Increment cfg x
  | .decrement, x => Decrement cfg x

/-- A finite sequence of in-place operations on one object, first operation first; it stops
at the first operation that does not return. -/
def runOps (cfg : Config) : List Op → JavascriptBigInt → Except Fault JavascriptBigInt
  | [], x => .ok x
  | op :: ops, x =>
    match applyOp cfg op x with
    | .ok y => runOps cfg ops y
    | .error e => .error e

/-- The negative zero: `isNegative = true` with the magnitude `[0]` of length 1. -/
def IsNegativeZero (x : JavascriptBigInt) : Prop :=
  x.m_isNegative = true ∧ x.m_length = 1 ∧ x.m_digits[0]? = some 0

instance (x : JavascriptBigInt) : Decidable (IsNegativeZero x) := by
  unfold IsNegativeZero
  infer_instance

/-- Growing a full buffer of `n` digits succeeds: `Resize(n + 1)` doubles to `2 * (n + 1)`
without wrapping, passes the `SIZE_MAX` check and the allocator returns a buffer. -/
def GrowthOk (cfg : Config) (n : Nat) : Prop :=
  2 * (n + 1) < cfg.base ∧ ¬ (cfg.sizeMax / cfg.sizeofDigit < 2 * (n + 1)) ∧
  cfg.allocOk (2 * (n + 1)) = true

instance (cfg : Config) (n : Nat) : Decidable (GrowthOk cfg n) := by
  unfold GrowthOk
  infer_instance

/-- The magnitude has no most-significant zero digit: it is empty or reaches
`base ^ (m_length - 1)`. -/
def TopNonzero (cfg : Config) (x : JavascriptBigInt) : Prop :=
  x.m_length = 0 ∨ cfg.base ^ (x.m_length - 1) ≤ magnitude cfg x

instance (cfg : Config) (x : JavascriptBigInt) : Decidable (TopNonzero cfg x) := by
  unfold TopNonzero
  infer_instance

/-- The digit list `a` is below `b` on the first `n` positions: at the highest position
where they differ `a` has the smaller digit. -/
def DigitsLt (a b : List Nat) (n : Nat) : Prop :=
  ∃ i x y, i < n ∧ a[i]? = some x ∧ b[i]? = some y ∧ x < y ∧
    ∀ j, i < j → j < n → a[j]? = b[j]?

/-- The order on representations that `Compare` decides: negative before non-negative, then
by length, then by digits from the most significant one, reversed for negative values. -/
def ReprLt (a b : JavascriptBigInt) : Prop :=
  (a.m_isNegative = true ∧ b.m_isNegative = false) ∨
  (a.m_isNegative = false ∧ b.m_isNegative = false ∧
    (a.m_length < b.m_length ∨
      (a.m_length = b.m_length ∧ DigitsLt a.m_digits b.m_digits a.m_length))) ∨
  (a.m_isNegative = true ∧ b.m_isNegative = true ∧
    (b.m_length < a.m_length ∨
      (a.m_length = b.m_length ∧ DigitsLt b.m_digits a.m_digits a.m_length)))

/-! ## Clone, value-returning operations and single-digit ingestion -/

/-- Source: `JavascriptBigInt::New(JavascriptBigInt *, ScriptContext *)`: the clone takes the
three fields of `pbi`, a new buffer of `pbi->m_length` digits, and a copy of that many
digits. -/
def New (pbi : JavascriptBigInt) : Except Fault JavascriptBigInt :=
  let bigintNew : JavascriptBigInt :=
    { m_digits := List.replicate pbi.m_length 0, m_length := pbi.m_length,
      m_maxLength := pbi.m_maxLength, m_isNegative := pbi.m_isNegative }
  match js_memcpy_s bigintNew.m_digits pbi.m_digits bigintNew.m_length with
  | .error e => .error e
  | .ok digits => .ok { bigintNew with m_digits := digits }

/-- Allocation of a new object on the recycler heap: the heap is the list of its objects and
a pointer (a `Var`) is an index into it. -/
def allocObject (heap : List JavascriptBigInt) (obj : JavascriptBigInt) :
    List JavascriptBigInt × Nat :=
  (heap ++ [obj], heap.length)

/-- An in-place operation run on the object a pointer refers to. -/
def inPlace (op : JavascriptBigInt → Except Fault JavascriptBigInt)
    (heap : List JavascriptBigInt) (p : Nat) : Except Fault (List JavascriptBigInt) :=
  match heap[p]? with
  | none => .error .outOfBounds
  | some obj =>
    match op obj with
    | .error e => .error e
    | .ok r => .ok (heap.set p r)

/-- Source: `JavascriptBigInt::Increment(Var)`: clone the argument, increment the clone in
place, return the clone. The result is the heap and the returned pointer. -/
def IncrementVar (cfg : Config) (heap : List JavascriptBigInt) (aRight : Nat) :
    Except Fault (List JavascriptBigInt × Nat) :=
  match heap[aRight]? with
  | none => .error .outOfBounds
  | some rightBigInt =>
    match New rightBigInt with
    | .error e => .error e
    | .ok clone =>
      let newBigInt := allocObject heap clone
      match inPlace (Increment cfg) newBigInt.1 newBigInt.2 with
      | .error e => .error e
      | .ok heap => .ok (heap, newBigInt.2)

/-- Source: `JavascriptBigInt::Decrement(Var)`: clone the argument, decrement the clone in
place, return the clone. -/
def DecrementVar (cfg : Config) (heap : List JavascriptBigInt) (aRight : Nat) :
    Except Fault (List JavascriptBigInt × Nat) :=
  match heap[aRight]? with
  | none => .error .outOfBounds
  | some rightBigInt =>
    match New rightBigInt with
    | .error e => .error e
    | .ok clone =>
      let newBigInt := allocObject heap clone
      match inPlace (Decrement cfg) newBigInt.1 newBigInt.2 with
      | .error e => .error e
      | .ok heap => .ok (heap, newBigInt.2)

/-- Follows the words of the spec (batch invariance): single-digit ingestion, one
`MulThenAdd(10, d)` for each decimal character, `d` its digit value. The flag of the result
tells that every `MulThenAdd` returned true. -/
def ingestSingleDigits (cfg : Config) :
    List Nat → JavascriptBigInt → Except Fault (Bool × JavascriptBigInt)
  | [], x => .ok (true, x)
  | c :: cs, x =>
    match MulThenAdd cfg x 10 (c - 48) with
    | .error e => .error e
    | .ok (false, r) => .ok (false, r)
    | .ok (true, r) => ingestSingleDigits cfg cs r

/-- The empty magnitude a construction starts from: `m_length = 0` in a new buffer of
`m_maxLength` digits, with the sign flag passed in. -/
def emptyMagnitude (self : JavascriptBigInt) (isNegative : Bool) : JavascriptBigInt :=
  { self with
    m_length := 0, m_digits := List.replicate self.m_maxLength 0, m_isNegative := isNegative }

/-! ## Theorems -/

theorem readDigit_of_lt {buf : List Nat} {i : Nat} (h : i < buf.length) :
    readDigit buf i = .ok buf[i] := by
  simp [readDigit, List.getElem?_eq_getElem h]

theorem readDigit_eq_ok {buf : List Nat} {i d : Nat} :
    readDigit buf i = .ok d ↔ buf[i]? = some d := by
  unfold readDigit
  cases h : buf[i]? <;> simp

theorem compareLoop_comm (a b : List Nat) (k : Nat) (ha : k < a.length) (hb : k < b.length) :
    compareLoop b a k = compareLoop a b k := by
  induction k with
  | zero =>
    simp only [compareLoop, readDigit_of_lt ha, readDigit_of_lt hb]
    by_cases h : a[0] = b[0]
    · simp [h]
    · have h2 : ¬ b[0] = a[0] := fun e => h e.symm
      simp [h, h2]
  | succ k ih =>
    simp only [compareLoop, readDigit_of_lt ha, readDigit_of_lt hb]
    by_cases h : a[k + 1] = b[k + 1]
    · simp [h, ih (by omega) (by omega)]
    · have h2 : ¬ b[k + 1] = a[k + 1] := fun e => h e.symm
      simp [h, h2]

/-- What the scan returns on buffers that hold the scanned indices. -/
theorem compareLoop_spec (a b : List Nat) (k : Nat) (ha : k < a.length) (hb : k < b.length) :
    (compareLoop a b k = .ok none ∧ ∀ j, j ≤ k → a[j]? = b[j]?) ∨
    (∃ idx, idx ≤ k ∧ compareLoop a b k = .ok (some idx) ∧ a[idx]? ≠ b[idx]? ∧
      ∀ j, idx < j → j ≤ k → a[j]? = b[j]?) := by
  induction k with
  | zero =>
    simp only [compareLoop, readDigit_of_lt ha, readDigit_of_lt hb]
    by_cases h : a[0] = b[0]
    · left
      refine ⟨by simp [h], ?_⟩
      intro j hj
      have : j = 0 := by omega
      subst this
      simp [List.getElem?_eq_getElem ha, List.getElem?_eq_getElem hb, h]
    · right
      refine ⟨0, le_refl _, by simp [h], ?_, ?_⟩
      · simp [List.getElem?_eq_getElem ha, List.getElem?_eq_getElem hb, h]
      · intro j h1 h2; omega
  | succ k ih =>
    simp only [compareLoop, readDigit_of_lt ha, readDigit_of_lt hb]
    by_cases h : a[k + 1] = b[k + 1]
    · rcases ih (by omega) (by omega) with ⟨h1, h2⟩ | ⟨idx, h1, h2, h3, h4⟩
      · left
        refine ⟨by simp [h, h1], ?_⟩
        intro j hj
        rcases Nat.lt_or_ge j (k + 1) with hlt | hge
        · exact h2 j (by omega)
        · have : j = k + 1 := by omega
          subst this
          simp [List.getElem?_eq_getElem ha, List.getElem?_eq_getElem hb, h]
      · right
        refine ⟨idx, by omega, by simp [h, h2], h3, ?_⟩
        intro j hj1 hj2
        rcases Nat.lt_or_ge j (k + 1) with hlt | hge
        · exact h4 j hj1 (by omega)
        · have : j = k + 1 := by omega
          subst this
          simp [List.getElem?_eq_getElem ha, List.getElem?_eq_getElem hb, h]
    · right
      refine ⟨k + 1, le_refl _, by simp [h], ?_, ?_⟩
      · simp [List.getElem?_eq_getElem ha, List.getElem?_eq_getElem hb, h]
      · intro j h1 h2; omega

/-- Helper: on values whose buffers hold `m_length` digits `Compare` returns, its result is one
of -1, 0, 1, and swapping the operands negates it. -/
theorem Compare_antisymm (a b : JavascriptBigInt)
    (ha : a.m_length ≤ a.m_digits.length) (hb : b.m_length ≤ b.m_digits.length) :
    ∃ r : Int, Compare a b = .ok r ∧ Compare b a = .ok (-r) ∧ (r = -1 ∨ r = 0 ∨ r = 1) := by
  obtain ⟨da, la, ma, sa⟩ := a
  obtain ⟨db, lb, mb, sb⟩ := b
  simp only at ha hb
  rcases Nat.lt_trichotomy la lb with hlt | heq | hgt
  · have h1 : ¬ la > lb := by omega
    have h2 : ¬ lb < la := by omega
    cases sa <;> cases sb <;> simp [Compare, hlt, h1, h2]
  · subst heq
    by_cases h0 : la = 0
    · subst h0
      cases sa <;> cases sb <;> simp [Compare]
    · have hka : la - 1 < da.length := by omega
      have hkb : la - 1 < db.length := by omega
      have hne : ¬ 0 = la := fun e => h0 e.symm
      have hcomm := compareLoop_comm da db (la - 1) hka hkb
      rcases compareLoop_spec da db (la - 1) hka hkb with ⟨h1, _⟩ | ⟨idx, hi, h1, h2, _⟩
      · cases sa <;> cases sb <;> simp [Compare, hne, h1, hcomm]
      · have hia : idx < da.length := by omega
        have hib : idx < db.length := by omega
        have hd : da[idx] ≠ db[idx] := by
          intro e
          apply h2
          simp [List.getElem?_eq_getElem hia, List.getElem?_eq_getElem hib, e]
        rcases Nat.lt_or_gt_of_ne hd with hlt | hgt
        · have n1 : ¬ da[idx] > db[idx] := by omega
          cases sa <;> cases sb <;>
            simp [Compare, hne, h1, hcomm, readDigit_of_lt hia, readDigit_of_lt hib, hlt, n1]
        · have n1 : ¬ da[idx] < db[idx] := by omega
          cases sa <;> cases sb <;>
            simp [Compare, hne, h1, hcomm, readDigit_of_lt hia, readDigit_of_lt hib, hgt, n1]
  · have h1 : ¬ la < lb := by omega
    have h2 : ¬ lb > la := by omega
    cases sa <;> cases sb <;> simp [Compare, hgt, h1, h2]

/-- Helper: equal sign flags, equal lengths and equal digits below the length give 0. -/
theorem Compare_eq_zero_of_same (a b : JavascriptBigInt)
    (ha : a.m_length ≤ a.m_digits.length) (hb : b.m_length ≤ b.m_digits.length)
    (hs : a.m_isNegative = b.m_isNegative) (hl : a.m_length = b.m_length)
    (hd : ∀ i, i < a.m_length → a.m_digits[i]? = b.m_digits[i]?) :
    Compare a b = .ok 0 := by
  obtain ⟨da, la, ma, sa⟩ := a
  obtain ⟨db, lb, mb, sb⟩ := b
  simp only at ha hb hs hl hd
  subst hs hl
  by_cases h0 : la = 0
  · subst h0
    simp [Compare]
  · have hne : ¬ 0 = la := fun e => h0 e.symm
    rcases compareLoop_spec da db (la - 1) (by omega) (by omega) with
      ⟨h1, _⟩ | ⟨idx, hi, _, h2, _⟩
    · simp [Compare, hne, h1]
    · exact absurd (hd idx (by omega)) h2

/-- Helper: with different sign flags the result is decided by the sign of the receiver. -/
theorem Compare_of_sign_ne (a b : JavascriptBigInt) (hs : a.m_isNegative ≠ b.m_isNegative) :
    Compare a b = .ok (if a.m_isNegative then -1 else 1) := by
  obtain ⟨da, la, ma, sa⟩ := a
  obtain ⟨db, lb, mb, sb⟩ := b
  cases sa <;> cases sb <;> simp_all [Compare]

/-- C9 (as amended): for values `a`, `b` of equal length with equal digits at every position
below that length, `Compare(a, b)` is 0 when the two sign flags are equal; when they differ it
is -1 if `a` is negative and 1 otherwise. -/
theorem Compare_same_digits (a b : JavascriptBigInt)
    (ha : a.m_length ≤ a.m_digits.length) (hb : b.m_length ≤ b.m_digits.length)
    (hl : a.m_length = b.m_length)
    (hd : ∀ i, i < a.m_length → a.m_digits[i]? = b.m_digits[i]?) :
    Compare a b =
      .ok (if a.m_isNegative = b.m_isNegative then 0 else if a.m_isNegative then -1 else 1) := by
  by_cases hs : a.m_isNegative = b.m_isNegative
  · rw [Compare_eq_zero_of_same a b ha hb hs hl hd]
    simp [hs]
  · rw [Compare_of_sign_ne a b hs]
    simp [hs]

theorem Compare_same_digits_witness :
    Compare ⟨[5, 7], 2, 2, true⟩ ⟨[5, 7, 9], 2, 3, true⟩ = .ok 0 :=
  Compare_same_digits ⟨[5, 7], 2, 2, true⟩ ⟨[5, 7, 9], 2, 3, true⟩ (by decide) (by decide) rfl
    (by decide)

/-- C9 (counterexample): -5 and 5 have equal length and equal digits at every position, and
`Compare(-5, 5)` is -1, not 0: the result depends on the sign flags. -/
theorem Compare_same_digits_sign_counterexample :
    (⟨[5], 1, 1, true⟩ : JavascriptBigInt).m_length = (⟨[5], 1, 1, false⟩ : JavascriptBigInt).m_length ∧
    (∀ i, i < 1 → (⟨[5], 1, 1, true⟩ : JavascriptBigInt).m_digits[i]? =
      (⟨[5], 1, 1, false⟩ : JavascriptBigInt).m_digits[i]?) ∧
    Compare ⟨[5], 1, 1, true⟩ ⟨[5], 1, 1, false⟩ = .ok (-1) ∧
    Compare ⟨[5], 1, 1, true⟩ ⟨[5], 1, 1, false⟩ ≠ .ok 0 := by
  refine ⟨rfl, by decide, by decide, by decide⟩

theorem Config.base_pos (cfg : Config) : 0 < cfg.base := by
  unfold Config.base
  positivity

theorem readDigit_append_mid (pre post : List Nat) (d : Nat) :
    readDigit (pre ++ d :: post) pre.length = .ok d := by
  have h : (pre ++ d :: post)[pre.length]? = some d := by
    rw [List.getElem?_append_right (le_refl _)]
    simp
  simp [readDigit, h]

theorem writeDigit_append_mid (pre post : List Nat) (d v : Nat) :
    writeDigit (pre ++ d :: post) pre.length v = .ok ((pre ++ [v]) ++ post) := by
  simp [writeDigit]

theorem absoluteIncrementLoop_eq (cfg : Config) (mid : List Nat) :
    ∀ (pre post : List Nat) (carry : Nat),
      absoluteIncrementLoop cfg mid.length pre.length (pre ++ mid ++ post) carry =
        .ok (pre ++ (incList cfg mid carry).1 ++ post, (incList cfg mid carry).2) := by
  induction mid with
  | nil => intro pre post carry; simp [absoluteIncrementLoop, incList]
  | cons d ds ih =>
    intro pre post carry
    by_cases hc : carry > 0
    · have h := ih (pre ++ [(AddDigit cfg d carry 0).1]) post (AddDigit cfg d carry 0).2
      simp only [List.length_append, List.length_singleton] at h
      simp only [List.length_cons, absoluteIncrementLoop, incList, hc, if_true,
        List.append_assoc, List.cons_append, readDigit_append_mid]
      rw [writeDigit_append_mid]
      simp only [List.append_assoc, List.singleton_append, List.cons_append, List.nil_append] at h ⊢
      exact h
    · simp [absoluteIncrementLoop, incList, hc]

theorem absoluteDecrementLoop_eq (cfg : Config) (mid : List Nat) :
    ∀ (pre post : List Nat) (borrow : Nat),
      absoluteDecrementLoop cfg mid.length pre.length (pre ++ mid ++ post) borrow =
        .ok (pre ++ (decList cfg mid borrow).1 ++ post, (decList cfg mid borrow).2) := by
  induction mid with
  | nil => intro pre post borrow; simp [absoluteDecrementLoop, decList]
  | cons d ds ih =>
    intro pre post borrow
    by_cases hc : borrow > 0
    · have h := ih (pre ++ [(SubDigit cfg d borrow 0).1]) post (SubDigit cfg d borrow 0).2
      simp only [List.length_append, List.length_singleton] at h
      simp only [List.length_cons, absoluteDecrementLoop, decList, hc, if_true,
        List.append_assoc, List.cons_append, readDigit_append_mid]
      rw [writeDigit_append_mid]
      simp only [List.append_assoc, List.singleton_append, List.cons_append, List.nil_append] at h ⊢
      exact h
    · simp [absoluteDecrementLoop, decList, hc]

theorem mulThenAddLoop_eq (cfg : Config) (digitMul : Nat) (mid : List Nat) :
    ∀ (pre post : List Nat) (digitAdd : Nat),
      mulThenAddLoop cfg digitMul mid.length pre.length (pre ++ mid ++ post) digitAdd =
        .ok (pre ++ (mulList cfg digitMul mid digitAdd).1 ++ post,
          (mulList cfg digitMul mid digitAdd).2) := by
  induction mid with
  | nil => intro pre post digitAdd; simp [mulThenAddLoop, mulList]
  | cons d ds ih =>
    intro pre post digitAdd
    have h := ih (pre ++ [(mulAddStep cfg digitMul d digitAdd).1]) post
      (mulAddStep cfg digitMul d digitAdd).2
    simp only [List.length_append, List.length_singleton] at h
    simp only [List.length_cons, mulThenAddLoop, mulList,
      List.append_assoc, List.cons_append, readDigit_append_mid]
    have e : (if digitAdd > 0 then
        AddDigit cfg (MulDigit cfg d digitMul).1 digitAdd (MulDigit cfg d digitMul).2
        else MulDigit cfg d digitMul) = mulAddStep cfg digitMul d digitAdd := rfl
    rw [e, writeDigit_append_mid]
    simp only [List.append_assoc, List.singleton_append, List.cons_append, List.nil_append] at h ⊢
    exact h

/-- What `AddDigit` computes on digits: the sum and the carry count stay digits and
`sum + base * carryOut = a + b + base * carryIn`. -/
theorem AddDigit_spec (cfg : Config) (a b c : Nat)
    (ha : a < cfg.base) (hb : b < cfg.base) (hc : c + 1 < cfg.base) :
    (AddDigit cfg a b c).1 < cfg.base ∧ c ≤ (AddDigit cfg a b c).2 ∧
    (AddDigit cfg a b c).2 ≤ c + 1 ∧
    (AddDigit cfg a b c).1 + cfg.base * (AddDigit cfg a b c).2 = a + b + cfg.base * c := by
  dsimp only [AddDigit]
  generalize cfg.base = B at *
  by_cases h : a + b < B
  · have e : (a + b) % B = a + b := Nat.mod_eq_of_lt h
    have n : ¬ a + b < a := by omega
    simp only [e, n, if_false]
    exact ⟨h, le_refl _, Nat.le_succ _, trivial⟩
  · have e : (a + b) % B = a + b - B := by
      rw [Nat.mod_eq_sub_mod (by omega)]
      exact Nat.mod_eq_of_lt (by omega)
    have n : a + b - B < a := by omega
    have e2 : (c + 1) % B = c + 1 := Nat.mod_eq_of_lt hc
    simp only [e, n, if_true, e2]
    refine ⟨by omega, by omega, by omega, ?_⟩
    rw [Nat.mul_add, Nat.mul_one]
    omega

/-- What `SubDigit` computes on digits:
`difference + b + base * borrowIn = a + base * borrowOut`. -/
theorem SubDigit_spec (cfg : Config) (a b c : Nat)
    (ha : a < cfg.base) (hb : b < cfg.base) (hc : c + 1 < cfg.base) :
    (SubDigit cfg a b c).1 < cfg.base ∧ c ≤ (SubDigit cfg a b c).2 ∧
    (SubDigit cfg a b c).2 ≤ c + 1 ∧
    (SubDigit cfg a b c).1 + b + cfg.base * c = a + cfg.base * (SubDigit cfg a b c).2 := by
  dsimp only [SubDigit]
  generalize cfg.base = B at *
  have eb : b % B = b := Nat.mod_eq_of_lt hb
  rw [eb]
  by_cases h : b ≤ a
  · have e : (a + (B - b)) % B = a - b := by
      have : a + (B - b) = (a - b) + B := by omega
      rw [this, Nat.add_mod_right]
      exact Nat.mod_eq_of_lt (by omega)
    have n : ¬ a - b > a := by omega
    simp only [e, n, if_false]
    omega
  · have e : (a + (B - b)) % B = a + (B - b) := Nat.mod_eq_of_lt (by omega)
    have n : a + (B - b) > a := by omega
    have e2 : (c + 1) % B = c + 1 := Nat.mod_eq_of_lt hc
    simp only [e, n, if_true, e2]
    refine ⟨by omega, by omega, by omega, ?_⟩
    rw [Nat.mul_add, Nat.mul_one]
    omega

theorem digitsValue_nil (cfg : Config) : digitsValue cfg [] = 0 := rfl

theorem digitsValue_cons (cfg : Config) (d : Nat) (ds : List Nat) :
    digitsValue cfg (d :: ds) = d + cfg.base * digitsValue cfg ds := rfl

theorem digitsValue_append (cfg : Config) (l1 l2 : List Nat) :
    digitsValue cfg (l1 ++ l2) =
      digitsValue cfg l1 + cfg.base ^ l1.length * digitsValue cfg l2 := by
  induction l1 with
  | nil => simp [digitsValue_nil]
  | cons d ds ih =>
    rw [List.cons_append, digitsValue_cons, digitsValue_cons, ih, List.length_cons]
    ring

theorem digitsValue_lt (cfg : Config) (l : List Nat) (h : ∀ d ∈ l, d < cfg.base) :
    digitsValue cfg l < cfg.base ^ l.length := by
  induction l with
  | nil => simp [digitsValue]
  | cons d ds ih =>
    have h1 : d < cfg.base := h d (by simp)
    have h2 := ih (fun x hx => h x (by simp [hx]))
    simp only [digitsValue, List.length_cons, pow_succ]
    have h3 : cfg.base * (digitsValue cfg ds + 1) ≤ cfg.base * cfg.base ^ ds.length :=
      Nat.mul_le_mul_left _ h2
    rw [Nat.mul_add, Nat.mul_one] at h3
    rw [Nat.mul_comm (cfg.base ^ ds.length)]
    omega

/-- Two digit lists of the same length with the same value are the same list. -/
theorem digitsValue_inj (cfg : Config) :
    ∀ (l1 l2 : List Nat), l1.length = l2.length →
      (∀ d ∈ l1, d < cfg.base) → (∀ d ∈ l2, d < cfg.base) →
      digitsValue cfg l1 = digitsValue cfg l2 → l1 = l2 := by
  intro l1
  induction l1 with
  | nil =>
    intro l2 hl _ _ _
    cases l2 with
    | nil => rfl
    | cons _ _ => simp at hl
  | cons d ds ih =>
    intro l2 hl h1 h2 hv
    cases l2 with
    | nil => simp at hl
    | cons e es =>
      have hd : d < cfg.base := h1 d (by simp)
      have he : e < cfg.base := h2 e (by simp)
      simp only [digitsValue] at hv
      have hmod : d = e := by
        have := congrArg (· % cfg.base) hv
        simp only [Nat.add_mul_mod_self_left] at this
        rwa [Nat.mod_eq_of_lt hd, Nat.mod_eq_of_lt he] at this
      subst hmod
      have hpos : 0 < cfg.base := by omega
      have hrest : digitsValue cfg ds = digitsValue cfg es := by
        have : cfg.base * digitsValue cfg ds = cfg.base * digitsValue cfg es := by omega
        exact Nat.eq_of_mul_eq_mul_left hpos this
      have := ih es (by simpa using hl) (fun x hx => h1 x (by simp [hx]))
        (fun x hx => h2 x (by simp [hx])) hrest
      rw [this]

theorem incList_spec (cfg : Config) (hB : 1 < cfg.base) (l : List Nat) :
    ∀ (c : Nat), c ≤ 1 → (∀ d ∈ l, d < cfg.base) →
      (incList cfg l c).1.length = l.length ∧ (∀ d ∈ (incList cfg l c).1, d < cfg.base) ∧
      (incList cfg l c).2 ≤ 1 ∧
      digitsValue cfg (incList cfg l c).1 + cfg.base ^ l.length * (incList cfg l c).2 =
        digitsValue cfg l + c := by
  induction l with
  | nil => intro c hc _; simp [incList, digitsValue, hc]
  | cons d ds ih =>
    intro c hc hl
    have hd : d < cfg.base := hl d (by simp)
    by_cases h0 : c > 0
    · obtain ⟨a1, a2, a3, a4⟩ := AddDigit_spec cfg d c 0 hd (by omega) (by omega)
      obtain ⟨b1, b2, b3, b4⟩ := ih (AddDigit cfg d c 0).2 (by omega)
        (fun x hx => hl x (by simp [hx]))
      simp only [incList, h0, if_true, List.length_cons, b1, digitsValue, pow_succ]
      refine ⟨trivial, ?_, b3, ?_⟩
      · intro x hx
        rcases List.mem_cons.mp hx with e | e
        · rw [e]; exact a1
        · exact b2 x e
      · have : cfg.base * (digitsValue cfg (incList cfg ds (AddDigit cfg d c 0).2).1 +
            cfg.base ^ ds.length * (incList cfg ds (AddDigit cfg d c 0).2).2) =
            cfg.base * (digitsValue cfg ds + (AddDigit cfg d c 0).2) := by rw [b4]
        rw [Nat.mul_zero, Nat.add_zero] at a4
        linarith [this, a4]
    · have : c = 0 := by omega
      subst this
      simpa [incList] using hl

theorem decList_spec (cfg : Config) (hB : 1 < cfg.base) (l : List Nat) :
    ∀ (c : Nat), c ≤ 1 → (∀ d ∈ l, d < cfg.base) →
      (decList cfg l c).1.length = l.length ∧ (∀ d ∈ (decList cfg l c).1, d < cfg.base) ∧
      (decList cfg l c).2 ≤ 1 ∧
      digitsValue cfg (decList cfg l c).1 + c =
        digitsValue cfg l + cfg.base ^ l.length * (decList cfg l c).2 := by
  induction l with
  | nil => intro c hc _; simp [decList, digitsValue, hc]
  | cons d ds ih =>
    intro c hc hl
    have hd : d < cfg.base := hl d (by simp)
    by_cases h0 : c > 0
    · obtain ⟨a1, a2, a3, a4⟩ := SubDigit_spec cfg d c 0 hd (by omega) (by omega)
      obtain ⟨b1, b2, b3, b4⟩ := ih (SubDigit cfg d c 0).2 (by omega)
        (fun x hx => hl x (by simp [hx]))
      simp only [decList, h0, if_true, List.length_cons, b1, digitsValue, pow_succ]
      refine ⟨trivial, ?_, b3, ?_⟩
      · intro x hx
        rcases List.mem_cons.mp hx with e | e
        · rw [e]; exact a1
        · exact b2 x e
      · have : cfg.base * (digitsValue cfg (decList cfg ds (SubDigit cfg d c 0).2).1 +
            (SubDigit cfg d c 0).2) =
            cfg.base * (digitsValue cfg ds +
              cfg.base ^ ds.length * (decList cfg ds (SubDigit cfg d c 0).2).2) := by rw [b4]
        rw [Nat.mul_zero, Nat.add_zero] at a4
        linarith [this, a4]
    · have : c = 0 := by omega
      subst this
      simpa [decList] using hl

theorem Resize_spec (cfg : Config) (x y : JavascriptBigInt) (n : Nat) (b : Bool)
    (hwf : WellFormed cfg x) (h : Resize cfg x n = .ok (b, y)) :
    (b = false ∧ y = x) ∨
    (b = true ∧ WellFormed cfg y ∧ y.m_length = x.m_length ∧
      y.m_isNegative = x.m_isNegative ∧
      y.m_digits.take x.m_length = x.m_digits.take x.m_length ∧
      (n ≤ x.m_maxLength → y = x) ∧
      (x.m_maxLength < n → y.m_maxLength = (n + n) % cfg.base)) := by
  obtain ⟨⟨hlen, hmax, hdig⟩, hle⟩ := hwf
  have hB : 0 < cfg.base := cfg.base_pos
  unfold Resize at h
  by_cases h1 : n ≤ x.m_maxLength
  · simp only [h1, if_true, Except.ok.injEq, Prod.mk.injEq] at h
    obtain ⟨hb, hy⟩ := h
    subst hb hy
    right
    exact ⟨rfl, ⟨⟨hlen, hmax, hdig⟩, hle⟩, rfl, rfl, rfl, fun _ => rfl, fun hh => by omega⟩
  · simp only [h1, if_false] at h
    by_cases h2 : cfg.sizeMax / cfg.sizeofDigit < (n + n) % cfg.base
    · simp only [h2, if_true, Except.ok.injEq, Prod.mk.injEq] at h
      left; exact ⟨h.1.symm, h.2.symm⟩
    · simp only [h2, if_false] at h
      by_cases h3 : cfg.allocOk ((n + n) % cfg.base) = false
      · simp only [h3, if_true, Except.ok.injEq, Prod.mk.injEq] at h
        left; exact ⟨h.1.symm, h.2.symm⟩
      · rw [if_neg h3] at h
        have hmod : (n + n) % cfg.base < cfg.base := Nat.mod_lt _ hB
        by_cases h4 : 0 < x.m_length
        · simp only [h4, if_true, js_memcpy_s, List.length_replicate] at h
          by_cases h5 : (n + n) % cfg.base < x.m_length
          · simp [h5] at h
          · have h6 : ¬ x.m_digits.length < x.m_length := by omega
            simp only [h5, h6, if_false, Except.ok.injEq, Prod.mk.injEq] at h
            obtain ⟨hb, hy⟩ := h
            subst hb hy
            right
            refine ⟨rfl, ⟨⟨?_, hmod, ?_⟩, by simpa using h5⟩, rfl, rfl, ?_, fun hh => absurd hh h1,
              fun _ => rfl⟩
            · simp; omega
            · intro d hd
              rcases List.mem_append.mp hd with e | e
              · exact hdig d (List.mem_of_mem_take e)
              · have := List.mem_of_mem_drop e
                rw [List.mem_replicate] at this
                omega
            · simp only
              rw [List.take_append_of_le_length (by simp; omega)]
              simp
        · simp only [h4, if_false, Except.ok.injEq, Prod.mk.injEq] at h
          obtain ⟨hb, hy⟩ := h
          subst hb hy
          have h0 : x.m_length = 0 := by omega
          right
          refine ⟨rfl, ⟨⟨by simp, hmod, ?_⟩, by simp [h0]⟩, rfl, rfl, by simp [h0],
            fun hh => absurd hh h1, fun _ => rfl⟩
          intro d hd
          rw [List.mem_replicate] at hd
          omega

theorem take_succ_set (l : List Nat) (v : Nat) :
    ∀ i, i < l.length → (l.set i v).take (i + 1) = l.take i ++ [v] := by
  induction l with
  | nil => intro i hi; simp at hi
  | cons d ds ih =>
    intro i hi
    cases i with
    | zero => simp
    | succ j =>
      have := ih j (by simpa using hi)
      simp [this]

/-- Helper: the store `m_digits[m_length++] = v` on a well-formed value. -/
theorem store_spec (cfg : Config) (r y : JavascriptBigInt) (v : Nat) (hv : v < cfg.base)
    (hwf : WellFormed cfg r)
    (h : (match writeDigit r.m_digits r.m_length v with
        | .error e => .error e
        | .ok digits => .ok (true,
            { r with m_digits := digits, m_length := (r.m_length + 1) % cfg.base })) =
      (.ok (b, y) : Except Fault (Bool × JavascriptBigInt))) :
    b = true ∧ WellFormed cfg y ∧ y.m_length = r.m_length + 1 ∧
      y.m_isNegative = r.m_isNegative ∧ y.m_maxLength = r.m_maxLength ∧
      r.m_length < r.m_maxLength ∧
      y.m_digits.take (r.m_length + 1) = r.m_digits.take r.m_length ++ [v] := by
  obtain ⟨⟨hlen, hmax, hdig⟩, hle⟩ := hwf
  unfold writeDigit at h
  by_cases h1 : r.m_length < r.m_digits.length
  · have hm : (r.m_length + 1) % cfg.base = r.m_length + 1 := Nat.mod_eq_of_lt (by omega)
    simp only [h1, if_true, hm, Except.ok.injEq, Prod.mk.injEq] at h
    obtain ⟨hb, hy⟩ := h
    subst hb hy
    refine ⟨rfl, ⟨⟨by simpa using hlen, hmax, ?_⟩, by simp only; omega⟩, rfl, rfl, rfl,
      by omega, take_succ_set _ _ _ h1⟩
    intro d hd
    rcases List.mem_or_eq_of_mem_set hd with e | e
    · exact hdig d e
    · rw [e]; exact hv
  · simp [h1] at h

/-- Helper: what the guarded append of `AbsoluteIncrement` and `MulThenAdd` does. -/
theorem appendDigit_spec (cfg : Config) (x y : JavascriptBigInt) (v : Nat) (b : Bool)
    (onFail : JavascriptBigInt → Except Fault (Bool × JavascriptBigInt))
    (hv : v < cfg.base) (hwf : WellFormed cfg x)
    (h : appendDigit cfg x v onFail = .ok (b, y)) :
    (b = true ∧ WellFormed cfg y ∧ y.m_length = x.m_length + 1 ∧
      y.m_isNegative = x.m_isNegative ∧
      (x.m_length < x.m_maxLength → y.m_maxLength = x.m_maxLength) ∧
      y.m_digits.take (x.m_length + 1) = x.m_digits.take x.m_length ++ [v]) ∨
    onFail x = .ok (b, y) := by
  unfold appendDigit at h
  by_cases h1 : x.m_length ≥ x.m_maxLength
  · simp only [h1, if_true] at h
    cases hR : Resize cfg x ((x.m_length + 1) % cfg.base) with
    | error e => simp [hR] at h
    | ok p =>
      obtain ⟨b', r⟩ := p
      rcases Resize_spec cfg x r _ b' hwf hR with ⟨hb, hr⟩ | ⟨hb, hwr, hl, hs, ht, _, _⟩
      · subst hb hr
        simp only [hR] at h
        right; exact h
      · subst hb
        simp only [hR] at h
        obtain ⟨e1, e2, e3, e4, _, _, e7⟩ := store_spec cfg r y v hv hwr h
        left
        refine ⟨e1, e2, by omega, by rw [e4, hs], fun hh => by omega, ?_⟩
        rw [← hl, e7, hl, ht]
  · simp only [h1, if_false] at h
    obtain ⟨e1, e2, e3, e4, e5, _, e7⟩ := store_spec cfg x y v hv hwf h
    left
    exact ⟨e1, e2, e3, e4, fun _ => e5, e7⟩

/-- Helper: with room in the buffer the append does not call `Resize` and succeeds. -/
theorem appendDigit_ok_of_room (cfg : Config) (x : JavascriptBigInt) (v : Nat)
    (onFail : JavascriptBigInt → Except Fault (Bool × JavascriptBigInt))
    (hlen : x.m_digits.length = x.m_maxLength) (hroom : x.m_length < x.m_maxLength) :
    ∃ y, appendDigit cfg x v onFail = .ok (true, y) := by
  have h1 : ¬ x.m_length ≥ x.m_maxLength := by omega
  have h2 : x.m_length < x.m_digits.length := by omega
  simp [appendDigit, h1, writeDigit, h2]

theorem absoluteIncrementLoop_take (cfg : Config) (digits : List Nat) (len c : Nat)
    (h : len ≤ digits.length) :
    absoluteIncrementLoop cfg len 0 digits c =
      .ok ((incList cfg (digits.take len) c).1 ++ digits.drop len,
        (incList cfg (digits.take len) c).2) := by
  have := absoluteIncrementLoop_eq cfg (digits.take len) [] (digits.drop len) c
  simpa [List.length_take, Nat.min_eq_left h] using this

theorem absoluteDecrementLoop_take (cfg : Config) (digits : List Nat) (len c : Nat)
    (h : len ≤ digits.length) :
    absoluteDecrementLoop cfg len 0 digits c =
      .ok ((decList cfg (digits.take len) c).1 ++ digits.drop len,
        (decList cfg (digits.take len) c).2) := by
  have := absoluteDecrementLoop_eq cfg (digits.take len) [] (digits.drop len) c
  simpa [List.length_take, Nat.min_eq_left h] using this

theorem mulThenAddLoop_take (cfg : Config) (digitMul : Nat) (digits : List Nat) (len c : Nat)
    (h : len ≤ digits.length) :
    mulThenAddLoop cfg digitMul len 0 digits c =
      .ok ((mulList cfg digitMul (digits.take len) c).1 ++ digits.drop len,
        (mulList cfg digitMul (digits.take len) c).2) := by
  have := mulThenAddLoop_eq cfg digitMul (digits.take len) [] (digits.drop len) c
  simpa [List.length_take, Nat.min_eq_left h] using this

/-- Helper: replacing the first `len` digits of a well-formed value by as many digits keeps it
well formed, and the new digits are its first `len` digits. -/
theorem wellFormed_replace (cfg : Config) (x : JavascriptBigInt) (new : List Nat)
    (hwf : WellFormed cfg x) (hl : new.length = x.m_length) (hd : ∀ d ∈ new, d < cfg.base) :
    WellFormed cfg { x with m_digits := new ++ x.m_digits.drop x.m_length } ∧
    (new ++ x.m_digits.drop x.m_length).take x.m_length = new := by
  obtain ⟨⟨hlen, hmax, hdig⟩, hle⟩ := hwf
  refine ⟨⟨⟨?_, hmax, ?_⟩, hle⟩, ?_⟩
  · simp only [List.length_append, List.length_drop, hl]; omega
  · intro d h
    rcases List.mem_append.mp h with e | e
    · exact hd d e
    · exact hdig d (List.mem_of_mem_drop e)
  · rw [List.take_append_of_le_length (by omega), ← hl, List.take_length]

/-- Helper: `AbsoluteIncrement` on a well-formed value adds one to the magnitude; the length
grows by one exactly when the old digits overflow. -/
theorem AbsoluteIncrement_spec (cfg : Config) (hB : 1 < cfg.base) (x y : JavascriptBigInt)
    (hwf : WellFormed cfg x) (h : AbsoluteIncrement cfg x = .ok y) :
    WellFormed cfg y ∧ y.m_isNegative = x.m_isNegative ∧
    magnitude cfg y = magnitude cfg x + 1 ∧
    ((y.m_length = x.m_length ∧ magnitude cfg x + 1 < cfg.base ^ x.m_length) ∨
     (y.m_length = x.m_length + 1 ∧ magnitude cfg x + 1 = cfg.base ^ x.m_length)) := by
  have hwf' := hwf
  obtain ⟨⟨hlen, hmax, hdig⟩, hle⟩ := hwf
  have htake : ∀ d ∈ x.m_digits.take x.m_length, d < cfg.base :=
    fun d hd => hdig d (List.mem_of_mem_take hd)
  have hlt : (x.m_digits.take x.m_length).length = x.m_length := by
    rw [List.length_take]; omega
  obtain ⟨s1, s2, s3, s4⟩ := incList_spec cfg hB (x.m_digits.take x.m_length) 1 (le_refl _) htake
  rw [hlt] at s1 s4
  obtain ⟨w1, w2⟩ := wellFormed_replace cfg x _ hwf' s1 s2
  have hbx := digitsValue_lt cfg _ htake
  rw [hlt] at hbx
  have hbound := digitsValue_lt cfg _ s2
  rw [s1] at hbound
  unfold AbsoluteIncrement at h
  rw [absoluteIncrementLoop_take cfg _ _ _ (by omega)] at h
  simp only at h
  by_cases hc : (incList cfg (x.m_digits.take x.m_length) 1).2 > 0
  · have hc1 : (incList cfg (x.m_digits.take x.m_length) 1).2 = 1 := by omega
    simp only [hc, if_true] at h
    cases hA : appendDigit cfg { x with m_digits :=
        (incList cfg (x.m_digits.take x.m_length) 1).1 ++ x.m_digits.drop x.m_length }
        (incList cfg (x.m_digits.take x.m_length) 1).2 (fun _ => .error .failFast) with
    | error e => simp [hA] at h
    | ok p =>
      obtain ⟨b, r⟩ := p
      simp only [hA, Except.ok.injEq] at h
      subst h
      rcases appendDigit_spec cfg _ r _ b _ (by omega) w1 hA with
        ⟨_, e2, e3, e4, _, e6⟩ | e
      · simp only at e3 e4 e6
        rw [w2, hc1] at e6
        have hv : digitsValue cfg (incList cfg (x.m_digits.take x.m_length) 1).1 = 0 := by
          rw [hc1, Nat.mul_one] at s4
          omega
        have hm : magnitude cfg r = cfg.base ^ x.m_length := by
          unfold magnitude
          rw [e3, e6, digitsValue_append, s1, hv]
          simp [digitsValue_cons, digitsValue_nil]
        have hx : magnitude cfg x + 1 = cfg.base ^ x.m_length := by
          rw [hc1, Nat.mul_one, hv] at s4
          unfold magnitude
          omega
        exact ⟨e2, e4, by rw [hm, hx], Or.inr ⟨e3, hx⟩⟩
      · simp at e
  · have hc0 : (incList cfg (x.m_digits.take x.m_length) 1).2 = 0 := by omega
    simp only [hc, if_false, Except.ok.injEq] at h
    subst h
    have hm : magnitude cfg { x with m_digits :=
        (incList cfg (x.m_digits.take x.m_length) 1).1 ++ x.m_digits.drop x.m_length } =
        magnitude cfg x + 1 := by
      unfold magnitude
      simp only
      rw [w2]
      rw [hc0, Nat.mul_zero, Nat.add_zero] at s4
      exact s4
    refine ⟨w1, rfl, hm, Or.inl ⟨rfl, ?_⟩⟩
    rw [hc0, Nat.mul_zero, Nat.add_zero] at s4
    show digitsValue cfg (x.m_digits.take x.m_length) + 1 < _
    omega

/-- Helper: `AbsoluteIncrement` returns when the buffer has a free cell or the digits do not
overflow. -/
theorem AbsoluteIncrement_ok (cfg : Config) (hB : 1 < cfg.base) (x : JavascriptBigInt)
    (hwf : WellFormed cfg x)
    (hroom : x.m_length < x.m_maxLength ∨ magnitude cfg x + 1 < cfg.base ^ x.m_length) :
    ∃ y, AbsoluteIncrement cfg x = .ok y := by
  have hwf' := hwf
  obtain ⟨⟨hlen, hmax, hdig⟩, hle⟩ := hwf
  have htake : ∀ d ∈ x.m_digits.take x.m_length, d < cfg.base :=
    fun d hd => hdig d (List.mem_of_mem_take hd)
  have hlt : (x.m_digits.take x.m_length).length = x.m_length := by
    rw [List.length_take]; omega
  obtain ⟨s1, s2, s3, s4⟩ := incList_spec cfg hB (x.m_digits.take x.m_length) 1 (le_refl _) htake
  rw [hlt] at s1 s4
  obtain ⟨w1, w2⟩ := wellFormed_replace cfg x _ hwf' s1 s2
  unfold AbsoluteIncrement
  rw [absoluteIncrementLoop_take cfg _ _ _ (by omega)]
  simp only
  by_cases hc : (incList cfg (x.m_digits.take x.m_length) 1).2 > 0
  · have hc1 : (incList cfg (x.m_digits.take x.m_length) 1).2 = 1 := by omega
    simp only [hc, if_true]
    rcases hroom with hr | hr
    · obtain ⟨r, hr2⟩ := appendDigit_ok_of_room cfg { x with m_digits :=
        (incList cfg (x.m_digits.take x.m_length) 1).1 ++ x.m_digits.drop x.m_length }
        (incList cfg (x.m_digits.take x.m_length) 1).2 (fun _ => .error .failFast)
        w1.1.1 hr
      rw [hr2]
      exact ⟨r, rfl⟩
    · exfalso
      rw [hc1, Nat.mul_one] at s4
      unfold magnitude at hr
      omega
  · simp only [hc, if_false]
    exact ⟨_, rfl⟩

/-- Helper: the most significant digit of a digit list splits off its value. -/
theorem digitsValue_top (cfg : Config) (l : List Nat) (n : Nat) (hl : l.length = n + 1)
    (hd : ∀ d ∈ l, d < cfg.base) :
    ∃ t, l[n]? = some t ∧ t < cfg.base ∧
      digitsValue cfg l = digitsValue cfg (l.take n) + cfg.base ^ n * t ∧
      digitsValue cfg (l.take n) < cfg.base ^ n := by
  have hn : n < l.length := by omega
  refine ⟨l[n], List.getElem?_eq_getElem hn, hd _ (List.getElem_mem _), ?_, ?_⟩
  · have e : l = l.take n ++ [l[n]] := by
      have h1 : l.take (n + 1) = l := by rw [← hl, List.take_length]
      rw [List.take_succ, List.getElem?_eq_getElem hn] at h1
      exact h1.symm
    have e2 := digitsValue_append cfg (l.take n) [l[n]]
    rw [← e] at e2
    rw [e2, List.length_take, Nat.min_eq_left (by omega)]
    simp [digitsValue_cons, digitsValue_nil]
  · have := digitsValue_lt cfg (l.take n) (fun d h => hd d (List.mem_of_mem_take h))
    rwa [List.length_take, Nat.min_eq_left (by omega)] at this

/-- Helper: `AbsoluteDecrement` on a well-formed value with a nonzero magnitude returns,
subtracts one from the magnitude and drops the most significant digit when it became 0. -/
theorem AbsoluteDecrement_spec (cfg : Config) (hB : 1 < cfg.base) (x : JavascriptBigInt)
    (hwf : WellFormed cfg x) (h1 : 1 ≤ x.m_length) (hm : 1 ≤ magnitude cfg x) :
    ∃ y, AbsoluteDecrement cfg x = .ok y ∧ WellFormed cfg y ∧
      y.m_isNegative = x.m_isNegative ∧ y.m_maxLength = x.m_maxLength ∧
      magnitude cfg y + 1 = magnitude cfg x ∧
      ((y.m_length = x.m_length ∧ cfg.base ^ (x.m_length - 1) ≤ magnitude cfg y) ∨
       (y.m_length + 1 = x.m_length ∧ magnitude cfg y < cfg.base ^ (x.m_length - 1))) := by
  have hwf' := hwf
  obtain ⟨⟨hlen, hmax, hdig⟩, hle⟩ := hwf
  have htake : ∀ d ∈ x.m_digits.take x.m_length, d < cfg.base :=
    fun d hd => hdig d (List.mem_of_mem_take hd)
  have hlt : (x.m_digits.take x.m_length).length = x.m_length := by
    rw [List.length_take]; omega
  obtain ⟨s1, s2, s3, s4⟩ := decList_spec cfg hB (x.m_digits.take x.m_length) 1 (le_refl _) htake
  rw [hlt] at s1 s4
  obtain ⟨w1, w2⟩ := wellFormed_replace cfg x _ hwf' s1 s2
  have hbound := digitsValue_lt cfg _ s2
  rw [s1] at hbound
  have hm' : 1 ≤ digitsValue cfg (x.m_digits.take x.m_length) := hm
  have hb0 : (decList cfg (x.m_digits.take x.m_length) 1).2 = 0 := by
    rcases Nat.eq_zero_or_pos (decList cfg (x.m_digits.take x.m_length) 1).2 with e | e
    · exact e
    · have e1 : (decList cfg (x.m_digits.take x.m_length) 1).2 = 1 := by omega
      rw [e1, Nat.mul_one] at s4
      omega
  rw [hb0, Nat.mul_zero, Nat.add_zero] at s4
  have hidx : (x.m_length + (cfg.base - 1)) % cfg.base = x.m_length - 1 := by
    have : x.m_length + (cfg.base - 1) = (x.m_length - 1) + cfg.base := by omega
    rw [this, Nat.add_mod_right]
    exact Nat.mod_eq_of_lt (by omega)
  obtain ⟨t, t1, t2, t3, t4⟩ := digitsValue_top cfg
    (decList cfg (x.m_digits.take x.m_length) 1).1 (x.m_length - 1) (by omega) s2
  have hread : readDigit ((decList cfg (x.m_digits.take x.m_length) 1).1 ++
      x.m_digits.drop x.m_length) (x.m_length - 1) = .ok t := by
    rw [readDigit_eq_ok, List.getElem?_append_left (by omega)]
    exact t1
  unfold AbsoluteDecrement
  rw [absoluteDecrementLoop_take cfg _ _ _ (by omega)]
  simp only [hidx, hread]
  by_cases ht : t = 0
  · subst ht
    rw [Nat.mul_zero, Nat.add_zero] at t3
    simp only [if_true]
    refine ⟨_, rfl, ⟨w1.1, by show x.m_length - 1 ≤ x.m_maxLength; omega⟩, rfl, rfl, ?_,
      Or.inr ⟨by show x.m_length - 1 + 1 = x.m_length; omega, ?_⟩⟩
    · show digitsValue cfg (List.take (x.m_length - 1) _) + 1 =
        digitsValue cfg (x.m_digits.take x.m_length)
      rw [List.take_append_of_le_length (by omega)]
      omega
    · show digitsValue cfg (List.take (x.m_length - 1) _) < _
      rw [List.take_append_of_le_length (by omega)]
      exact t4
  · simp only [ht, if_false]
    have hpos : cfg.base ^ (x.m_length - 1) ≤ cfg.base ^ (x.m_length - 1) * t :=
      Nat.le_mul_of_pos_right _ (by omega)
    refine ⟨_, rfl, w1, rfl, rfl, ?_, Or.inl ⟨rfl, ?_⟩⟩
    · show digitsValue cfg (List.take x.m_length _) + 1 =
        digitsValue cfg (x.m_digits.take x.m_length)
      rw [w2]
      exact s4
    · show _ ≤ digitsValue cfg (List.take x.m_length _)
      rw [w2]
      omega

theorem magnitude_lt (cfg : Config) (x : JavascriptBigInt) (hwf : WellFormed cfg x) :
    magnitude cfg x < cfg.base ^ x.m_length := by
  obtain ⟨⟨hlen, hmax, hdig⟩, hle⟩ := hwf
  have := digitsValue_lt cfg (x.m_digits.take x.m_length)
    (fun d hd => hdig d (List.mem_of_mem_take hd))
  rwa [List.length_take, Nat.min_eq_left (by omega)] at this

/-- Helper: the most significant digit of a well-formed value is 0 exactly when the magnitude
is below `base ^ (m_length - 1)`. -/
theorem top_digit (cfg : Config) (x : JavascriptBigInt) (hwf : WellFormed cfg x)
    (h1 : 1 ≤ x.m_length) :
    ∃ t, x.m_digits[x.m_length - 1]? = some t ∧
      (t = 0 ↔ magnitude cfg x < cfg.base ^ (x.m_length - 1)) := by
  obtain ⟨⟨hlen, hmax, hdig⟩, hle⟩ := hwf
  have hl : (x.m_digits.take x.m_length).length = (x.m_length - 1) + 1 := by
    rw [List.length_take]; omega
  obtain ⟨t, t1, t2, t3, t4⟩ := digitsValue_top cfg (x.m_digits.take x.m_length)
    (x.m_length - 1) hl (fun d hd => hdig d (List.mem_of_mem_take hd))
  have e : (x.m_digits.take x.m_length)[x.m_length - 1]? = x.m_digits[x.m_length - 1]? := by
    rw [List.getElem?_take]
    simp
    omega
  rw [e] at t1
  refine ⟨t, t1, ?_⟩
  unfold magnitude
  rw [t3]
  constructor
  · intro h; subst h; simpa using t4
  · intro h
    by_contra hne
    have : cfg.base ^ (x.m_length - 1) ≤ cfg.base ^ (x.m_length - 1) * t :=
      Nat.le_mul_of_pos_right _ (by omega)
    omega

theorem Canonical.wellFormed {cfg : Config} {x : JavascriptBigInt} (h : Canonical cfg x) :
    WellFormed cfg x := ⟨h.1, h.2.2.1⟩

theorem Canonical.one_lt_base {cfg : Config} {x : JavascriptBigInt} (h : Canonical cfg x) :
    1 < cfg.base := by
  obtain ⟨⟨_, hmax, _⟩, h1, h2, _⟩ := h
  omega

/-- Helper: a canonical value is the non-negative `[0]` or has a magnitude of at least
`base ^ (m_length - 1)`. -/
theorem Canonical.cases {cfg : Config} {x : JavascriptBigInt} (h : Canonical cfg x) :
    (x.m_length = 1 ∧ x.m_isNegative = false ∧ magnitude cfg x = 0 ∧
      x.m_digits[0]? = some 0) ∨
    (cfg.base ^ (x.m_length - 1) ≤ magnitude cfg x ∧ 1 ≤ magnitude cfg x ∧
      x.m_digits[x.m_length - 1]? ≠ some 0) := by
  have hwf := h.wellFormed
  obtain ⟨_, h1, _, h3⟩ := h
  obtain ⟨t, t1, t2⟩ := top_digit cfg x hwf h1
  by_cases ht : t = 0
  · subst ht
    obtain ⟨e1, e2⟩ := h3 t1
    left
    have := t2.mp rfl
    rw [e1] at this t1
    simp at this
    exact ⟨e1, e2, this, t1⟩
  · right
    have hp : 0 < cfg.base ^ (x.m_length - 1) := pow_pos cfg.base_pos _
    have : ¬ magnitude cfg x < cfg.base ^ (x.m_length - 1) := fun hh => ht (t2.mpr hh)
    refine ⟨by omega, by omega, ?_⟩
    rw [t1]
    simpa using ht

/-- Helper: a well-formed value whose magnitude reaches `base ^ (m_length - 1)` is
canonical. -/
theorem Canonical.of_bound {cfg : Config} {x : JavascriptBigInt} (hwf : WellFormed cfg x)
    (h1 : 1 ≤ x.m_length) (hb : cfg.base ^ (x.m_length - 1) ≤ magnitude cfg x) :
    Canonical cfg x := by
  refine ⟨hwf.1, h1, hwf.2, ?_⟩
  intro h0
  obtain ⟨t, t1, t2⟩ := top_digit cfg x hwf h1
  rw [t1] at h0
  have : t = 0 := by simpa using h0
  have := t2.mp this
  omega

/-- Helper: a well-formed non-negative value of length 1 is canonical. -/
theorem Canonical.of_length_one {cfg : Config} {x : JavascriptBigInt} (hwf : WellFormed cfg x)
    (h1 : x.m_length = 1) (hs : x.m_isNegative = false) : Canonical cfg x :=
  ⟨hwf.1, by omega, hwf.2, fun _ => ⟨h1, hs⟩⟩

theorem magnitude_of_length_one (cfg : Config) (x : JavascriptBigInt) (d : Nat)
    (h1 : x.m_length = 1) (h0 : x.m_digits[0]? = some d) : magnitude cfg x = d := by
  unfold magnitude
  rw [h1]
  cases hx : x.m_digits with
  | nil => rw [hx] at h0; simp at h0
  | cons e es =>
    rw [hx] at h0
    simp at h0
    simp [digitsValue_cons, digitsValue_nil, h0]

theorem pow_pred_lt (B n : Nat) (hB : 1 < B) (hn : 2 ≤ n) : B ^ (n - 2) + 1 ≤ B ^ (n - 1) := by
  have e : n - 1 = (n - 2) + 1 := by omega
  rw [e, pow_succ]
  have hp : 0 < B ^ (n - 2) := pow_pos (by omega) _
  nlinarith

/-- Helper: writing digit 0 of a well-formed value of length 1. -/
theorem wellFormed_set_zero (cfg : Config) (x : JavascriptBigInt) (v : Nat) (s : Bool)
    (hv : v < cfg.base) (hwf : WellFormed cfg x) (h1 : x.m_length = 1) :
    writeDigit x.m_digits 0 v = .ok (x.m_digits.set 0 v) ∧
    WellFormed cfg { x with m_digits := x.m_digits.set 0 v, m_isNegative := s } ∧
    magnitude cfg { x with m_digits := x.m_digits.set 0 v, m_isNegative := s } = v := by
  obtain ⟨⟨hlen, hmax, hdig⟩, hle⟩ := hwf
  have hpos : 0 < x.m_digits.length := by omega
  refine ⟨by simp [writeDigit, hpos], ⟨⟨by simpa using hlen, hmax, ?_⟩, hle⟩, ?_⟩
  · intro d hd
    rcases List.mem_or_eq_of_mem_set hd with e | e
    · exact hdig d e
    · rw [e]; exact hv
  · refine magnitude_of_length_one cfg _ v h1 ?_
    show (x.m_digits.set 0 v)[0]? = some v
    rw [List.getElem?_set_self]
    simp [hpos]

/-- Helper: `Increment` on a canonical value, or on a non-negative value of length 0, leaves
a canonical value that denotes one more. -/
theorem Increment_spec (cfg : Config) (hB : 1 < cfg.base) (x y : JavascriptBigInt)
    (hx : Canonical cfg x ∨ (WellFormed cfg x ∧ x.m_length = 0 ∧ x.m_isNegative = false))
    (h : Increment cfg x = .ok y) : Canonical cfg y ∧ val cfg y = val cfg x + 1 := by
  cases hs : x.m_isNegative with
  | true =>
    have hc : Canonical cfg x := by
      rcases hx with hc | ⟨_, _, e⟩
      · exact hc
      · rw [hs] at e; cases e
    have hwf := hc.wellFormed
    have hlen1 : 1 ≤ x.m_length := hc.2.1
    rcases hc.cases with ⟨_, e, _⟩ | ⟨c1, c2, c3⟩
    · rw [hs] at e; cases e
    obtain ⟨y', d1, d2, d3, d4, d5, d6⟩ := AbsoluteDecrement_spec cfg hB x hwf hlen1 c2
    have hdec : y = y' → Canonical cfg y ∧ val cfg y = val cfg x + 1 ∨ x.m_length = 1 ∧
        magnitude cfg x = 1 := by
      intro e
      subst e
      have hv : val cfg y = val cfg x + 1 := by
        unfold val
        rw [d3, hs]
        simp only [if_true]
        omega
      rcases d6 with ⟨e1, e2⟩ | ⟨e1, e2⟩
      · left
        exact ⟨Canonical.of_bound d2 (by omega) (by rw [e1]; exact e2), hv⟩
      · by_cases h2 : 2 ≤ x.m_length
        · left
          refine ⟨Canonical.of_bound d2 (by omega) ?_, hv⟩
          have := pow_pred_lt cfg.base x.m_length hB h2
          have e3 : y.m_length - 1 = x.m_length - 2 := by omega
          rw [e3]
          omega
        · right
          have h1 : x.m_length = 1 := by omega
          rw [h1] at e2 c1
          simp at e2 c1
          exact ⟨h1, by omega⟩
    unfold Increment at h
    simp only [hs, if_true] at h
    by_cases h1 : x.m_length = 1
    · have hpos : 0 < x.m_digits.length := by
        have := hwf.1.1; have := hwf.2; omega
      have hr := readDigit_of_lt hpos
      have hm := magnitude_of_length_one cfg x _ h1 (List.getElem?_eq_getElem hpos)
      simp only [h1, if_true, hr] at h
      by_cases hd : x.m_digits[0] = 1
      · obtain ⟨w1, w2, w3⟩ := wellFormed_set_zero cfg x 0 false (by omega) hwf h1
        simp only [h1] at w2 w3
        simp only [hd, beq_self_eq_true, w1, Except.ok.injEq] at h
        subst h
        refine ⟨Canonical.of_length_one w2 rfl rfl, ?_⟩
        unfold val
        rw [hs, w3, hm, hd]
        simp
      · have hb : (x.m_digits[0] == 1) = false := by simpa using hd
        simp only [hb] at h
        rw [d1, Except.ok.injEq] at h
        rcases hdec h.symm with r | ⟨_, r⟩
        · exact r
        · rw [hm] at r
          exact absurd r hd
    · simp only [h1, if_false] at h
      rw [d1, Except.ok.injEq] at h
      rcases hdec h.symm with r | ⟨r, _⟩
      · exact r
      · exact absurd r h1
  | false =>
    have hwf : WellFormed cfg x := by
      rcases hx with hc | ⟨w, _⟩
      · exact hc.wellFormed
      · exact w
    unfold Increment at h
    simp only [hs] at h
    obtain ⟨a1, a2, a3, a4⟩ := AbsoluteIncrement_spec cfg hB x y hwf h
    have hv : val cfg y = val cfg x + 1 := by
      unfold val
      rw [a2, hs, a3]
      simp
    refine ⟨?_, hv⟩
    rcases a4 with ⟨e1, e2⟩ | ⟨e1, e2⟩
    · rcases hx with hc | ⟨_, l0, _⟩
      · refine Canonical.of_bound a1 (by rw [e1]; exact hc.2.1) ?_
        rw [e1, a3]
        rcases hc.cases with ⟨c1, _, _, _⟩ | ⟨c1, _, _⟩
        · rw [c1]; simp
        · omega
      · rw [l0] at e2
        simp at e2
    · refine Canonical.of_bound a1 (by omega) ?_
      rw [e1, a3, e2]
      simp

/-- Helper: `Decrement` on a canonical value leaves a value that denotes one less; the result
is canonical, or non-negative of length 0; a non-negative result has a free cell or digits that
do not overflow when one is added. -/
theorem Decrement_spec (cfg : Config) (x y : JavascriptBigInt)
    (hc : Canonical cfg x) (h : Decrement cfg x = .ok y) :
    val cfg y = val cfg x - 1 ∧
    (Canonical cfg y ∨ (WellFormed cfg y ∧ y.m_length = 0 ∧ y.m_isNegative = false ∧
      x.m_length = 1 ∧ magnitude cfg x = 1)) ∧
    (y.m_isNegative = false →
      y.m_length < y.m_maxLength ∨ magnitude cfg y + 1 < cfg.base ^ y.m_length) := by
  have hB := hc.one_lt_base
  have hwf := hc.wellFormed
  have hlen1 : 1 ≤ x.m_length := hc.2.1
  unfold Decrement at h
  cases hs : x.m_isNegative with
  | true =>
    simp only [hs, if_true] at h
    obtain ⟨a1, a2, a3, a4⟩ := AbsoluteIncrement_spec cfg hB x y hwf h
    rcases hc.cases with ⟨_, e, _⟩ | ⟨c1, c2, c3⟩
    · rw [hs] at e; cases e
    refine ⟨?_, Or.inl ?_, ?_⟩
    · unfold val
      rw [a2, hs, a3]
      simp only [if_true]
      push_cast
      ring
    · rcases a4 with ⟨e1, e2⟩ | ⟨e1, e2⟩
      · exact Canonical.of_bound a1 (by omega) (by rw [e1, a3]; omega)
      · refine Canonical.of_bound a1 (by omega) ?_
        rw [e1, a3, e2]
        simp
    · intro e
      rw [a2, hs] at e
      cases e
  | false =>
    simp only [hs] at h
    rcases hc.cases with ⟨c1, _, c3, c4⟩ | ⟨c1, c2, c3⟩
    · have hz : IsZero x = .ok true := by
        simp [IsZero, c1, readDigit_eq_ok.mpr c4]
      obtain ⟨w1, w2, w3⟩ := wellFormed_set_zero cfg x 1 true hB hwf c1
      simp only [hz, w1, Bool.false_eq_true, if_false, Except.ok.injEq] at h
      subst h
      refine ⟨?_, Or.inl (Canonical.of_bound w2 (by show 1 ≤ x.m_length; omega) ?_),
        fun e => by cases e⟩
      · unfold val
        rw [w3, hs, c3]
        simp
      · rw [w3]
        show cfg.base ^ (x.m_length - 1) ≤ 1
        rw [c1]
        simp
    · have hz : IsZero x = .ok false := by
        unfold IsZero
        by_cases h1 : x.m_length = 1
        · have hpos : 0 < x.m_digits.length := by
            have := hwf.1.1; have := hwf.2; omega
          rw [h1] at c3
          rw [List.getElem?_eq_getElem hpos] at c3
          have : x.m_digits[0] ≠ 0 := by simpa using c3
          simp [h1, readDigit_of_lt hpos, this]
        · simp [h1]
      obtain ⟨y', d1, d2, d3, d4, d5, d6⟩ := AbsoluteDecrement_spec cfg hB x hwf hlen1 c2
      simp only [hz, Bool.false_eq_true, if_false, d1, Except.ok.injEq] at h
      subst h
      have hmx := magnitude_lt cfg x hwf
      refine ⟨?_, ?_, ?_⟩
      · unfold val
        rw [d3, hs]
        simp only [Bool.false_eq_true, if_false]
        omega
      · rcases d6 with ⟨e1, e2⟩ | ⟨e1, e2⟩
        · left
          exact Canonical.of_bound d2 (by omega) (by rw [e1]; exact e2)
        · by_cases h2 : 2 ≤ x.m_length
          · left
            refine Canonical.of_bound d2 (by omega) ?_
            have := pow_pred_lt cfg.base x.m_length hB h2
            have e3 : y'.m_length - 1 = x.m_length - 2 := by omega
            rw [e3]
            omega
          · right
            have h1 : x.m_length = 1 := by omega
            rw [h1] at e2 c1
            simp at e2 c1
            exact ⟨d2, by omega, by rw [d3, hs], h1, by omega⟩
      · intro _
        rcases d6 with ⟨e1, _⟩ | ⟨e1, _⟩
        · right
          rw [e1]
          omega
        · left
          have := hwf.2
          omega

/-- Helper: `Increment` returns on a negative canonical value, and on a non-negative value
when the buffer has a free cell or the digits do not overflow. -/
theorem Increment_ok (cfg : Config) (hB : 1 < cfg.base) (x : JavascriptBigInt)
    (hx : Canonical cfg x ∨ (WellFormed cfg x ∧ x.m_length = 0 ∧ x.m_isNegative = false))
    (hroom : x.m_isNegative = false →
      x.m_length < x.m_maxLength ∨ magnitude cfg x + 1 < cfg.base ^ x.m_length) :
    ∃ y, Increment cfg x = .ok y := by
  cases hs : x.m_isNegative with
  | true =>
    have hc : Canonical cfg x := by
      rcases hx with hc | ⟨_, _, e⟩
      · exact hc
      · rw [hs] at e; cases e
    have hwf := hc.wellFormed
    rcases hc.cases with ⟨_, e, _⟩ | ⟨c1, c2, c3⟩
    · rw [hs] at e; cases e
    obtain ⟨y', d1, _⟩ := AbsoluteDecrement_spec cfg hB x hwf hc.2.1 c2
    unfold Increment
    simp only [hs, if_true]
    by_cases h1 : x.m_length = 1
    · have hpos : 0 < x.m_digits.length := by
        have := hwf.1.1; have := hwf.2; omega
      simp only [h1, if_true, readDigit_of_lt hpos]
      by_cases hd : x.m_digits[0] = 1
      · obtain ⟨w1, _, _⟩ := wellFormed_set_zero cfg x 0 false (by omega) hwf h1
        simp only [hd, beq_self_eq_true, w1]
        exact ⟨_, rfl⟩
      · have hb : (x.m_digits[0] == 1) = false := by simpa using hd
        simp only [hb]
        exact ⟨y', d1⟩
    · simp only [h1, if_false]
      exact ⟨y', d1⟩
  | false =>
    have hwf : WellFormed cfg x := by
      rcases hx with hc | ⟨w, _⟩
      · exact hc.wellFormed
      · exact w
    unfold Increment
    simp only [hs]
    exact AbsoluteIncrement_ok cfg hB x hwf (hroom hs)

/-- Helper: `Decrement` returns on a non-negative canonical value, and on a negative one when
the buffer has a free cell or the digits do not overflow. -/
theorem Decrement_ok (cfg : Config) (x : JavascriptBigInt) (hc : Canonical cfg x)
    (hroom : x.m_isNegative = true →
      x.m_length < x.m_maxLength ∨ magnitude cfg x + 1 < cfg.base ^ x.m_length) :
    ∃ y, Decrement cfg x = .ok y := by
  have hB := hc.one_lt_base
  have hwf := hc.wellFormed
  unfold Decrement
  cases hs : x.m_isNegative with
  | true =>
    simp only [if_true]
    exact AbsoluteIncrement_ok cfg hB x hwf (hroom hs)
  | false =>
    simp only [Bool.false_eq_true, if_false]
    rcases hc.cases with ⟨c1, _, c3, c4⟩ | ⟨c1, c2, c3⟩
    · have hz : IsZero x = .ok true := by
        simp [IsZero, c1, readDigit_eq_ok.mpr c4]
      obtain ⟨w1, _, _⟩ := wellFormed_set_zero cfg x 1 true hB hwf c1
      simp only [hz, w1]
      exact ⟨_, rfl⟩
    · obtain ⟨y', d1, _⟩ := AbsoluteDecrement_spec cfg hB x hwf hc.2.1 c2
      have hz : IsZero x = .ok false := by
        unfold IsZero
        by_cases h1 : x.m_length = 1
        · have hpos : 0 < x.m_digits.length := by
            have := hwf.1.1; have := hwf.2; omega
          rw [h1] at c3
          rw [List.getElem?_eq_getElem hpos] at c3
          have : x.m_digits[0] ≠ 0 := by simpa using c3
          simp [h1, readDigit_of_lt hpos, this]
        · simp [h1]
      simp only [hz]
      exact ⟨y', d1⟩

/-- Helper: two canonical values that denote the same integer compare equal. -/
theorem Compare_eq_zero_of_val_eq (cfg : Config) (a b : JavascriptBigInt)
    (ha : Canonical cfg a) (hb : Canonical cfg b) (hv : val cfg a = val cfg b) :
    Compare a b = .ok 0 := by
  have hB := ha.one_lt_base
  have wa := ha.wellFormed
  have wb := hb.wellFormed
  have la := magnitude_lt cfg a wa
  have lb := magnitude_lt cfg b wb
  -- same sign and same magnitude
  have hsm : a.m_isNegative = b.m_isNegative ∧ magnitude cfg a = magnitude cfg b := by
    unfold val at hv
    rcases ha.cases with ⟨_, a2, a3, _⟩ | ⟨_, a2, _⟩ <;>
    rcases hb.cases with ⟨_, b2, b3, _⟩ | ⟨_, b2, _⟩
    · exact ⟨by rw [a2, b2], by rw [a3, b3]⟩
    · rw [a2, a3] at hv
      cases hsb : b.m_isNegative <;> rw [hsb] at hv <;> simp at hv <;> omega
    · rw [b2, b3] at hv
      cases hsa : a.m_isNegative <;> rw [hsa] at hv <;> simp at hv <;> omega
    · cases hsa : a.m_isNegative <;> cases hsb : b.m_isNegative <;>
        rw [hsa, hsb] at hv <;> simp at hv <;> first | omega | exact ⟨rfl, by omega⟩
  obtain ⟨hs, hm⟩ := hsm
  -- same length
  have hl : a.m_length = b.m_length := by
    rcases ha.cases with ⟨a1, _, a3, _⟩ | ⟨a1, a2, _⟩ <;>
    rcases hb.cases with ⟨b1, _, b3, _⟩ | ⟨b1, b2, _⟩
    · rw [a1, b1]
    · omega
    · omega
    · rcases Nat.lt_trichotomy a.m_length b.m_length with h | h | h
      · have := Nat.pow_le_pow_right (by omega : 0 < cfg.base) (by omega : a.m_length ≤ b.m_length - 1)
        omega
      · exact h
      · have := Nat.pow_le_pow_right (by omega : 0 < cfg.base) (by omega : b.m_length ≤ a.m_length - 1)
        omega
  have hda := wa.1.2.2
  have hdb := wb.1.2.2
  have hla : a.m_length ≤ a.m_digits.length := by have := wa.1.1; have := wa.2; omega
  have hlb : b.m_length ≤ b.m_digits.length := by have := wb.1.1; have := wb.2; omega
  have htake : a.m_digits.take a.m_length = b.m_digits.take a.m_length := by
    apply digitsValue_inj cfg
    · rw [List.length_take, List.length_take]; omega
    · exact fun d hd => hda d (List.mem_of_mem_take hd)
    · exact fun d hd => hdb d (List.mem_of_mem_take hd)
    · have : magnitude cfg b = digitsValue cfg (b.m_digits.take a.m_length) := by
        unfold magnitude; rw [hl]
      rw [← this, ← hm]
      rfl
  apply Compare_eq_zero_of_same a b hla hlb hs hl
  intro i hi
  have e1 : (a.m_digits.take a.m_length)[i]? = a.m_digits[i]? := by
    rw [List.getElem?_take]; simp [hi]
  have e2 : (b.m_digits.take a.m_length)[i]? = b.m_digits[i]? := by
    rw [List.getElem?_take]; simp [hi]
  rw [← e1, ← e2, htake]

/-- Helper: a canonical value with magnitude 1 is the digit list `[1]` of length 1. -/
theorem Canonical.magnitude_one {cfg : Config} {x : JavascriptBigInt} (hc : Canonical cfg x)
    (hm : magnitude cfg x = 1) : x.m_length = 1 ∧ x.m_digits[0]? = some 1 := by
  have hB := hc.one_lt_base
  have hwf := hc.wellFormed
  have h1 : x.m_length = 1 := by
    rcases hc.cases with ⟨c1, _⟩ | ⟨c1, _, _⟩
    · exact c1
    · by_contra hne
      have : 1 < cfg.base ^ (x.m_length - 1) :=
        Nat.one_lt_pow (by have := hc.2.1; omega) hB
      omega
  have hpos : 0 < x.m_digits.length := by
    have := hwf.1.1; have := hwf.2; omega
  have := magnitude_of_length_one cfg x _ h1 (List.getElem?_eq_getElem hpos)
  refine ⟨h1, ?_⟩
  rw [List.getElem?_eq_getElem hpos, ← this, hm]

/-- Helper: `Decrement` does not return on a non-negative value of length 0: the read of
`m_digits[m_length - 1]` is outside the buffer. -/
theorem Decrement_empty (cfg : Config) (x : JavascriptBigInt) (hwf : WellFormed cfg x)
    (h0 : x.m_length = 0) (hs : x.m_isNegative = false) :
    Decrement cfg x = .error .outOfBounds := by
  obtain ⟨⟨hlen, hmax, _⟩, _⟩ := hwf
  have hidx : (0 + (cfg.base - 1)) % cfg.base = cfg.base - 1 := by
    rw [Nat.zero_add]
    exact Nat.mod_eq_of_lt (by omega)
  have hread : readDigit x.m_digits (cfg.base - 1) = .error .outOfBounds := by
    unfold readDigit
    rw [List.getElem?_eq_none (by omega)]
  simp [Decrement, hs, IsZero, h0, AbsoluteDecrement, absoluteDecrementLoop, hidx, hread]

/-- Helper: the values met in a run of increments and decrements from a canonical value are
canonical, or non-negative of length 0. -/
theorem runOps_invariant (cfg : Config) (hB : 1 < cfg.base) (ops : List Op) :
    ∀ (x y : JavascriptBigInt),
      (Canonical cfg x ∨ (WellFormed cfg x ∧ x.m_length = 0 ∧ x.m_isNegative = false)) →
      runOps cfg ops x = .ok y →
      (Canonical cfg y ∨ (WellFormed cfg y ∧ y.m_length = 0 ∧ y.m_isNegative = false)) := by
  induction ops with
  | nil =>
    intro x y hx h
    simp only [runOps, Except.ok.injEq] at h
    subst h
    exact hx
  | cons op ops ih =>
    intro x y hx h
    unfold runOps at h
    cases hop : applyOp cfg op x with
    | error e => simp [hop] at h
    | ok z =>
      simp only [hop] at h
      refine ih z y ?_ h
      cases op with
      | increment => exact Or.inl (Increment_spec cfg hB x z hx hop).1
      | decrement =>
        rcases hx with hc | ⟨w, l0, s0⟩
        · rcases (Decrement_spec cfg x z hc hop).2.1 with r | ⟨r1, r2, r3, _⟩
          · exact Or.inl r
          · exact Or.inr ⟨r1, r2, r3⟩
        · have := Decrement_empty cfg x w l0 s0
          simp only [applyOp] at hop
          rw [this] at hop
          cases hop

/-- C4 (the code at the failing input): from the canonical zero, `Increment` gives 1 and
`Decrement` then leaves `m_length = 0`, so `Compare` with the zero it started from is -1 and
`Equals` is false. -/
theorem Increment_Decrement_zero_not_equal :
    InitFromCharDigits cfg32 ⟨[], 0, 2, false⟩ [48, 110] 2 false = .ok ⟨[0, 0], 1, 2, false⟩ ∧
    Canonical cfg32 ⟨[0, 0], 1, 2, false⟩ ∧
    Increment cfg32 ⟨[0, 0], 1, 2, false⟩ = .ok ⟨[1, 0], 1, 2, false⟩ ∧
    Decrement cfg32 ⟨[1, 0], 1, 2, false⟩ = .ok ⟨[0, 0], 0, 2, false⟩ ∧
    Compare ⟨[0, 0], 0, 2, false⟩ ⟨[0, 0], 1, 2, false⟩ = .ok (-1) ∧
    Equals ⟨[0, 0], 0, 2, false⟩ ⟨[0, 0], 1, 2, false⟩ = .ok false := by
  refine ⟨by decide, by decide, by decide, by decide, by decide, by decide⟩

/-- C6 (the code at the failing input): `Decrement` on the canonical value 1 removes the only
digit and leaves `m_length = 0`, which is not canonical. -/
theorem Decrement_one_not_canonical :
    Canonical cfg32 ⟨[1, 0], 1, 2, false⟩ ∧
    Decrement cfg32 ⟨[1, 0], 1, 2, false⟩ = .ok ⟨[0, 0], 0, 2, false⟩ ∧
    (⟨[0, 0], 0, 2, false⟩ : JavascriptBigInt).m_length = 0 ∧
    ¬ Canonical cfg32 ⟨[0, 0], 0, 2, false⟩ := by
  refine ⟨by decide, by decide, rfl, by decide⟩

/-- C7: starting from any canonical value, a value returned by a finite sequence of in-place
`Increment` and `Decrement` operations is never a negative zero (`isNegative = true` with
length 1 and digit 0). -/
theorem no_negative_zero (cfg : Config) (x y : JavascriptBigInt) (ops : List Op)
    (hc : Canonical cfg x) (h : runOps cfg ops x = .ok y) : ¬ IsNegativeZero y := by
  have hB := hc.one_lt_base
  rintro ⟨n1, n2, n3⟩
  rcases runOps_invariant cfg hB ops x y (Or.inl hc) h with r | ⟨_, r, _⟩
  · obtain ⟨_, _, _, r4⟩ := r
    rw [n2] at r4
    have := (r4 n3).2
    rw [n1] at this
    cases this
  · omega

theorem no_negative_zero_witness :
    Canonical cfg32 ⟨[0, 0], 1, 2, false⟩ ∧
    runOps cfg32 [.decrement, .increment, .increment, .decrement] ⟨[0, 0], 1, 2, false⟩ =
      .ok ⟨[0, 0], 0, 2, false⟩ ∧
    ¬ IsNegativeZero ⟨[0, 0], 0, 2, false⟩ :=
  have hc : Canonical cfg32 ⟨[0, 0], 1, 2, false⟩ := by
    decide
  have h : runOps cfg32 [.decrement, .increment, .increment, .decrement]
      ⟨[0, 0], 1, 2, false⟩ = .ok ⟨[0, 0], 0, 2, false⟩ := by decide
  ⟨hc, h, no_negative_zero cfg32 _ _ _ hc h⟩

theorem Config.base_eq_sq (cfg : Config) :
    cfg.base = 2 ^ (cfg.sizeofDigit * 4) * 2 ^ (cfg.sizeofDigit * 4) := by
  unfold Config.base Config.digitBits
  rw [← pow_add]
  congr 1
  omega

theorem Config.one_lt_base_of_sizeof (cfg : Config) (hs : 1 ≤ cfg.sizeofDigit) :
    1 < cfg.base := by
  unfold Config.base Config.digitBits
  exact Nat.one_lt_two_pow (by omega)

/-- What `MulDigit` computes on digits: `low + base * high = a * b`, both halves digits. -/
theorem MulDigit_spec (cfg : Config) (hs : 1 ≤ cfg.sizeofDigit) (a b : Nat)
    (ha : a < cfg.base) (hb : b < cfg.base) :
    (MulDigit cfg a b).1 < cfg.base ∧ (MulDigit cfg a b).2 < cfg.base ∧
    (MulDigit cfg a b).1 + cfg.base * (MulDigit cfg a b).2 = a * b := by
  have hsq := cfg.base_eq_sq
  have hH1 : 1 < 2 ^ (cfg.sizeofDigit * 4) := Nat.one_lt_two_pow (by omega)
  have hbits : (cfg.sizeofDigit * 4) % cfg.base = cfg.sizeofDigit * 4 := by
    apply Nat.mod_eq_of_lt
    have h1 : cfg.sizeofDigit * 4 < 2 ^ (cfg.sizeofDigit * 4) := Nat.lt_two_pow _
    rw [hsq]
    nlinarith
  have hmask : ((1 <<< (cfg.sizeofDigit * 4)) % cfg.base + (cfg.base - 1)) % cfg.base =
      2 ^ (cfg.sizeofDigit * 4) - 1 := by
    rw [Nat.one_shiftLeft]
    have h1 : 2 ^ (cfg.sizeofDigit * 4) < cfg.base := by rw [hsq]; nlinarith
    rw [Nat.mod_eq_of_lt h1]
    have h2 : 2 ^ (cfg.sizeofDigit * 4) + (cfg.base - 1) =
        (2 ^ (cfg.sizeofDigit * 4) - 1) + cfg.base := by omega
    rw [h2, Nat.add_mod_right]
    exact Nat.mod_eq_of_lt (by omega)
  unfold MulDigit
  simp only [hbits]
  simp only [hmask]
  simp only [Nat.and_pow_two_sub_one_eq_mod, Nat.shiftRight_eq_div_pow, Nat.shiftLeft_eq]
  generalize hH : 2 ^ (cfg.sizeofDigit * 4) = H at *
  generalize hBdef : cfg.base = B at *
  subst hsq
  have hHpos : 0 < H := by omega
  have haL : a % H < H := Nat.mod_lt _ hHpos
  have hbL : b % H < H := Nat.mod_lt _ hHpos
  have haH : a / H < H := Nat.div_lt_of_lt_mul ha
  have hbH : b / H < H := Nat.div_lt_of_lt_mul hb
  have ea : a = H * (a / H) + a % H := (Nat.div_add_mod a H).symm
  have eb : b = H * (b / H) + b % H := (Nat.div_add_mod b H).symm
  generalize a % H = aL at *
  generalize a / H = aH at *
  generalize b % H = bL at *
  generalize b / H = bH at *
  have r1 : (aL * bL) % (H * H) = aL * bL := Nat.mod_eq_of_lt (Nat.mul_lt_mul'' haL hbL)
  have r2 : (aL * bH) % (H * H) = aL * bH := Nat.mod_eq_of_lt (Nat.mul_lt_mul'' haL hbH)
  have r3 : (aH * bL) % (H * H) = aH * bL := Nat.mod_eq_of_lt (Nat.mul_lt_mul'' haH hbL)
  have r4 : (aH * bH) % (H * H) = aH * bH := Nat.mod_eq_of_lt (Nat.mul_lt_mul'' haH hbH)
  simp only [r1, r2, r3, r4, Nat.mul_mod_mul_right]
  have em1 : aL * bH = H * (aL * bH / H) + aL * bH % H := (Nat.div_add_mod _ H).symm
  have em2 : aH * bL = H * (aH * bL / H) + aH * bL % H := (Nat.div_add_mod _ H).symm
  have hm1 : aL * bH % H < H := Nat.mod_lt _ hHpos
  have hm2 : aH * bL % H < H := Nat.mod_lt _ hHpos
  generalize aL * bH % H = m1r at *
  generalize aL * bH / H = m1q at *
  generalize aH * bL % H = m2r at *
  generalize aH * bL / H = m2q at *
  have ht1 : m1r * H < H * H := Nat.mul_lt_mul_of_pos_right hm1 hHpos
  have ht2 : m2r * H < H * H := Nat.mul_lt_mul_of_pos_right hm2 hHpos
  have hll : aL * bL < H * H := Nat.mul_lt_mul'' haL hbL
  have hHH : 2 * 2 ≤ H * H := Nat.mul_le_mul hH1 hH1
  have hB4 : 0 + 1 < H * H := by omega
  obtain ⟨s1, s2, s3, s4⟩ := AddDigit_spec cfg (aL * bL) (m1r * H) 0
    (by rw [hBdef]; exact hll) (by rw [hBdef]; exact ht1) (by rw [hBdef]; exact hB4)
  have hB5 : (AddDigit cfg (aL * bL) (m1r * H) 0).2 + 1 < H * H := by omega
  obtain ⟨u1, u2, u3, u4⟩ := AddDigit_spec cfg (AddDigit cfg (aL * bL) (m1r * H) 0).1 (m2r * H)
    (AddDigit cfg (aL * bL) (m1r * H) 0).2 s1 (by rw [hBdef]; exact ht2)
    (by rw [hBdef]; exact hB5)
  rw [hBdef] at s1 s4 u1 u4
  generalize (AddDigit cfg (AddDigit cfg (aL * bL) (m1r * H) 0).1 (m2r * H)
    (AddDigit cfg (aL * bL) (m1r * H) 0).2) = p2 at *
  generalize (AddDigit cfg (aL * bL) (m1r * H) 0) = p1 at *
  have key : p2.1 + H * H * (m1q + m2q + aH * bH + p2.2) = a * b := by
    rw [ea, eb]
    zify at s4 u4 em1 em2 ⊢
    linear_combination u4 + s4 - H * em1 - H * em2
  have hab : a * b < H * H * (H * H) := Nat.mul_lt_mul'' ha hb
  have hhigh : m1q + m2q + aH * bH + p2.2 < H * H := by
    by_contra hge
    have : H * H * (H * H) ≤ H * H * (m1q + m2q + aH * bH + p2.2) :=
      Nat.mul_le_mul_left _ (by omega)
    omega
  rw [Nat.mod_eq_of_lt hhigh]
  exact ⟨u1, hhigh, key⟩

/-- Helper: one iteration of the digit loop of `MulThenAdd` computes `d * digitMul + digitAdd`
exactly; the carry (high half plus at most one) is a digit. -/
theorem mulAddStep_spec (cfg : Config) (hs : 1 ≤ cfg.sizeofDigit) (m d c : Nat)
    (hm : m < cfg.base) (hd : d < cfg.base) (hc : c < cfg.base) :
    (mulAddStep cfg m d c).1 < cfg.base ∧ (mulAddStep cfg m d c).2 < cfg.base ∧
    (mulAddStep cfg m d c).1 + cfg.base * (mulAddStep cfg m d c).2 = d * m + c := by
  have hB := cfg.one_lt_base_of_sizeof hs
  obtain ⟨p1, p2, p3⟩ := MulDigit_spec cfg hs d m hd hm
  unfold mulAddStep
  by_cases h0 : c > 0
  · simp only [h0, if_true]
    have hhigh : (MulDigit cfg d m).2 + 1 < cfg.base := by
      by_contra hge
      have h1 : cfg.base - 1 ≤ (MulDigit cfg d m).2 := by omega
      have h2 : cfg.base * (cfg.base - 1) ≤ cfg.base * (MulDigit cfg d m).2 :=
        Nat.mul_le_mul_left _ h1
      have h3 : d * m ≤ (cfg.base - 1) * (cfg.base - 1) :=
        Nat.mul_le_mul (by omega) (by omega)
      have h4 : (cfg.base - 1) * (cfg.base - 1) < cfg.base * (cfg.base - 1) :=
        Nat.mul_lt_mul_of_pos_right (by omega) (by omega)
      omega
    obtain ⟨a1, a2, a3, a4⟩ := AddDigit_spec cfg (MulDigit cfg d m).1 c (MulDigit cfg d m).2
      p1 hc hhigh
    exact ⟨a1, by omega, by omega⟩
  · have : c = 0 := by omega
    subst this
    simp only [h0, if_false]
    exact ⟨p1, p2, by omega⟩

theorem mulList_spec (cfg : Config) (hs : 1 ≤ cfg.sizeofDigit) (m : Nat) (hm : m < cfg.base)
    (l : List Nat) :
    ∀ (c : Nat), c < cfg.base → (∀ d ∈ l, d < cfg.base) →
      (mulList cfg m l c).1.length = l.length ∧ (∀ d ∈ (mulList cfg m l c).1, d < cfg.base) ∧
      (mulList cfg m l c).2 < cfg.base ∧
      digitsValue cfg (mulList cfg m l c).1 + cfg.base ^ l.length * (mulList cfg m l c).2 =
        digitsValue cfg l * m + c := by
  induction l with
  | nil => intro c hc _; simp [mulList, digitsValue_nil, hc]
  | cons d ds ih =>
    intro c hc hl
    have hd : d < cfg.base := hl d (by simp)
    obtain ⟨a1, a2, a3⟩ := mulAddStep_spec cfg hs m d c hm hd hc
    obtain ⟨b1, b2, b3, b4⟩ := ih (mulAddStep cfg m d c).2 a2 (fun x hx => hl x (by simp [hx]))
    simp only [mulList, List.length_cons, b1, digitsValue_cons, pow_succ]
    refine ⟨trivial, ?_, b3, ?_⟩
    · intro x hx
      rcases List.mem_cons.mp hx with e | e
      · rw [e]; exact a1
      · exact b2 x e
    · have : cfg.base * (digitsValue cfg (mulList cfg m ds (mulAddStep cfg m d c).2).1 +
          cfg.base ^ ds.length * (mulList cfg m ds (mulAddStep cfg m d c).2).2) =
          cfg.base * (digitsValue cfg ds * m + (mulAddStep cfg m d c).2) := by rw [b4]
      linarith [this, a3]

/-- Helper: `Resize` for one more digit than a full buffer holds succeeds when growth is
possible. -/
theorem Resize_ok (cfg : Config) (x : JavascriptBigInt) (hwf : WellFormed cfg x)
    (hfull : x.m_length ≥ x.m_maxLength) (hg : GrowthOk cfg x.m_length) :
    ∃ r, Resize cfg x ((x.m_length + 1) % cfg.base) = .ok (true, r) ∧
      r.m_maxLength = 2 * (x.m_length + 1) := by
  obtain ⟨⟨hlen, hmax, hdig⟩, hle⟩ := hwf
  obtain ⟨g1, g2, g3⟩ := hg
  have e1 : (x.m_length + 1) % cfg.base = x.m_length + 1 := Nat.mod_eq_of_lt (by omega)
  have e2 : (x.m_length + 1 + (x.m_length + 1)) % cfg.base = 2 * (x.m_length + 1) := by
    rw [← Nat.two_mul]
    exact Nat.mod_eq_of_lt g1
  have n1 : ¬ x.m_length + 1 ≤ x.m_maxLength := by omega
  have n3 : ¬ cfg.allocOk (2 * (x.m_length + 1)) = false := by rw [g3]; simp
  unfold Resize
  rw [e1]
  simp only [n1, if_false, e2, g2, n3]
  by_cases h0 : 0 < x.m_length
  · have n4 : ¬ 2 * (x.m_length + 1) < x.m_length := by omega
    have n5 : ¬ x.m_digits.length < x.m_length := by omega
    simp only [h0, if_true, js_memcpy_s, List.length_replicate, n4, n5, if_false]
    exact ⟨_, rfl, rfl⟩
  · simp only [h0, if_false]
    exact ⟨_, rfl, rfl⟩

/-- Helper: the guarded append succeeds with a free cell or when growth is possible. -/
theorem appendDigit_ok (cfg : Config) (x : JavascriptBigInt) (v : Nat)
    (onFail : JavascriptBigInt → Except Fault (Bool × JavascriptBigInt))
    (hwf : WellFormed cfg x)
    (hg : x.m_length < x.m_maxLength ∨ GrowthOk cfg x.m_length) :
    ∃ y, appendDigit cfg x v onFail = .ok (true, y) := by
  by_cases hroom : x.m_length < x.m_maxLength
  · exact appendDigit_ok_of_room cfg x v onFail hwf.1.1 hroom
  · have hg' : GrowthOk cfg x.m_length := by
      rcases hg with e | e
      · exact absurd e hroom
      · exact e
    obtain ⟨r, h1, h2⟩ := Resize_ok cfg x hwf (by omega) hg'
    rcases Resize_spec cfg x r _ true hwf h1 with ⟨e, _⟩ | ⟨_, w, l, _, _, _, _⟩
    · cases e
    · have hfull : x.m_length ≥ x.m_maxLength := by omega
      have hw : r.m_length < r.m_digits.length := by
        have := w.1.1
        omega
      unfold appendDigit
      simp only [hfull, if_true, h1, writeDigit, hw]
      exact ⟨_, rfl⟩

/-- Helper: a `MulThenAdd` that returns true on a well-formed value leaves the magnitude
`M * digitMul + digitAdd`, adds at most one digit and keeps the top digit nonzero. -/
theorem MulThenAdd_spec (cfg : Config) (hs : 1 ≤ cfg.sizeofDigit) (x y : JavascriptBigInt)
    (m c : Nat) (hwf : WellFormed cfg x) (hm : m < cfg.base) (hc : c < cfg.base)
    (h : MulThenAdd cfg x m c = .ok (true, y)) :
    WellFormed cfg y ∧ y.m_isNegative = x.m_isNegative ∧
    magnitude cfg y = magnitude cfg x * m + c ∧
    x.m_length ≤ y.m_length ∧ y.m_length ≤ x.m_length + 1 ∧
    (TopNonzero cfg x → 0 < m → TopNonzero cfg y) ∧
    (1 ≤ x.m_maxLength → 1 ≤ y.m_maxLength) := by
  have hwf' := hwf
  obtain ⟨⟨hlen, hmax, hdig⟩, hle⟩ := hwf
  have htake : ∀ d ∈ x.m_digits.take x.m_length, d < cfg.base :=
    fun d hd => hdig d (List.mem_of_mem_take hd)
  have hlt : (x.m_digits.take x.m_length).length = x.m_length := by
    rw [List.length_take]; omega
  obtain ⟨s1, s2, s3, s4⟩ := mulList_spec cfg hs m hm (x.m_digits.take x.m_length) c hc htake
  rw [hlt] at s1 s4
  replace s4 : digitsValue cfg (mulList cfg m (x.m_digits.take x.m_length) c).1 +
      cfg.base ^ x.m_length * (mulList cfg m (x.m_digits.take x.m_length) c).2 =
      magnitude cfg x * m + c := s4
  obtain ⟨w1, w2⟩ := wellFormed_replace cfg x _ hwf' s1 s2
  unfold MulThenAdd at h
  rw [mulThenAddLoop_take cfg _ _ _ _ (by omega)] at h
  simp only at h
  by_cases hcarry : 0 < (mulList cfg m (x.m_digits.take x.m_length) c).2
  · simp only [hcarry, if_true] at h
    rcases appendDigit_spec cfg _ y _ true _ s3 w1 h with ⟨_, e2, e3, e4, _, e6⟩ | e
    · simp only at e3 e4 e6
      rw [w2] at e6
      have hmag : magnitude cfg y = magnitude cfg x * m + c := by
        unfold magnitude
        rw [e3, e6, digitsValue_append, s1]
        simp only [digitsValue_cons, digitsValue_nil, Nat.mul_zero, Nat.add_zero]
        exact s4
      refine ⟨e2, e4, hmag, by omega, by omega, fun _ _ => Or.inr ?_, fun _ => ?_⟩
      · rw [hmag, ← s4, e3, Nat.add_sub_cancel]
        have : cfg.base ^ x.m_length ≤
            cfg.base ^ x.m_length * (mulList cfg m (x.m_digits.take x.m_length) c).2 :=
          Nat.le_mul_of_pos_right _ hcarry
        omega
      · have := e2.2
        omega
    · simp at e
  · have hc0 : (mulList cfg m (x.m_digits.take x.m_length) c).2 = 0 := by omega
    simp only [hcarry, if_false, Except.ok.injEq, Prod.mk.injEq, true_and] at h
    subst h
    rw [hc0, Nat.mul_zero, Nat.add_zero] at s4
    have hmag : magnitude cfg { x with m_digits :=
        (mulList cfg m (x.m_digits.take x.m_length) c).1 ++ x.m_digits.drop x.m_length } =
        magnitude cfg x * m + c := by
      unfold magnitude
      simp only
      rw [w2]
      exact s4
    refine ⟨w1, rfl, hmag, le_refl _, Nat.le_succ _, ?_, fun h1 => h1⟩
    intro htop hm0
    rcases htop with t | t
    · exact Or.inl t
    · right
      rw [hmag]
      show cfg.base ^ (x.m_length - 1) ≤ _
      have : magnitude cfg x ≤ magnitude cfg x * m := Nat.le_mul_of_pos_right _ hm0
      omega

/-- Helper: `MulThenAdd` returns true on a well-formed value with a free cell or when growth
is possible. -/
theorem MulThenAdd_ok (cfg : Config) (hs : 1 ≤ cfg.sizeofDigit) (x : JavascriptBigInt)
    (m c : Nat) (hwf : WellFormed cfg x) (hm : m < cfg.base) (hc : c < cfg.base)
    (hg : x.m_length < x.m_maxLength ∨ GrowthOk cfg x.m_length) :
    ∃ y, MulThenAdd cfg x m c = .ok (true, y) := by
  have hl : x.m_length ≤ x.m_digits.length := by
    have := hwf.1.1; have := hwf.2; omega
  have htake : ∀ d ∈ x.m_digits.take x.m_length, d < cfg.base :=
    fun d hd => hwf.1.2.2 d (List.mem_of_mem_take hd)
  have hlt : (x.m_digits.take x.m_length).length = x.m_length := by
    rw [List.length_take]; omega
  obtain ⟨s1, s2, _, _⟩ := mulList_spec cfg hs m hm (x.m_digits.take x.m_length) c hc htake
  rw [hlt] at s1
  obtain ⟨w1, _⟩ := wellFormed_replace cfg x _ hwf s1 s2
  unfold MulThenAdd
  rw [mulThenAddLoop_take cfg _ _ _ _ hl]
  simp only
  by_cases hcarry : 0 < (mulList cfg m (x.m_digits.take x.m_length) c).2
  · simp only [hcarry, if_true]
    exact appendDigit_ok cfg _ _ _ w1 hg
  · simp only [hcarry, if_false]
    exact ⟨_, rfl⟩

theorem initFromCharDigitsLoop_flush (cfg : Config) (n c : Nat) (chars : List Nat)
    (self r : JavascriptBigInt) (add : Nat) (b : Bool)
    (h : MulThenAdd cfg self 1000000000 add = .ok (b, r)) :
    initFromCharDigitsLoop cfg (n + 1) (c :: chars) (self, 1000000000, add) =
      initFromCharDigitsLoop cfg n chars
        (r, (1 * 10) % cfg.base, (0 * 10 + c + (cfg.base - 48 % cfg.base)) % cfg.base) := by
  simp [initFromCharDigitsLoop, h]

theorem initFromCharDigitsLoop_noflush (cfg : Config) (n c : Nat) (chars : List Nat)
    (self : JavascriptBigInt) (mul add : Nat) (hne : mul ≠ 1000000000) :
    initFromCharDigitsLoop cfg (n + 1) (c :: chars) (self, mul, add) =
      initFromCharDigitsLoop cfg n chars
        (self, (mul * 10) % cfg.base, (add * 10 + c + (cfg.base - 48 % cfg.base)) % cfg.base) := by
  simp [initFromCharDigitsLoop, hne]

theorem Config.billion_lt_base (cfg : Config) (hs : 4 ≤ cfg.sizeofDigit) :
    1000000000 < cfg.base := by
  have h : 2 ^ 32 ≤ cfg.base := by
    unfold Config.base Config.digitBits
    exact Nat.pow_le_pow_right (by omega) (by omega)
  omega

theorem digit_char_mod (B a c : Nat) (hB : 48 < B) (hc : 48 ≤ c) (ha : a + (c - 48) < B) :
    (a + c + (B - 48 % B)) % B = a + (c - 48) := by
  rw [Nat.mod_eq_of_lt hB]
  have : a + c + (B - 48) = (a + (c - 48)) + B := by omega
  rw [this, Nat.add_mod_right]
  exact Nat.mod_eq_of_lt ha

/-- Helper: the character loop of `InitFromCharDigits` keeps
`magnitude * digitMul + digitAdd` equal to the decimal number read so far. -/
theorem initFromCharDigitsLoop_spec (cfg : Config) (hs : 4 ≤ cfg.sizeofDigit) (N : Nat)
    (hg : ∀ m, m ≤ N → GrowthOk cfg m) :
    ∀ (n : Nat) (chars : List Nat) (self : JavascriptBigInt) (k add cnt : Nat),
      n ≤ chars.length → (∀ c ∈ chars.take n, IsDigit c) →
      WellFormed cfg self → TopNonzero cfg self → 1 ≤ self.m_maxLength →
      k ≤ 9 → add < 10 ^ k → self.m_length + k ≤ cnt → cnt + n ≤ N →
      ∃ self' k' add',
        initFromCharDigitsLoop cfg n chars (self, 10 ^ k, add) = .ok (self', 10 ^ k', add') ∧
        WellFormed cfg self' ∧ TopNonzero cfg self' ∧ 1 ≤ self'.m_maxLength ∧
        k' ≤ 9 ∧ add' < 10 ^ k' ∧ self'.m_length + k' ≤ cnt + n ∧
        self'.m_isNegative = self.m_isNegative ∧
        magnitude cfg self' * 10 ^ k' + add' =
          (chars.take n).foldl (fun acc c => acc * 10 + (c - 48))
            (magnitude cfg self * 10 ^ k + add) := by
  have hbase := cfg.billion_lt_base hs
  have hs1 : 1 ≤ cfg.sizeofDigit := by omega
  intro n
  induction n with
  | zero =>
    intro chars self k add cnt _ _ hwf htop hcap hk hadd hcnt _
    exact ⟨self, k, add, by simp [initFromCharDigitsLoop], hwf, htop, hcap, hk, hadd, by omega,
      rfl, by simp⟩
  | succ n ih =>
    intro chars self k add cnt hlen hdig hwf htop hcap hk hadd hcnt hN
    cases chars with
    | nil => simp at hlen
    | cons c cs =>
      have hc : IsDigit c := hdig c (by simp)
      have hdig' : ∀ d ∈ cs.take n, IsDigit d := fun d hd => hdig d (by simp [hd])
      have hlen' : n ≤ cs.length := by simpa using hlen
      obtain ⟨hc1, hc2⟩ := hc
      by_cases h9 : k = 9
      · subst h9
        have e9 : (10 : Nat) ^ 9 = 1000000000 := by norm_num
        rw [e9] at hadd ⊢
        obtain ⟨r, hr⟩ := MulThenAdd_ok cfg hs1 self 1000000000 add hwf hbase (by omega)
          (Or.inr (hg _ (by omega)))
        obtain ⟨r1, r2, r3, r4, r5, r6, r7⟩ :=
          MulThenAdd_spec cfg hs1 self r 1000000000 add hwf hbase (by omega) hr
        rw [initFromCharDigitsLoop_flush cfg n c cs self r add true hr]
        have em : (1 * 10) % cfg.base = 10 ^ 1 := by
          rw [Nat.mod_eq_of_lt (by omega)]; norm_num
        have ea : (0 * 10 + c + (cfg.base - 48 % cfg.base)) % cfg.base = c - 48 := by
          have := digit_char_mod cfg.base 0 c (by omega) hc1 (by omega)
          simpa using this
        rw [em, ea]
        obtain ⟨s', k', a', i1, i2, i3, i4, i5, i6, i7, i8, i9⟩ :=
          ih cs r 1 (c - 48) (cnt + 1) hlen' hdig' r1 (r6 htop (by omega)) (r7 hcap)
            (by omega) (by omega) (by omega) (by omega)
        refine ⟨s', k', a', i1, i2, i3, i4, i5, i6, by omega, by rw [i8, r2], ?_⟩
        rw [i9, r3]
        simp [List.take_succ_cons]
      · have hk' : k < 9 := by omega
        have hlt : (10 : Nat) ^ k < 10 ^ 9 := Nat.pow_lt_pow_right (by omega) hk'
        have hle : (10 : Nat) ^ (k + 1) ≤ 10 ^ 9 := Nat.pow_le_pow_right (by omega) (by omega)
        have e9 : (10 : Nat) ^ 9 = 1000000000 := by norm_num
        have hne : (10 : Nat) ^ k ≠ 1000000000 := by omega
        rw [initFromCharDigitsLoop_noflush cfg n c cs self _ add hne]
        have hsucc : (10 : Nat) ^ (k + 1) = 10 ^ k * 10 := pow_succ 10 k
        have hadd' : add * 10 + (c - 48) < 10 ^ (k + 1) := by omega
        have em : (10 ^ k * 10) % cfg.base = 10 ^ (k + 1) := by
          rw [← hsucc]
          exact Nat.mod_eq_of_lt (by omega)
        have ea : (add * 10 + c + (cfg.base - 48 % cfg.base)) % cfg.base =
            add * 10 + (c - 48) :=
          digit_char_mod cfg.base (add * 10) c (by omega) hc1 (by omega)
        rw [em, ea]
        obtain ⟨s', k', a', i1, i2, i3, i4, i5, i6, i7, i8, i9⟩ :=
          ih cs self (k + 1) (add * 10 + (c - 48)) (cnt + 1) hlen' hdig' hwf htop hcap
            (by omega) hadd' (by omega) (by omega)
        refine ⟨s', k', a', i1, i2, i3, i4, i5, i6, by omega, i8, ?_⟩
        rw [i9, hsucc]
        simp only [List.take_succ_cons, List.foldl_cons]
        congr 1
        ring

/-- Helper: `InitFromCharDigits` reads the first `charLength - 1` characters; when they are
decimal digits and growth is possible it returns a canonical value whose magnitude is the
number they write, with the sign flag passed in unless that number is zero. -/
theorem InitFromCharDigits_spec (cfg : Config) (hs : 4 ≤ cfg.sizeofDigit)
    (self : JavascriptBigInt) (chars : List Nat) (charLength : Nat) (s : Bool)
    (hcap : 1 ≤ self.m_maxLength) (hcap2 : self.m_maxLength < cfg.base)
    (hlen : charLength - 1 ≤ chars.length)
    (hdig : ∀ c ∈ chars.take (charLength - 1), IsDigit c)
    (hg : ∀ m, m ≤ charLength - 1 → GrowthOk cfg m) :
    ∃ x, InitFromCharDigits cfg self chars charLength s = .ok x ∧ Canonical cfg x ∧
      magnitude cfg x = decimalValue (chars.take (charLength - 1)) ∧
      (magnitude cfg x ≠ 0 → x.m_isNegative = s) ∧
      (magnitude cfg x = 0 → x.m_isNegative = false ∧ x.m_length = 1) := by
  have hbase := cfg.billion_lt_base hs
  have hs1 : 1 ≤ cfg.sizeofDigit := by omega
  have hwf0 : WellFormed cfg { self with
      m_length := 0, m_digits := List.replicate self.m_maxLength 0, m_isNegative := s } := by
    refine ⟨⟨by simp, hcap2, ?_⟩, Nat.zero_le _⟩
    intro d hd
    rw [List.mem_replicate] at hd
    show d < cfg.base
    omega
  obtain ⟨s', k', a', i1, i2, i3, i4, i5, i6, i7, i8, i9⟩ :=
    initFromCharDigitsLoop_spec cfg hs (charLength - 1) hg (charLength - 1) chars _ 0 0 0
      hlen hdig hwf0 (Or.inl rfl) hcap (by omega) (by norm_num) (by simp) (by omega)
  have hm0 : magnitude cfg { self with
      m_length := 0, m_digits := List.replicate self.m_maxLength 0, m_isNegative := s } = 0 := by
    simp [magnitude, digitsValue_nil]
  rw [hm0] at i9
  simp only [Nat.zero_mul, Nat.add_zero] at i9
  have hk9 : (10 : Nat) ^ k' ≤ 10 ^ 9 := Nat.pow_le_pow_right (by omega) i5
  have e9 : (10 : Nat) ^ 9 = 1000000000 := by norm_num
  have hkpos : 0 < (10 : Nat) ^ k' := pow_pos (by omega) _
  obtain ⟨r, hr⟩ := MulThenAdd_ok cfg hs1 s' (10 ^ k') a' i2 (by omega) (by omega)
    (Or.inr (hg _ (by omega)))
  obtain ⟨r1, r2, r3, r4, r5, r6, r7⟩ :=
    MulThenAdd_spec cfg hs1 s' r (10 ^ k') a' i2 (by omega) (by omega) hr
  have htop := r6 i3 hkpos
  have hcapr := r7 i4
  have hval : magnitude cfg r = decimalValue (chars.take (charLength - 1)) := by
    rw [r3, i9]; rfl
  rw [pow_zero] at i1
  unfold InitFromCharDigits
  simp only
  rw [i1]
  simp only [hr]
  by_cases h0 : r.m_length = 0
  · have hpos : 0 < r.m_digits.length := by have := r1.1.1; omega
    have hmr : magnitude cfg r = 0 := by
      simp [magnitude, h0, digitsValue_nil]
    simp only [h0, if_true, writeDigit, hpos]
    have hwfx : WellFormed cfg { r with
        m_isNegative := false, m_length := 1, m_digits := r.m_digits.set 0 0 } := by
      obtain ⟨⟨q1, q2, q3⟩, _⟩ := r1
      refine ⟨⟨by simpa using q1, q2, ?_⟩, hcapr⟩
      intro d hd
      rcases List.mem_or_eq_of_mem_set hd with e | e
      · exact q3 d e
      · rw [e]; omega
    have hmx : magnitude cfg { r with
        m_isNegative := false, m_length := 1, m_digits := r.m_digits.set 0 0 } = 0 := by
      refine magnitude_of_length_one cfg _ 0 rfl ?_
      show (r.m_digits.set 0 0)[0]? = some 0
      rw [List.getElem?_set_self]
      exact hpos
    refine ⟨_, rfl, Canonical.of_length_one hwfx rfl rfl, ?_, ?_, fun _ => ⟨rfl, rfl⟩⟩
    · rw [hmx, ← hval, hmr]
    · intro hne
      exact absurd hmx hne
  · simp only [h0, if_false]
    have hb : cfg.base ^ (r.m_length - 1) ≤ magnitude cfg r := by
      rcases htop with t | t
      · exact absurd t h0
      · exact t
    have hp : 0 < cfg.base ^ (r.m_length - 1) := pow_pos cfg.base_pos _
    refine ⟨r, rfl, Canonical.of_bound r1 (by omega) hb, hval, fun _ => ?_, fun hz => ?_⟩
    · rw [r2, i8]
    · omega

/-- C1 (as amended): for every sequence `D` of ASCII decimal digits and every sign flag `s`,
on a platform with digits of at least 32 bits where buffer growth succeeds, constructing from
the characters `D` with `charLength = |D|` reads all of `D` but its last character (the last
position is taken for the type marker) and gives a value whose magnitude is the number
written in decimal by `D` without its last character, with sign `s` when that number is not
zero and non-negative when it is. -/
theorem InitFromCharDigits_drops_last_char (cfg : Config) (self : JavascriptBigInt)
    (D : List Nat) (s : Bool) (hs : 4 ≤ cfg.sizeofDigit) (hcap : 1 ≤ self.m_maxLength)
    (hcap2 : self.m_maxLength < cfg.base) (hD : ∀ c ∈ D, IsDigit c)
    (hg : ∀ m, m ≤ D.length - 1 → GrowthOk cfg m) :
    ∃ x, InitFromCharDigits cfg self D D.length s = .ok x ∧
      magnitude cfg x = decimalValue D.dropLast ∧
      (magnitude cfg x ≠ 0 → x.m_isNegative = s) ∧
      (magnitude cfg x = 0 → x.m_isNegative = false) := by
  obtain ⟨x, h1, _, h3, h4, h5⟩ := InitFromCharDigits_spec cfg hs self
    D D.length s hcap hcap2 (Nat.sub_le _ _) (fun c hc => hD c (List.mem_of_mem_take hc)) hg
  refine ⟨x, h1, ?_, h4, fun hz => (h5 hz).1⟩
  rw [h3, List.dropLast_eq_take]

theorem cfg32_growthOk (m : Nat) (hm : m ≤ 1000) : GrowthOk cfg32 m := by
  refine ⟨?_, ?_, rfl⟩
  · show 2 * (m + 1) < 2 ^ 32
    omega
  · show ¬ (4294967295 / 4 < 2 * (m + 1))
    omega

theorem InitFromCharDigits_drops_last_char_witness :
    (∀ c ∈ [49, 50, 51], IsDigit c) ∧
    ∃ x, InitFromCharDigits cfg32 ⟨[], 0, 2, false⟩ [49, 50, 51] 3 true = .ok x ∧
      magnitude cfg32 x = decimalValue [49, 50] ∧
      (magnitude cfg32 x ≠ 0 → x.m_isNegative = true) ∧
      (magnitude cfg32 x = 0 → x.m_isNegative = false) :=
  have hD : ∀ c ∈ [49, 50, 51], IsDigit c := by decide
  ⟨hD, InitFromCharDigits_drops_last_char cfg32 ⟨[], 0, 2, false⟩ [49, 50, 51] true
    (by decide) (by decide) (by decide) hD (fun m hm => cfg32_growthOk m (by simp at hm; omega))⟩

/-- C1 (counterexample): constructing from exactly the two characters `12` with
`charLength = 2` and a negative sign gives the magnitude 1, while the number written by `12`
is 12. -/
theorem InitFromCharDigits_exact_chars_counterexample :
    InitFromCharDigits cfg32 ⟨[], 0, 2, false⟩ [49, 50] 2 true = .ok ⟨[1, 0], 1, 2, true⟩ ∧
    magnitude cfg32 ⟨[1, 0], 1, 2, true⟩ = 1 ∧ decimalValue [49, 50] = 12 ∧
    magnitude cfg32 ⟨[1, 0], 1, 2, true⟩ ≠ decimalValue [49, 50] := by
  refine ⟨by decide, by decide, by decide, by decide⟩

theorem DigitsLt_trans {a b c : List Nat} {n : Nat} (h1 : DigitsLt a b n)
    (h2 : DigitsLt b c n) : DigitsLt a c n := by
  obtain ⟨i, x, y, hi, ax, by', hxy, hab⟩ := h1
  obtain ⟨j, u, v, hj, bu, cv, huv, hbc⟩ := h2
  rcases Nat.lt_trichotomy i j with h | h | h
  · have e := hab j h hj
    rw [bu] at e
    exact ⟨j, u, v, hj, e, cv, huv, fun k hk1 hk2 => by
      rw [hab k (by omega) hk2, hbc k hk1 hk2]⟩
  · subst h
    rw [by'] at bu
    have e : y = u := by simpa using bu
    subst e
    exact ⟨i, x, v, hi, ax, cv, by omega, fun k hk1 hk2 => by
      rw [hab k hk1 hk2, hbc k hk1 hk2]⟩
  · have e := hbc i h hi
    rw [by'] at e
    exact ⟨i, x, y, hi, ax, e.symm, hxy, fun k hk1 hk2 => by
      rw [hab k hk1 hk2, hbc k (by omega) hk2]⟩

/-- Helper: when the scan stops at `idx`, `DigitsLt` is decided by the digits at `idx`. -/
theorem DigitsLt_iff_of_first_diff (a b : List Nat) (n idx : Nat) (hidx : idx < n)
    (ha : idx < a.length) (hb : idx < b.length)
    (heq : ∀ j, idx < j → j < n → a[j]? = b[j]?) (hne : a[idx] ≠ b[idx]) :
    DigitsLt a b n ↔ a[idx] < b[idx] := by
  constructor
  · rintro ⟨i, x, y, hi, ax, by', hxy, hab⟩
    rcases Nat.lt_trichotomy i idx with h | h | h
    · exfalso
      have e := hab idx h hidx
      rw [List.getElem?_eq_getElem ha, List.getElem?_eq_getElem hb] at e
      exact hne (by simpa using e)
    · subst h
      rw [List.getElem?_eq_getElem ha] at ax
      rw [List.getElem?_eq_getElem hb] at by'
      have e1 : a[i] = x := by simpa using ax
      have e2 : b[i] = y := by simpa using by'
      omega
    · exfalso
      have e := heq i h hi
      rw [ax, by'] at e
      have : x = y := by simpa using e
      omega
  · intro h
    exact ⟨idx, a[idx], b[idx], hidx, List.getElem?_eq_getElem ha,
      List.getElem?_eq_getElem hb, h, heq⟩

theorem not_DigitsLt_of_eq (a b : List Nat) (n : Nat)
    (heq : ∀ j, j < n → a[j]? = b[j]?) : ¬ DigitsLt a b n := by
  rintro ⟨i, x, y, hi, ax, by', hxy, _⟩
  have e := heq i hi
  rw [ax, by'] at e
  have : x = y := by simpa using e
  omega

/-- Helper: `Compare` returns -1 exactly on the pairs ordered by `ReprLt`. -/
theorem Compare_lt_iff (a b : JavascriptBigInt)
    (ha : a.m_length ≤ a.m_digits.length) (hb : b.m_length ≤ b.m_digits.length) :
    Compare a b = .ok (-1) ↔ ReprLt a b := by
  obtain ⟨da, la, ma, sa⟩ := a
  obtain ⟨db, lb, mb, sb⟩ := b
  simp only at ha hb
  unfold ReprLt
  simp only
  rcases Nat.lt_trichotomy la lb with hlt | heq | hgt
  · have h1 : ¬ la > lb := by omega
    have h2 : ¬ lb < la := by omega
    have h3 : ¬ la = lb := by omega
    cases sa <;> cases sb <;> simp [Compare, hlt, h1, h2, h3]
  · subst heq
    by_cases h0 : la = 0
    · subst h0
      have n1 : ¬ DigitsLt da db 0 := by rintro ⟨i, _, _, hi, _⟩; omega
      have n2 : ¬ DigitsLt db da 0 := by rintro ⟨i, _, _, hi, _⟩; omega
      cases sa <;> cases sb <;> simp [Compare, n1, n2]
    · have hne : ¬ 0 = la := fun e => h0 e.symm
      rcases compareLoop_spec da db (la - 1) (by omega) (by omega) with
        ⟨h1, h2⟩ | ⟨idx, hi, h1, h2, h3⟩
      · have n1 : ¬ DigitsLt da db la :=
          not_DigitsLt_of_eq da db la (fun j hj => h2 j (by omega))
        have n2 : ¬ DigitsLt db da la :=
          not_DigitsLt_of_eq db da la (fun j hj => (h2 j (by omega)).symm)
        cases sa <;> cases sb <;> simp [Compare, hne, h1, n1, n2]
      · have hia : idx < da.length := by omega
        have hib : idx < db.length := by omega
        have hd : da[idx] ≠ db[idx] := by
          intro e
          apply h2
          simp [List.getElem?_eq_getElem hia, List.getElem?_eq_getElem hib, e]
        have k1 := DigitsLt_iff_of_first_diff da db la idx (by omega) hia hib
          (fun j hj1 hj2 => h3 j hj1 (by omega)) hd
        have k2 := DigitsLt_iff_of_first_diff db da la idx (by omega) hib hia
          (fun j hj1 hj2 => (h3 j hj1 (by omega)).symm) (fun e => hd e.symm)
        rcases Nat.lt_or_gt_of_ne hd with hlt | hgt
        · have n1 : ¬ da[idx] > db[idx] := by omega
          have n2 : ¬ db[idx] < da[idx] := by omega
          cases sa <;> cases sb <;>
            simp [Compare, hne, h1, readDigit_of_lt hia, readDigit_of_lt hib, hlt, n1, n2,
              k1, k2]
        · have n1 : ¬ da[idx] < db[idx] := by omega
          have hgt' : db[idx] < da[idx] := hgt
          cases sa <;> cases sb <;>
            simp [Compare, hne, h1, readDigit_of_lt hia, readDigit_of_lt hib, hgt, n1, hgt',
              k1, k2]
  · have h1 : ¬ la < lb := by omega
    have h2 : ¬ lb > la := by omega
    have h3 : ¬ la = lb := by omega
    cases sa <;> cases sb <;> simp [Compare, hgt, h1, h2, h3]

theorem ReprLt_trans {a b c : JavascriptBigInt} (h1 : ReprLt a b) (h2 : ReprLt b c) :
    ReprLt a c := by
  unfold ReprLt at *
  rcases h1 with ⟨a1, b1⟩ | ⟨a1, b1, l1⟩ | ⟨a1, b1, l1⟩ <;>
  rcases h2 with ⟨b2, c2⟩ | ⟨b2, c2, l2⟩ | ⟨b2, c2, l2⟩
  · rw [b1] at b2; cases b2
  · exact Or.inl ⟨a1, c2⟩
  · rw [b1] at b2; cases b2
  · rw [b1] at b2; cases b2
  · refine Or.inr (Or.inl ⟨a1, c2, ?_⟩)
    rcases l1 with l1 | ⟨e1, d1⟩ <;> rcases l2 with l2 | ⟨e2, d2⟩
    · left; omega
    · left; omega
    · left; omega
    · right
      refine ⟨by omega, ?_⟩
      rw [← e1] at d2
      exact DigitsLt_trans d1 d2
  · rw [b1] at b2; cases b2
  · exact Or.inl ⟨a1, c2⟩
  · rw [b1] at b2; cases b2
  · refine Or.inr (Or.inr ⟨a1, c2, ?_⟩)
    rcases l1 with l1 | ⟨e1, d1⟩ <;> rcases l2 with l2 | ⟨e2, d2⟩
    · left; omega
    · left; omega
    · left; omega
    · right
      refine ⟨by omega, ?_⟩
      rw [← e1] at d2
      exact DigitsLt_trans d2 d1

/-- Helper: `LessThan` is true exactly on the pairs ordered by `ReprLt`. -/
theorem LessThan_iff (a b : JavascriptBigInt)
    (ha : a.m_length ≤ a.m_digits.length) (hb : b.m_length ≤ b.m_digits.length) :
    LessThan a b = .ok true ↔ ReprLt a b := by
  rw [← Compare_lt_iff a b ha hb]
  obtain ⟨r, h1, _, h3⟩ := Compare_antisymm a b ha hb
  rw [h1]
  simp only [LessThan, h1, Except.ok.injEq, decide_eq_true_eq]
  rcases h3 with h | h | h <;> subst h <;> simp

/-- C8: `Compare` induces a strict total order on the values whose buffers hold their
`m_length` digits: `Compare(a, b)` returns a result in {-1, 0, 1}, `Compare(b, a)` is its
negation, exactly one of `LessThan(a, b)`, `Equals(a, b)`, `LessThan(b, a)` is true, and
`LessThan` is transitive. -/
theorem Compare_trichotomy (a b : JavascriptBigInt)
    (ha : a.m_length ≤ a.m_digits.length) (hb : b.m_length ≤ b.m_digits.length) :
    (∃ r : Int, Compare a b = .ok r ∧ Compare b a = .ok (-r) ∧ (r = -1 ∨ r = 0 ∨ r = 1) ∧
      ∃ lt eq gt : Bool,
        LessThan a b = .ok lt ∧ Equals a b = .ok eq ∧ LessThan b a = .ok gt ∧
        ((lt = true ∧ eq = false ∧ gt = false) ∨ (lt = false ∧ eq = true ∧ gt = false) ∨
          (lt = false ∧ eq = false ∧ gt = true))) ∧
    (∀ c : JavascriptBigInt, c.m_length ≤ c.m_digits.length →
      LessThan a b = .ok true → LessThan b c = .ok true → LessThan a c = .ok true) := by
  constructor
  · obtain ⟨r, h1, h2, h3⟩ := Compare_antisymm a b ha hb
    refine ⟨r, h1, h2, h3, decide (r < 0), decide (r = 0), decide (-r < 0), ?_, ?_, ?_, ?_⟩
    · simp [LessThan, h1]
    · simp [Equals, h1]
    · simp [LessThan, h2]
    · rcases h3 with h | h | h <;> subst h <;> simp
  · intro c hc h1 h2
    rw [LessThan_iff a b ha hb] at h1
    rw [LessThan_iff b c hb hc] at h2
    rw [LessThan_iff a c ha hc]
    exact ReprLt_trans h1 h2

theorem Compare_trichotomy_witness :
    (∃ r : Int, Compare ⟨[5], 1, 1, true⟩ ⟨[3], 1, 1, false⟩ = .ok r ∧
      Compare ⟨[3], 1, 1, false⟩ ⟨[5], 1, 1, true⟩ = .ok (-r) ∧ (r = -1 ∨ r = 0 ∨ r = 1) ∧
      ∃ lt eq gt : Bool,
        LessThan ⟨[5], 1, 1, true⟩ ⟨[3], 1, 1, false⟩ = .ok lt ∧
        Equals ⟨[5], 1, 1, true⟩ ⟨[3], 1, 1, false⟩ = .ok eq ∧
        LessThan ⟨[3], 1, 1, false⟩ ⟨[5], 1, 1, true⟩ = .ok gt ∧
        ((lt = true ∧ eq = false ∧ gt = false) ∨ (lt = false ∧ eq = true ∧ gt = false) ∨
          (lt = false ∧ eq = false ∧ gt = true))) ∧
    LessThan ⟨[3], 1, 1, false⟩ ⟨[7, 1], 2, 2, false⟩ = .ok true ∧
    LessThan ⟨[5], 1, 1, true⟩ ⟨[7, 1], 2, 2, false⟩ = .ok true :=
  ⟨(Compare_trichotomy ⟨[5], 1, 1, true⟩ ⟨[3], 1, 1, false⟩ (by decide) (by decide)).1,
    by decide,
    (Compare_trichotomy ⟨[5], 1, 1, true⟩ ⟨[3], 1, 1, false⟩ (by decide) (by decide)).2
      ⟨[7, 1], 2, 2, false⟩ (by decide) (by decide) (by decide)⟩

/-- Helper: the character loop reads only the characters that it counts. -/
theorem initFromCharDigitsLoop_counted (cfg : Config) :
    ∀ (n : Nat) (l r r' : List Nat) (st : JavascriptBigInt × Nat × Nat), n ≤ l.length →
      initFromCharDigitsLoop cfg n (l ++ r) st = initFromCharDigitsLoop cfg n (l ++ r') st := by
  intro n
  induction n with
  | zero => intro l r r' st _; simp [initFromCharDigitsLoop]
  | succ n ih =>
    intro l r r' st hl
    cases l with
    | nil => simp at hl
    | cons c cs =>
      obtain ⟨self, digitMul, digitAdd⟩ := st
      have hl' : n ≤ cs.length := by simpa using hl
      simp only [List.cons_append, initFromCharDigitsLoop]
      by_cases h9 : digitMul = 1000000000
      · simp only [h9, if_true]
        cases MulThenAdd cfg self 1000000000 digitAdd with
        | error e => rfl
        | ok p => exact ih cs r r' _ hl'
      · simp only [h9, if_false]
        exact ih cs r r' _ hl'

/-- Helper: the result of `InitFromCharDigits` does not depend on the character in the last
of its `charLength` positions. -/
theorem InitFromCharDigits_last_char (cfg : Config) (self : JavascriptBigInt) (D : List Nat)
    (c c' : Nat) (s : Bool) :
    InitFromCharDigits cfg self (D ++ [c]) (D.length + 1) s =
      InitFromCharDigits cfg self (D ++ [c']) (D.length + 1) s := by
  unfold InitFromCharDigits
  simp only [Nat.add_sub_cancel]
  rw [initFromCharDigitsLoop_counted cfg D.length D [c] [c'] _ (le_refl _)]

theorem decimalValue_zeros (D : List Nat) (h : ∀ d ∈ D, d = 48) : decimalValue D = 0 := by
  unfold decimalValue
  induction D with
  | nil => rfl
  | cons d ds ih =>
    have hd : d = 48 := h d (by simp)
    subst hd
    simpa using ih (fun x hx => h x (by simp [hx]))

/-- Helper: a canonical value with magnitude 0 is the non-negative `[0]` of length 1. -/
theorem Canonical.magnitude_zero {cfg : Config} {x : JavascriptBigInt} (hc : Canonical cfg x)
    (hm : magnitude cfg x = 0) :
    x.m_isNegative = false ∧ x.m_length = 1 ∧ x.m_digits[0]? = some 0 := by
  rcases hc.cases with ⟨c1, c2, _, c4⟩ | ⟨_, c2, _⟩
  · exact ⟨c2, c1, c4⟩
  · omega

/-- C11: for every input whose counted characters are decimal digits and every sign flag (on
a platform with digits of at least 32 bits where buffer growth succeeds), the constructed
value is canonical, and when the number written is zero the result is the non-negative
magnitude `[0]` of length 1 whatever the sign flag; the texts `0`, `000` and ten zeros with
the sign flag set all give that value. -/
theorem InitFromCharDigits_canonical (cfg : Config) (self : JavascriptBigInt)
    (chars : List Nat) (charLength : Nat) (s : Bool)
    (hs : 4 ≤ cfg.sizeofDigit) (hcap : 1 ≤ self.m_maxLength)
    (hcap2 : self.m_maxLength < cfg.base) (hlen : charLength - 1 ≤ chars.length)
    (hdig : ∀ c ∈ chars.take (charLength - 1), IsDigit c)
    (hg : ∀ m, m ≤ charLength - 1 → GrowthOk cfg m) :
    (∃ x, InitFromCharDigits cfg self chars charLength s = .ok x ∧ Canonical cfg x ∧
      1 ≤ x.m_length ∧
      (x.m_digits[x.m_length - 1]? = some 0 →
        x.m_isNegative = false ∧ x.m_length = 1 ∧ magnitude cfg x = 0) ∧
      (decimalValue (chars.take (charLength - 1)) = 0 →
        x.m_isNegative = false ∧ x.m_length = 1 ∧ x.m_digits[0]? = some 0)) ∧
    InitFromCharDigits cfg32 ⟨[], 0, 2, false⟩ [48, 110] 2 true = .ok ⟨[0, 0], 1, 2, false⟩ ∧
    InitFromCharDigits cfg32 ⟨[], 0, 2, false⟩ [48, 48, 48, 110] 4 true =
      .ok ⟨[0, 0], 1, 2, false⟩ ∧
    InitFromCharDigits cfg32 ⟨[], 0, 2, false⟩
      [48, 48, 48, 48, 48, 48, 48, 48, 48, 48, 110] 11 true = .ok ⟨[0, 0], 1, 2, false⟩ := by
  refine ⟨?_, by decide, by decide, by decide⟩
  obtain ⟨x, h1, h2, h3, _, _⟩ :=
    InitFromCharDigits_spec cfg hs self chars charLength s hcap hcap2 hlen hdig hg
  refine ⟨x, h1, h2, h2.2.1, ?_, ?_⟩
  · intro h0
    rcases h2.cases with ⟨c1, c2, c3, _⟩ | ⟨_, _, c3⟩
    · exact ⟨c2, c1, c3⟩
    · exact absurd h0 c3
  · intro hz
    exact h2.magnitude_zero (by rw [h3, hz])

theorem InitFromCharDigits_canonical_witness :
    (∃ x, InitFromCharDigits cfg32 ⟨[], 0, 2, false⟩ [48, 48, 55, 110] 4 true = .ok x ∧
      Canonical cfg32 x ∧ 1 ≤ x.m_length ∧
      (x.m_digits[x.m_length - 1]? = some 0 →
        x.m_isNegative = false ∧ x.m_length = 1 ∧ magnitude cfg32 x = 0) ∧
      (decimalValue ([48, 48, 55, 110].take (4 - 1)) = 0 →
        x.m_isNegative = false ∧ x.m_length = 1 ∧ x.m_digits[0]? = some 0)) :=
  (InitFromCharDigits_canonical cfg32 ⟨[], 0, 2, false⟩ [48, 48, 55, 110] 4 true
    (by decide) (by decide) (by decide) (by decide) (by decide)
    (fun m hm => cfg32_growthOk m (by omega))).1

/-- C20: for every sequence `D` of decimal digits and every trailing character `c` (on a
platform with digits of at least 32 bits where buffer growth succeeds), constructing from `D`
followed by `c` with `charLength = |D| + 1` gives a magnitude equal to the number written in
decimal by `D`; the result is the same for every trailing character; when `D` is empty or all
zeros it is the canonical zero. -/
theorem InitFromCharDigits_marker (cfg : Config) (self : JavascriptBigInt) (D : List Nat)
    (c : Nat) (s : Bool) (hs : 4 ≤ cfg.sizeofDigit) (hcap : 1 ≤ self.m_maxLength)
    (hcap2 : self.m_maxLength < cfg.base) (hD : ∀ d ∈ D, IsDigit d)
    (hg : ∀ m, m ≤ D.length → GrowthOk cfg m) :
    ∃ x, InitFromCharDigits cfg self (D ++ [c]) (D.length + 1) s = .ok x ∧
      magnitude cfg x = decimalValue D ∧
      (∀ c', InitFromCharDigits cfg self (D ++ [c']) (D.length + 1) s = .ok x) ∧
      (magnitude cfg x ≠ 0 → x.m_isNegative = s) ∧
      ((∀ d ∈ D, d = 48) →
        x.m_isNegative = false ∧ x.m_length = 1 ∧ x.m_digits[0]? = some 0) := by
  have htake : (D ++ [c]).take (D.length + 1 - 1) = D := by simp
  obtain ⟨x, h1, h2, h3, h4, _⟩ :=
    InitFromCharDigits_spec cfg hs self (D ++ [c]) (D.length + 1) s hcap hcap2
      (by simp) (by rw [htake]; exact hD) (by simpa using hg)
  rw [htake] at h3
  refine ⟨x, h1, h3, fun c' => ?_, h4, fun hz => ?_⟩
  · rw [← InitFromCharDigits_last_char cfg self D c c' s]
    exact h1
  · exact h2.magnitude_zero (by rw [h3, decimalValue_zeros D hz])

theorem InitFromCharDigits_marker_witness :
    (∀ d ∈ [52, 50], IsDigit d) ∧
    ∃ x, InitFromCharDigits cfg32 ⟨[], 0, 2, false⟩ ([52, 50] ++ [110]) 3 true = .ok x ∧
      magnitude cfg32 x = decimalValue [52, 50] ∧
      (∀ c', InitFromCharDigits cfg32 ⟨[], 0, 2, false⟩ ([52, 50] ++ [c']) 3 true = .ok x) ∧
      (magnitude cfg32 x ≠ 0 → x.m_isNegative = true) ∧
      ((∀ d ∈ [52, 50], d = 48) →
        x.m_isNegative = false ∧ x.m_length = 1 ∧ x.m_digits[0]? = some 0) :=
  have hD : ∀ d ∈ [52, 50], IsDigit d := by decide
  ⟨hD, InitFromCharDigits_marker cfg32 ⟨[], 0, 2, false⟩ [52, 50] 110 true (by decide)
    (by decide) (by decide) hD (fun m hm => cfg32_growthOk m (by simp at hm; omega))⟩

/-- Helper: single-digit ingestion keeps the magnitude equal to the decimal number read so
far and returns true throughout when growth is possible. -/
theorem ingestSingleDigits_spec (cfg : Config) (hs : 1 ≤ cfg.sizeofDigit) (N : Nat)
    (hg : ∀ m, m ≤ N → GrowthOk cfg m) :
    ∀ (D : List Nat) (x : JavascriptBigInt) (cnt : Nat),
      (∀ c ∈ D, IsDigit c) → WellFormed cfg x → TopNonzero cfg x →
      x.m_length ≤ cnt → cnt + D.length ≤ N →
      ∃ y, ingestSingleDigits cfg D x = .ok (true, y) ∧ WellFormed cfg y ∧
        TopNonzero cfg y ∧ y.m_isNegative = x.m_isNegative ∧
        magnitude cfg y = D.foldl (fun acc c => acc * 10 + (c - 48)) (magnitude cfg x) := by
  have hbase : 2 ^ 8 ≤ cfg.base := by
    unfold Config.base Config.digitBits
    exact Nat.pow_le_pow_right (by omega) (by omega)
  intro D
  induction D with
  | nil =>
    intro x cnt _ hwf htop _ _
    exact ⟨x, rfl, hwf, htop, rfl, rfl⟩
  | cons c cs ih =>
    intro x cnt hD hwf htop hcnt hN
    have hc : IsDigit c := hD c (by simp)
    obtain ⟨hc1, hc2⟩ := hc
    simp only [List.length_cons] at hN
    obtain ⟨r, hr⟩ := MulThenAdd_ok cfg hs x 10 (c - 48) hwf (by omega) (by omega)
      (Or.inr (hg _ (by omega)))
    obtain ⟨r1, r2, r3, _, r5, r6, _⟩ :=
      MulThenAdd_spec cfg hs x r 10 (c - 48) hwf (by omega) (by omega) hr
    obtain ⟨y, y1, y2, y3, y4, y5⟩ := ih r (cnt + 1) (fun d hd => hD d (by simp [hd])) r1
      (r6 htop (by omega)) (by omega) (by omega)
    refine ⟨y, ?_, y2, y3, by rw [y4, r2], ?_⟩
    · simp only [ingestSingleDigits, hr]
      exact y1
    · rw [y5, r3]
      rfl

/-- C14: for every sequence `D` of decimal digits (on a platform with digits of at least 32
bits where buffer growth succeeds), the magnitude built by `InitFromCharDigits` in batches of
nine digits equals the magnitude built by one `MulThenAdd(10, d)` for each digit from the
empty magnitude; both are the number written by `D`, and when that number is not zero the two
values have the same length and the same digits. -/
theorem batch_invariance (cfg : Config) (self : JavascriptBigInt) (D : List Nat) (c : Nat)
    (s : Bool) (hs : 4 ≤ cfg.sizeofDigit) (hcap : 1 ≤ self.m_maxLength)
    (hcap2 : self.m_maxLength < cfg.base) (hD : ∀ d ∈ D, IsDigit d)
    (hg : ∀ m, m ≤ D.length → GrowthOk cfg m) :
    ∃ x y, InitFromCharDigits cfg self (D ++ [c]) (D.length + 1) s = .ok x ∧
      ingestSingleDigits cfg D (emptyMagnitude self s) = .ok (true, y) ∧
      magnitude cfg x = magnitude cfg y ∧ magnitude cfg y = decimalValue D ∧
      (decimalValue D ≠ 0 → x.m_length = y.m_length ∧
        x.m_digits.take x.m_length = y.m_digits.take y.m_length ∧ Compare x y = .ok 0) := by
  have htake : (D ++ [c]).take (D.length + 1 - 1) = D := by simp
  obtain ⟨x, h1, h2, h3, h4, _⟩ :=
    InitFromCharDigits_spec cfg hs self (D ++ [c]) (D.length + 1) s hcap hcap2
      (by simp) (by rw [htake]; exact hD) (by simpa using hg)
  rw [htake] at h3
  have hwf0 : WellFormed cfg (emptyMagnitude self s) := by
    refine ⟨⟨by simp [emptyMagnitude], hcap2, ?_⟩, Nat.zero_le _⟩
    intro d hd
    simp only [emptyMagnitude, List.mem_replicate] at hd
    have := cfg.base_pos
    omega
  have hm0 : magnitude cfg (emptyMagnitude self s) = 0 := by
    simp [magnitude, emptyMagnitude, digitsValue_nil]
  obtain ⟨y, y1, y2, y3, y4, y5⟩ := ingestSingleDigits_spec cfg (by omega) D.length hg D
    (emptyMagnitude self s) 0 hD hwf0 (Or.inl rfl) (Nat.zero_le _) (by omega)
  rw [hm0] at y5
  have hy : magnitude cfg y = decimalValue D := y5
  refine ⟨x, y, h1, y1, by rw [h3, hy], hy, ?_⟩
  intro hne
  have hys : y.m_isNegative = s := y4
  have hylen : y.m_length ≠ 0 := by
    intro h0
    apply hne
    rw [← hy]
    simp [magnitude, h0, digitsValue_nil]
  have hyc : Canonical cfg y := by
    rcases y3 with t | t
    · exact absurd t hylen
    · exact Canonical.of_bound y2 (by omega) t
  have hv : val cfg x = val cfg y := by
    unfold val
    rw [h4 (by rw [h3]; exact hne), hys, h3, hy]
  have hcmp := Compare_eq_zero_of_val_eq cfg x y h2 hyc hv
  -- equal lengths and digits follow from the bounds of the canonical form
  have hl : x.m_length = y.m_length := by
    have hB := h2.one_lt_base
    have lx := magnitude_lt cfg x h2.wellFormed
    have ly := magnitude_lt cfg y y2
    rcases h2.cases with ⟨_, _, a3, _⟩ | ⟨a1, _, _⟩
    · rw [h3] at a3; exact absurd a3 hne
    rcases hyc.cases with ⟨_, _, b3, _⟩ | ⟨b1, _, _⟩
    · rw [hy] at b3; exact absurd b3 hne
    rw [h3] at a1 lx
    rw [hy] at b1 ly
    rcases Nat.lt_trichotomy x.m_length y.m_length with h | h | h
    · have := Nat.pow_le_pow_right (by omega : 0 < cfg.base)
        (by omega : x.m_length ≤ y.m_length - 1)
      omega
    · exact h
    · have := Nat.pow_le_pow_right (by omega : 0 < cfg.base)
        (by omega : y.m_length ≤ x.m_length - 1)
      omega
  refine ⟨hl, ?_, hcmp⟩
  apply digitsValue_inj cfg
  · have := h2.wellFormed.1.1; have := h2.wellFormed.2
    have := y2.1.1; have := y2.2
    rw [List.length_take, List.length_take]; omega
  · exact fun d hd => h2.wellFormed.1.2.2 d (List.mem_of_mem_take hd)
  · exact fun d hd => y2.1.2.2 d (List.mem_of_mem_take hd)
  · show magnitude cfg x = magnitude cfg y
    rw [h3, hy]

theorem batch_invariance_witness :
    (∀ d ∈ [49, 50, 51, 52, 53, 54, 55, 56, 57, 49, 50, 51, 52, 53, 54, 55, 56, 57],
      IsDigit d) ∧
    ∃ x y, InitFromCharDigits cfg32 ⟨[], 0, 2, false⟩
        ([49, 50, 51, 52, 53, 54, 55, 56, 57, 49, 50, 51, 52, 53, 54, 55, 56, 57] ++ [110])
        19 false = .ok x ∧
      ingestSingleDigits cfg32
        [49, 50, 51, 52, 53, 54, 55, 56, 57, 49, 50, 51, 52, 53, 54, 55, 56, 57]
        (emptyMagnitude ⟨[], 0, 2, false⟩ false) = .ok (true, y) ∧
      magnitude cfg32 x = magnitude cfg32 y ∧
      magnitude cfg32 y =
        decimalValue [49, 50, 51, 52, 53, 54, 55, 56, 57, 49, 50, 51, 52, 53, 54, 55, 56, 57] ∧
      (decimalValue [49, 50, 51, 52, 53, 54, 55, 56, 57, 49, 50, 51, 52, 53, 54, 55, 56, 57]
          ≠ 0 →
        x.m_length = y.m_length ∧
        x.m_digits.take x.m_length = y.m_digits.take y.m_length ∧ Compare x y = .ok 0) :=
  have hD : ∀ d ∈ [49, 50, 51, 52, 53, 54, 55, 56, 57, 49, 50, 51, 52, 53, 54, 55, 56, 57],
      IsDigit d := by decide
  ⟨hD, batch_invariance cfg32 ⟨[], 0, 2, false⟩
    [49, 50, 51, 52, 53, 54, 55, 56, 57, 49, 50, 51, 52, 53, 54, 55, 56, 57] 110 false
    (by decide) (by decide) (by decide) hD
    (fun m hm => cfg32_growthOk m (by simp at hm; omega))⟩

/-- Helper: the high half of a digit product leaves room for one more carry. -/
theorem MulDigit_high_succ_lt (cfg : Config) (hs : 1 ≤ cfg.sizeofDigit) (d m : Nat)
    (hd : d < cfg.base) (hm : m < cfg.base) : (MulDigit cfg d m).2 + 1 < cfg.base := by
  have hB := cfg.one_lt_base_of_sizeof hs
  obtain ⟨_, _, p3⟩ := MulDigit_spec cfg hs d m hd hm
  by_contra hge
  have h1 : cfg.base - 1 ≤ (MulDigit cfg d m).2 := by omega
  have h2 : cfg.base * (cfg.base - 1) ≤ cfg.base * (MulDigit cfg d m).2 :=
    Nat.mul_le_mul_left _ h1
  have h3 : d * m ≤ (cfg.base - 1) * (cfg.base - 1) :=
    Nat.mul_le_mul (by omega) (by omega)
  have h4 : (cfg.base - 1) * (cfg.base - 1) < cfg.base * (cfg.base - 1) :=
    Nat.mul_lt_mul_of_pos_right (by omega) (by omega)
  omega

theorem Config.sizeof_pos_of_digit (cfg : Config) (m : Nat) (hm : m < cfg.base)
    (hm0 : 0 < m) : 1 ≤ cfg.sizeofDigit := by
  by_contra h
  have h0 : cfg.sizeofDigit = 0 := by omega
  have : cfg.base = 1 := by
    unfold Config.base Config.digitBits
    rw [h0]
    rfl
  omega

/-- C15: for every value with `m_length <= m_maxLength` (the empty magnitude included), every
nonzero digit `m` and every digit `c`, a `MulThenAdd(m, c)` that returns true leaves the
magnitude `M * m + c`; at every position the carry, the high half of the product plus at most
one, stays a digit and the position is exact. -/
theorem MulThenAdd_exact (cfg : Config) (x y : JavascriptBigInt) (m c : Nat)
    (hwf : WellFormed cfg x) (hm : m < cfg.base) (hm0 : 0 < m) (hc : c < cfg.base)
    (h : MulThenAdd cfg x m c = .ok (true, y)) :
    magnitude cfg y = magnitude cfg x * m + c ∧
    (∀ d a, d < cfg.base → a < cfg.base →
      (MulDigit cfg d m).2 + 1 < cfg.base ∧
      (mulAddStep cfg m d a).2 ≤ (MulDigit cfg d m).2 + 1 ∧
      (mulAddStep cfg m d a).1 < cfg.base ∧
      (mulAddStep cfg m d a).1 + cfg.base * (mulAddStep cfg m d a).2 = d * m + a) := by
  have hs := cfg.sizeof_pos_of_digit m hm hm0
  obtain ⟨_, _, r3, _⟩ := MulThenAdd_spec cfg hs x y m c hwf hm hc h
  refine ⟨r3, ?_⟩
  intro d a hd ha
  have hh := MulDigit_high_succ_lt cfg hs d m hd hm
  obtain ⟨s1, _, s3⟩ := mulAddStep_spec cfg hs m d a hm hd ha
  refine ⟨hh, ?_, s1, s3⟩
  unfold mulAddStep
  by_cases h0 : a > 0
  · obtain ⟨p1, _, _⟩ := MulDigit_spec cfg hs d m hd hm
    obtain ⟨_, _, a3, _⟩ := AddDigit_spec cfg (MulDigit cfg d m).1 a (MulDigit cfg d m).2
      p1 ha hh
    simp only [h0, if_true]
    exact a3
  · simp only [h0, if_false]
    omega

theorem MulThenAdd_exact_witness :
    WellFormed cfg32 ⟨[4294967295, 4294967295, 0], 2, 3, false⟩ ∧
    MulThenAdd cfg32 ⟨[4294967295, 4294967295, 0], 2, 3, false⟩ 1000000000 999999999 =
      .ok (true, ⟨[4294967295, 4294967295, 999999999], 3, 3, false⟩) ∧
    magnitude cfg32 ⟨[4294967295, 4294967295, 999999999], 3, 3, false⟩ =
      magnitude cfg32 ⟨[4294967295, 4294967295, 0], 2, 3, false⟩ * 1000000000 + 999999999 :=
  have hwf : WellFormed cfg32 ⟨[4294967295, 4294967295, 0], 2, 3, false⟩ := by decide
  have h : MulThenAdd cfg32 ⟨[4294967295, 4294967295, 0], 2, 3, false⟩ 1000000000 999999999 =
      .ok (true, ⟨[4294967295, 4294967295, 999999999], 3, 3, false⟩) := by decide
  ⟨hwf, h, (MulThenAdd_exact cfg32 _ _ 1000000000 999999999 hwf (by decide) (by decide)
    (by decide) h).1⟩

/-- C16: for all digits `a` and `b` below `2 ^ W`, `MulDigit(a, b)` returns `low` and sets
`high` with `low + high * 2 ^ W = a * b`, both below `2 ^ W`. -/
theorem MulDigit_exact (cfg : Config) (a b : Nat) (ha : a < cfg.base) (hb : b < cfg.base) :
    (MulDigit cfg a b).1 + (MulDigit cfg a b).2 * cfg.base = a * b ∧
    (MulDigit cfg a b).1 < cfg.base ∧ (MulDigit cfg a b).2 < cfg.base := by
  by_cases hs : 1 ≤ cfg.sizeofDigit
  · obtain ⟨p1, p2, p3⟩ := MulDigit_spec cfg hs a b ha hb
    exact ⟨by rw [Nat.mul_comm]; exact p3, p1, p2⟩
  · have h0 : cfg.sizeofDigit = 0 := by omega
    have hB : cfg.base = 1 := by
      unfold Config.base Config.digitBits
      rw [h0]
      rfl
    rw [hB] at ha hb
    have ea : a = 0 := by omega
    have eb : b = 0 := by omega
    subst ea eb
    simp [MulDigit, AddDigit, hB, h0]

theorem MulDigit_exact_witness :
    MulDigit cfg32 4294967295 4294967295 = (1, 4294967294) ∧
    (MulDigit cfg32 4294967295 4294967295).1 +
        (MulDigit cfg32 4294967295 4294967295).2 * cfg32.base = 4294967295 * 4294967295 ∧
    (MulDigit cfg32 4294967295 4294967295).1 < cfg32.base ∧
    (MulDigit cfg32 4294967295 4294967295).2 < cfg32.base :=
  ⟨by decide, MulDigit_exact cfg32 4294967295 4294967295 (by decide) (by decide)⟩

/-- C17 (as amended): for every object and every `requiredLength` above the current capacity
and below `2 ^ (W - 1)`, when `Resize` returns true the capacity afterwards is exactly
`2 * requiredLength`, and that many digits are allocated. -/
theorem Resize_doubles_required (cfg : Config) (x y : JavascriptBigInt) (n : Nat)
    (hn : x.m_maxLength < n) (h2 : n + n < cfg.base)
    (h : Resize cfg x n = .ok (true, y)) :
    y.m_maxLength = 2 * n ∧ y.m_digits.length = 2 * n := by
  have e2 : (n + n) % cfg.base = 2 * n := by
    rw [Nat.mod_eq_of_lt h2]; omega
  have n1 : ¬ n ≤ x.m_maxLength := by omega
  unfold Resize at h
  simp only [n1, if_false, e2] at h
  by_cases c1 : cfg.sizeMax / cfg.sizeofDigit < 2 * n
  · simp [c1] at h
  · rw [if_neg c1] at h
    by_cases c2 : cfg.allocOk (2 * n) = false
    · simp [c2] at h
    · rw [if_neg c2] at h
      by_cases c3 : 0 < x.m_length
      · simp only [c3, if_true, js_memcpy_s, List.length_replicate] at h
        by_cases c4 : 2 * n < x.m_length
        · simp [c4] at h
        · rw [if_neg c4] at h
          by_cases c5 : x.m_digits.length < x.m_length
          · simp [c5] at h
          · rw [if_neg c5] at h
            simp only [Except.ok.injEq, Prod.mk.injEq, true_and] at h
            subst h
            refine ⟨rfl, ?_⟩
            simp only [List.length_append, List.length_take, List.length_drop,
              List.length_replicate]
            omega
      · rw [if_neg c3] at h
        simp only [Except.ok.injEq, Prod.mk.injEq, true_and] at h
        subst h
        exact ⟨rfl, by simp⟩

theorem Resize_doubles_required_witness :
    Resize cfg32 ⟨[1, 2], 2, 2, false⟩ 3 = .ok (true, ⟨[1, 2, 0, 0, 0, 0], 2, 6, false⟩) ∧
    (⟨[1, 2, 0, 0, 0, 0], 2, 6, false⟩ : JavascriptBigInt).m_maxLength = 2 * 3 ∧
    (⟨[1, 2, 0, 0, 0, 0], 2, 6, false⟩ : JavascriptBigInt).m_digits.length = 2 * 3 :=
  have h : Resize cfg32 ⟨[1, 2], 2, 2, false⟩ 3 =
      .ok (true, ⟨[1, 2, 0, 0, 0, 0], 2, 6, false⟩) := by decide
  ⟨h, Resize_doubles_required cfg32 ⟨[1, 2], 2, 2, false⟩ _ 3 (by decide) (by decide) h⟩

/-- C17 (counterexample): with capacity 2 and `requiredLength = 3` the growth succeeds and the
capacity afterwards is 6, not `2 * 2`. -/
theorem Resize_not_twice_capacity_counterexample :
    (⟨[1, 2], 2, 2, false⟩ : JavascriptBigInt).m_maxLength < 3 ∧
    Resize cfg32 ⟨[1, 2], 2, 2, false⟩ 3 = .ok (true, ⟨[1, 2, 0, 0, 0, 0], 2, 6, false⟩) ∧
    (⟨[1, 2, 0, 0, 0, 0], 2, 6, false⟩ : JavascriptBigInt).m_maxLength ≠
      2 * (⟨[1, 2], 2, 2, false⟩ : JavascriptBigInt).m_maxLength := by
  refine ⟨by decide, by decide, by decide⟩

/-- Helper: what `New` returns on a value that holds its `m_length` digits. -/
theorem New_spec (x : JavascriptBigInt) (hlen : x.m_length ≤ x.m_digits.length) :
    New x = .ok ⟨x.m_digits.take x.m_length, x.m_length, x.m_maxLength, x.m_isNegative⟩ := by
  have n1 : ¬ x.m_digits.length < x.m_length := by omega
  simp [New, js_memcpy_s, n1]

/-- Helper: the value-returning operations put the mutated clone in a new object and leave
every object of the heap as it was. -/
theorem cloneThenMutate_frame (op : JavascriptBigInt → Except Fault JavascriptBigInt)
    (heap heap' : List JavascriptBigInt) (clone : JavascriptBigInt)
    (h : inPlace op (allocObject heap clone).1 (allocObject heap clone).2 = .ok heap') :
    (∀ q, q < heap.length → heap'[q]? = heap[q]?) ∧
    ∃ r, op clone = .ok r ∧ heap'[heap.length]? = some r := by
  have hget : (heap ++ [clone])[heap.length]? = some clone := by
    rw [List.getElem?_append_right (le_refl _)]
    simp
  simp only [inPlace, allocObject, hget] at h
  cases hop : op clone with
  | error e => simp [hop] at h
  | ok r =>
    simp only [hop, Except.ok.injEq] at h
    subst h
    constructor
    · intro q hq
      rw [List.getElem?_set_ne (by omega), List.getElem?_append_left hq]
    · refine ⟨r, rfl, ?_⟩
      rw [List.getElem?_set_self]
      simp

/-- C12: for every value `x` that holds its `m_length` digits, `New` returns a clone with the
same sign flag, the same length and the same digit at every index below the length, and
`Compare(Clone(x), x) = 0`; the value-returning `Increment` and `Decrement` return a new
object, the mutated clone, and leave the argument and every other object of the heap as they
were. -/
theorem New_clone (cfg : Config) (heap : List JavascriptBigInt) (aRight : Nat)
    (x : JavascriptBigInt) (hx : heap[aRight]? = some x)
    (hlen : x.m_length ≤ x.m_digits.length) :
    (∃ c, New x = .ok c ∧ c.m_isNegative = x.m_isNegative ∧ c.m_length = x.m_length ∧
      (∀ i, i < x.m_length → c.m_digits[i]? = x.m_digits[i]?) ∧ Compare c x = .ok 0 ∧
      (∀ heap' p, IncrementVar cfg heap aRight = .ok (heap', p) →
        heap'[aRight]? = some x ∧ p ≠ aRight ∧ (∀ q, q < heap.length → heap'[q]? = heap[q]?) ∧
        ∃ r, Increment cfg c = .ok r ∧ heap'[p]? = some r) ∧
      (∀ heap' p, DecrementVar cfg heap aRight = .ok (heap', p) →
        heap'[aRight]? = some x ∧ p ≠ aRight ∧ (∀ q, q < heap.length → heap'[q]? = heap[q]?) ∧
        ∃ r, Decrement cfg c = .ok r ∧ heap'[p]? = some r)) := by
  have hnew := New_spec x hlen
  have ha : aRight < heap.length := by
    by_contra hge
    rw [List.getElem?_eq_none (by omega)] at hx
    cases hx
  have hdig : ∀ i, i < x.m_length → (x.m_digits.take x.m_length)[i]? = x.m_digits[i]? := by
    intro i hi
    rw [List.getElem?_take]
    simp [hi]
  refine ⟨_, hnew, rfl, rfl, hdig, ?_, ?_, ?_⟩
  · refine Compare_eq_zero_of_same
      ⟨x.m_digits.take x.m_length, x.m_length, x.m_maxLength, x.m_isNegative⟩ x ?_ hlen
      rfl rfl hdig
    show x.m_length ≤ (x.m_digits.take x.m_length).length
    rw [List.length_take]
    omega
  · intro heap' p h
    simp only [IncrementVar, hx, hnew] at h
    cases hin : inPlace (Increment cfg)
        (allocObject heap ⟨x.m_digits.take x.m_length, x.m_length, x.m_maxLength,
          x.m_isNegative⟩).1
        (allocObject heap ⟨x.m_digits.take x.m_length, x.m_length, x.m_maxLength,
          x.m_isNegative⟩).2 with
    | error e => simp [hin] at h
    | ok hp =>
      simp only [hin, Except.ok.injEq, Prod.mk.injEq] at h
      obtain ⟨e1, e2⟩ := h
      subst e1
      obtain ⟨f1, r, f2, f3⟩ := cloneThenMutate_frame _ heap hp _ hin
      have ep : p = heap.length := e2.symm
      subst ep
      exact ⟨by rw [f1 aRight ha, hx], by omega, f1, r, f2, f3⟩
  · intro heap' p h
    simp only [DecrementVar, hx, hnew] at h
    cases hin : inPlace (Decrement cfg)
        (allocObject heap ⟨x.m_digits.take x.m_length, x.m_length, x.m_maxLength,
          x.m_isNegative⟩).1
        (allocObject heap ⟨x.m_digits.take x.m_length, x.m_length, x.m_maxLength,
          x.m_isNegative⟩).2 with
    | error e => simp [hin] at h
    | ok hp =>
      simp only [hin, Except.ok.injEq, Prod.mk.injEq] at h
      obtain ⟨e1, e2⟩ := h
      subst e1
      obtain ⟨f1, r, f2, f3⟩ := cloneThenMutate_frame _ heap hp _ hin
      have ep : p = heap.length := e2.symm
      subst ep
      exact ⟨by rw [f1 aRight ha, hx], by omega, f1, r, f2, f3⟩

theorem New_clone_witness :
    IncrementVar cfg32 [⟨[7, 0], 1, 2, true⟩, ⟨[4294967295], 1, 1, false⟩] 1 =
      .ok ([⟨[7, 0], 1, 2, true⟩, ⟨[4294967295], 1, 1, false⟩,
        ⟨[0, 1, 0, 0], 2, 4, false⟩], 2) ∧
    ∃ c, New ⟨[4294967295], 1, 1, false⟩ = .ok c ∧
      c.m_isNegative = false ∧ c.m_length = 1 ∧
      (∀ i, i < 1 → c.m_digits[i]? = [4294967295][i]?) ∧
      Compare c ⟨[4294967295], 1, 1, false⟩ = .ok 0 :=
  have h := New_clone cfg32 [⟨[7, 0], 1, 2, true⟩, ⟨[4294967295], 1, 1, false⟩] 1
    ⟨[4294967295], 1, 1, false⟩ (by decide) (by decide)
  ⟨by decide, h.elim fun c hc => ⟨c, hc.1, hc.2.1, hc.2.2.1, hc.2.2.2.1, hc.2.2.2.2.1⟩⟩

/-- C13 (the code at the failing input): the value 4294967295 constructed with capacity 2 is
canonical; its clone records `m_maxLength = 2` over a buffer of 1 digit; the value-returning
`Increment` then stores the carry at index 1, outside the buffer of the clone, while the
in-place `Increment` on the value itself stays inside its buffer. The same value reached with
capacity 4 (from capacity 1 by an in-place `Increment` that grows and a `Decrement`) fails in
the same way. -/
theorem New_records_capacity_of_source :
    InitFromCharDigits cfg32 ⟨[], 0, 2, false⟩ [52, 50, 57, 52, 57, 54, 55, 50, 57, 53, 110]
      11 false = .ok ⟨[4294967295, 0], 1, 2, false⟩ ∧
    Canonical cfg32 ⟨[4294967295, 0], 1, 2, false⟩ ∧
    New ⟨[4294967295, 0], 1, 2, false⟩ = .ok ⟨[4294967295], 1, 2, false⟩ ∧
    (⟨[4294967295], 1, 2, false⟩ : JavascriptBigInt).m_maxLength ≠
      (⟨[4294967295], 1, 2, false⟩ : JavascriptBigInt).m_digits.length ∧
    AbsoluteIncrement cfg32 ⟨[4294967295], 1, 2, false⟩ = .error .outOfBounds ∧
    IncrementVar cfg32 [⟨[4294967295, 0], 1, 2, false⟩] 0 = .error .outOfBounds ∧
    Increment cfg32 ⟨[4294967295, 0], 1, 2, false⟩ = .ok ⟨[0, 1], 2, 2, false⟩ ∧
    Increment cfg32 ⟨[4294967295], 1, 1, false⟩ = .ok ⟨[0, 1, 0, 0], 2, 4, false⟩ ∧
    Decrement cfg32 ⟨[0, 1, 0, 0], 2, 4, false⟩ = .ok ⟨[4294967295, 0, 0, 0], 1, 4, false⟩ ∧
    Canonical cfg32 ⟨[4294967295, 0, 0, 0], 1, 4, false⟩ ∧
    IncrementVar cfg32 [⟨[4294967295, 0, 0, 0], 1, 4, false⟩] 0 = .error .outOfBounds := by
  refine ⟨by decide, by decide, by decide, by decide, by decide, by decide, by decide,
    by decide, by decide, by decide, by decide⟩

/-- Helper: on digit lists, the order decided from the most significant differing digit is
the order of the numbers. -/
theorem DigitsLt_value (cfg : Config) (a b : List Nat) (n : Nat)
    (ha : n ≤ a.length) (hb : n ≤ b.length) (hda : ∀ d ∈ a, d < cfg.base)
    (h : DigitsLt a b n) :
    digitsValue cfg (a.take n) < digitsValue cfg (b.take n) := by
  obtain ⟨i, x, y, hi, ax, by', hxy, hab⟩ := h
  have hia : i < (a.take n).length := by rw [List.length_take]; omega
  have hib : i < (b.take n).length := by rw [List.length_take]; omega
  have eax : (a.take n)[i] = x := by
    have : (a.take n)[i]? = some x := by rw [List.getElem?_take]; simp [hi, ax]
    rw [List.getElem?_eq_getElem hia] at this
    simpa using this
  have eby : (b.take n)[i] = y := by
    have : (b.take n)[i]? = some y := by rw [List.getElem?_take]; simp [hi, by']
    rw [List.getElem?_eq_getElem hib] at this
    simpa using this
  have hupper : (a.take n).drop (i + 1) = (b.take n).drop (i + 1) := by
    apply List.ext_getElem?
    intro k
    rw [List.getElem?_drop, List.getElem?_drop, List.getElem?_take, List.getElem?_take]
    by_cases hk : i + 1 + k < n
    · simp only [hk, if_true]
      exact hab (i + 1 + k) (by omega) hk
    · simp [hk]
  have sa : a.take n = (a.take n).take i ++ x :: (a.take n).drop (i + 1) := by
    rw [← eax, ← List.drop_eq_getElem_cons hia, List.take_append_drop]
  have sb : b.take n = (b.take n).take i ++ y :: (b.take n).drop (i + 1) := by
    rw [← eby, ← List.drop_eq_getElem_cons hib, List.take_append_drop]
  have hlow : digitsValue cfg ((a.take n).take i) < cfg.base ^ i := by
    have := digitsValue_lt cfg ((a.take n).take i)
      (fun d hd => hda d (List.mem_of_mem_take (List.mem_of_mem_take hd)))
    rwa [List.length_take, Nat.min_eq_left (by omega)] at this
  have la : ((a.take n).take i).length = i := by
    rw [List.length_take]; omega
  have lb : ((b.take n).take i).length = i := by
    rw [List.length_take]; omega
  rw [sa, sb, digitsValue_append, digitsValue_append, la, lb, digitsValue_cons,
    digitsValue_cons, hupper]
  generalize digitsValue cfg ((b.take n).drop (i + 1)) = U
  generalize digitsValue cfg ((a.take n).take i) = L at hlow
  generalize digitsValue cfg ((b.take n).take i) = L'
  generalize cfg.base ^ i = P at *
  have h1 : P * (x + 1 + cfg.base * U) ≤ P * (y + cfg.base * U) :=
    Nat.mul_le_mul_left _ (by omega)
  have h2 : P * (x + 1 + cfg.base * U) = P * (x + cfg.base * U) + P := by ring
  omega

/-- Helper: on canonical values the order `ReprLt` of representations is the order of the
integers denoted. -/
theorem ReprLt_val (cfg : Config) (a b : JavascriptBigInt) (hca : Canonical cfg a)
    (hcb : Canonical cfg b) (h : ReprLt a b) : val cfg a < val cfg b := by
  have hB := hca.one_lt_base
  have wa := hca.wellFormed
  have wb := hcb.wellFormed
  have la := magnitude_lt cfg a wa
  have lb := magnitude_lt cfg b wb
  have hla : a.m_length ≤ a.m_digits.length := by have := wa.1.1; have := wa.2; omega
  have hlb : b.m_length ≤ b.m_digits.length := by have := wb.1.1; have := wb.2; omega
  have la1 := hca.2.1
  have lb1 := hcb.2.1
  unfold val
  rcases h with ⟨sa, sb⟩ | ⟨sa, sb, hl⟩ | ⟨sa, sb, hl⟩
  · rw [sa, sb]
    simp only [if_true, Bool.false_eq_true, if_false]
    rcases hca.cases with ⟨_, e, _⟩ | ⟨_, c2, _⟩
    · rw [sa] at e; cases e
    · omega
  · rw [sa, sb]
    simp only [Bool.false_eq_true, if_false]
    rcases hl with hl | ⟨e, hd⟩
    · rcases hcb.cases with ⟨c1, _⟩ | ⟨c1, _, _⟩
      · omega
      · have := Nat.pow_le_pow_right (by omega : 0 < cfg.base)
          (by omega : a.m_length ≤ b.m_length - 1)
        omega
    · have := DigitsLt_value cfg a.m_digits b.m_digits a.m_length hla (by omega) wa.1.2.2 hd
      have e2 : magnitude cfg b = digitsValue cfg (b.m_digits.take a.m_length) := by
        unfold magnitude; rw [e]
      have e1 : magnitude cfg a = digitsValue cfg (a.m_digits.take a.m_length) := rfl
      omega
  · rw [sa, sb]
    simp only [if_true]
    rcases hl with hl | ⟨e, hd⟩
    · rcases hca.cases with ⟨_, c2, _⟩ | ⟨c1, _, _⟩
      · rw [sa] at c2; cases c2
      · have := Nat.pow_le_pow_right (by omega : 0 < cfg.base)
          (by omega : b.m_length ≤ a.m_length - 1)
        omega
    · have := DigitsLt_value cfg b.m_digits a.m_digits a.m_length (by omega) hla wb.1.2.2 hd
      have e2 : magnitude cfg b = digitsValue cfg (b.m_digits.take a.m_length) := by
        unfold magnitude; rw [e]
      have e1 : magnitude cfg a = digitsValue cfg (a.m_digits.take a.m_length) := rfl
      omega

/-- Helper: `Compare` returns 0 only on values with the same sign flag, the same length and
the same digits below the length. -/
theorem Compare_eq_zero_imp (a b : JavascriptBigInt)
    (ha : a.m_length ≤ a.m_digits.length) (hb : b.m_length ≤ b.m_digits.length)
    (h : Compare a b = .ok 0) :
    a.m_isNegative = b.m_isNegative ∧ a.m_length = b.m_length ∧
    ∀ i, i < a.m_length → a.m_digits[i]? = b.m_digits[i]? := by
  obtain ⟨da, la, ma, sa⟩ := a
  obtain ⟨db, lb, mb, sb⟩ := b
  simp only at ha hb ⊢
  rcases Nat.lt_trichotomy la lb with hlt | heq | hgt
  · have h1 : ¬ la > lb := by omega
    exfalso
    cases sa <;> cases sb <;> simp [Compare, hlt, h1] at h
  · subst heq
    by_cases h0 : la = 0
    · subst h0
      refine ⟨?_, rfl, fun i hi => by omega⟩
      cases sa <;> cases sb <;> simp [Compare] at h ⊢
    · have hne : ¬ 0 = la := fun e => h0 e.symm
      rcases compareLoop_spec da db (la - 1) (by omega) (by omega) with
        ⟨h1, h2⟩ | ⟨idx, hi, h1, h2, h3⟩
      · refine ⟨?_, rfl, fun i hi => h2 i (by omega)⟩
        cases sa <;> cases sb <;> simp [Compare] at h ⊢
      · exfalso
        have hia : idx < da.length := by omega
        have hib : idx < db.length := by omega
        by_cases hgt : da[idx] > db[idx]
        · cases sa <;> cases sb <;>
            simp [Compare, hne, h1, readDigit_of_lt hia, readDigit_of_lt hib, hgt] at h
        · cases sa <;> cases sb <;>
            simp [Compare, hne, h1, readDigit_of_lt hia, readDigit_of_lt hib, hgt] at h
  · have h1 : ¬ la < lb := by omega
    exfalso
    cases sa <;> cases sb <;> simp [Compare, hgt, h1] at h

/-- Helper: values that compare equal denote the same integer. -/
theorem val_eq_of_Compare_zero (cfg : Config) (a b : JavascriptBigInt)
    (ha : a.m_length ≤ a.m_digits.length) (hb : b.m_length ≤ b.m_digits.length)
    (h : Compare a b = .ok 0) : val cfg a = val cfg b := by
  obtain ⟨hs, hl, hd⟩ := Compare_eq_zero_imp a b ha hb h
  have ht : a.m_digits.take a.m_length = b.m_digits.take b.m_length := by
    rw [← hl]
    apply List.ext_getElem?
    intro i
    rw [List.getElem?_take, List.getElem?_take]
    by_cases hi : i < a.m_length
    · simp only [hi, if_true]
      exact hd i hi
    · simp [hi]
  unfold val magnitude
  rw [hs, ht]

/-- C19: for all canonical values `a` and `b`, `Compare(a, b)` is the sign of
`val(a) - val(b)`: -1 if `val(a) < val(b)`, 0 if they are equal, 1 if greater; `Equals` is
equality of the integers and `LessThan` is their order. -/
theorem Compare_sign_of_difference (cfg : Config) (a b : JavascriptBigInt)
    (hca : Canonical cfg a) (hcb : Canonical cfg b) :
    Compare a b = .ok (Int.sign (val cfg a - val cfg b)) ∧
    Equals a b = .ok (decide (val cfg a = val cfg b)) ∧
    LessThan a b = .ok (decide (val cfg a < val cfg b)) := by
  have wa := hca.wellFormed
  have wb := hcb.wellFormed
  have hla : a.m_length ≤ a.m_digits.length := by have := wa.1.1; have := wa.2; omega
  have hlb : b.m_length ≤ b.m_digits.length := by have := wb.1.1; have := wb.2; omega
  obtain ⟨r, h1, h2, h3⟩ := Compare_antisymm a b hla hlb
  have hr : r = Int.sign (val cfg a - val cfg b) := by
    rcases h3 with e | e | e
    · subst e
      have := ReprLt_val cfg a b hca hcb ((Compare_lt_iff a b hla hlb).mp h1)
      rw [Int.sign_eq_neg_one_of_neg (by omega)]
    · subst e
      have := val_eq_of_Compare_zero cfg a b hla hlb h1
      rw [this, Int.sub_self]
      rfl
    · subst e
      have := ReprLt_val cfg b a hcb hca ((Compare_lt_iff b a hlb hla).mp h2)
      rw [Int.sign_eq_one_of_pos (by omega)]
  subst hr
  refine ⟨h1, ?_, ?_⟩
  · simp only [Equals, h1, Except.ok.injEq, decide_eq_decide]
    rw [Int.sign_eq_zero_iff_zero]
    omega
  · simp only [LessThan, h1, Except.ok.injEq, decide_eq_decide]
    constructor
    · intro hlt
      have e : (val cfg a - val cfg b).sign = -1 := by omega
      have := Int.sign_eq_neg_one_iff_neg.mp e
      omega
    · intro hlt
      rw [Int.sign_eq_neg_one_of_neg (by omega)]
      decide

theorem Compare_sign_of_difference_witness :
    Canonical cfg32 ⟨[5, 0], 1, 2, true⟩ ∧ Canonical cfg32 ⟨[3, 7], 2, 2, true⟩ ∧
    Compare ⟨[5, 0], 1, 2, true⟩ ⟨[3, 7], 2, 2, true⟩ =
      .ok (Int.sign (val cfg32 ⟨[5, 0], 1, 2, true⟩ - val cfg32 ⟨[3, 7], 2, 2, true⟩)) ∧
    Equals ⟨[5, 0], 1, 2, true⟩ ⟨[3, 7], 2, 2, true⟩ =
      .ok (decide (val cfg32 ⟨[5, 0], 1, 2, true⟩ = val cfg32 ⟨[3, 7], 2, 2, true⟩)) ∧
    LessThan ⟨[5, 0], 1, 2, true⟩ ⟨[3, 7], 2, 2, true⟩ =
      .ok (decide (val cfg32 ⟨[5, 0], 1, 2, true⟩ < val cfg32 ⟨[3, 7], 2, 2, true⟩)) :=
  have ha : Canonical cfg32 ⟨[5, 0], 1, 2, true⟩ := by decide
  have hb : Canonical cfg32 ⟨[3, 7], 2, 2, true⟩ := by decide
  ⟨ha, hb, Compare_sign_of_difference cfg32 _ _ ha hb⟩

/-- Helper: `AbsoluteIncrement` returns on a well-formed value when the buffer has a free cell,
or the digits do not carry out, or growth to `m_length + 1` digits succeeds. -/
theorem AbsoluteIncrement_returns (cfg : Config) (hB : 1 < cfg.base) (x : JavascriptBigInt)
    (hwf : WellFormed cfg x)
    (hroom : x.m_length < x.m_maxLength ∨ magnitude cfg x + 1 < cfg.base ^ x.m_length ∨
      GrowthOk cfg x.m_length) :
    ∃ y, AbsoluteIncrement cfg x = .ok y := by
  rcases hroom with hr | hr | hg
  · exact AbsoluteIncrement_ok cfg hB x hwf (Or.inl hr)
  · exact AbsoluteIncrement_ok cfg hB x hwf (Or.inr hr)
  have hwf' := hwf
  obtain ⟨⟨hlen, hmax, hdig⟩, hle⟩ := hwf
  have htake : ∀ d ∈ x.m_digits.take x.m_length, d < cfg.base :=
    fun d hd => hdig d (List.mem_of_mem_take hd)
  have hlt : (x.m_digits.take x.m_length).length = x.m_length := by
    rw [List.length_take]; omega
  obtain ⟨s1, s2, s3, s4⟩ := incList_spec cfg hB (x.m_digits.take x.m_length) 1 (le_refl _) htake
  rw [hlt] at s1 s4
  obtain ⟨w1, w2⟩ := wellFormed_replace cfg x _ hwf' s1 s2
  unfold AbsoluteIncrement
  rw [absoluteIncrementLoop_take cfg _ _ _ (by omega)]
  simp only
  by_cases hc : (incList cfg (x.m_digits.take x.m_length) 1).2 > 0
  · simp only [hc, if_true]
    obtain ⟨r, hr2⟩ := appendDigit_ok cfg { x with m_digits :=
      (incList cfg (x.m_digits.take x.m_length) 1).1 ++ x.m_digits.drop x.m_length }
      (incList cfg (x.m_digits.take x.m_length) 1).2 (fun _ => .error .failFast)
      w1 (Or.inr hg)
    rw [hr2]
    exact ⟨r, rfl⟩
  · simp only [hc, if_false]
    exact ⟨_, rfl⟩

/-- Helper: `Increment` returns on a negative canonical value, and on a non-negative one when
the buffer has a free cell, or the digits do not carry out, or growth succeeds. -/
theorem Increment_returns (cfg : Config) (x : JavascriptBigInt) (hc : Canonical cfg x)
    (hroom : x.m_isNegative = true ∨ x.m_length < x.m_maxLength ∨
      magnitude cfg x + 1 < cfg.base ^ x.m_length ∨ GrowthOk cfg x.m_length) :
    ∃ y, Increment cfg x = .ok y := by
  have hB := hc.one_lt_base
  cases hs : x.m_isNegative with
  | true =>
    apply Increment_ok cfg hB x (Or.inl hc)
    intro e
    rw [hs] at e
    cases e
  | false =>
    have h3 : x.m_length < x.m_maxLength ∨ magnitude cfg x + 1 < cfg.base ^ x.m_length ∨
        GrowthOk cfg x.m_length := by
      rcases hroom with e | e
      · rw [hs] at e; cases e
      · exact e
    unfold Increment
    simp only [hs]
    exact AbsoluteIncrement_returns cfg hB x hc.wellFormed h3

/-- Helper: `Decrement` returns on a non-negative canonical value, and on a negative one when
the buffer has a free cell, or the digits do not carry out, or growth succeeds. -/
theorem Decrement_returns (cfg : Config) (x : JavascriptBigInt) (hc : Canonical cfg x)
    (hroom : x.m_isNegative = false ∨ x.m_length < x.m_maxLength ∨
      magnitude cfg x + 1 < cfg.base ^ x.m_length ∨ GrowthOk cfg x.m_length) :
    ∃ y, Decrement cfg x = .ok y := by
  have hB := hc.one_lt_base
  cases hs : x.m_isNegative with
  | false =>
    apply Decrement_ok cfg x hc
    intro e
    rw [hs] at e
    cases e
  | true =>
    have h3 : x.m_length < x.m_maxLength ∨ magnitude cfg x + 1 < cfg.base ^ x.m_length ∨
        GrowthOk cfg x.m_length := by
      rcases hroom with e | e
      · rw [hs] at e; cases e
      · exact e
    unfold Decrement
    simp only [hs, if_true]
    exact AbsoluteIncrement_returns cfg hB x hc.wellFormed h3

/-- Helper: the value `Increment` returns on a canonical value that denotes -1 is the
non-negative magnitude `[0]`. -/
theorem Increment_minus_one (cfg : Config) (x y : JavascriptBigInt) (hc : Canonical cfg x)
    (h : Increment cfg x = .ok y) (hv : val cfg x = -1) :
    y.m_isNegative = false ∧ y.m_length = 1 ∧ y.m_digits[0]? = some 0 := by
  have hB := hc.one_lt_base
  obtain ⟨h1, h2⟩ := Increment_spec cfg hB x y (Or.inl hc) h
  rw [hv] at h2
  rcases h1.cases with ⟨c1, c2, _, c4⟩ | ⟨_, c2, _⟩
  · exact ⟨c2, c1, c4⟩
  · exfalso
    unfold val at h2
    cases hs : y.m_isNegative <;> rw [hs] at h2 <;> simp at h2 <;> omega

/-- Helper: the value `Decrement` returns on a canonical value that denotes 0 is the negative
magnitude `[1]`. -/
theorem Decrement_zero (cfg : Config) (x y : JavascriptBigInt) (hc : Canonical cfg x)
    (h : Decrement cfg x = .ok y) (hv : val cfg x = 0) :
    y.m_isNegative = true ∧ y.m_length = 1 ∧ y.m_digits[0]? = some 1 := by
  obtain ⟨h1, h2, _⟩ := Decrement_spec cfg x y hc h
  rw [hv] at h1
  rcases h2 with r | ⟨_, _, _, _, r⟩
  · have hsm : y.m_isNegative = true ∧ magnitude cfg y = 1 := by
      unfold val at h1
      cases hs : y.m_isNegative
      · rw [hs] at h1
        simp only [Bool.false_eq_true, if_false] at h1
        omega
      · rw [hs] at h1
        simp only [if_true] at h1
        exact ⟨rfl, by omega⟩
    obtain ⟨e1, e2⟩ := r.magnitude_one hsm.2
    exact ⟨hsm.1, e1, e2⟩
  · exfalso
    unfold val at hv
    cases hs : x.m_isNegative <;> rw [hs] at hv <;> simp at hv <;> omega

/-- Helper: a canonical value that denotes a negative integer has `m_isNegative = true`, and
one that denotes a non-negative integer has `m_isNegative = false`. -/
theorem Canonical.sign_of_val {cfg : Config} {x : JavascriptBigInt} (hc : Canonical cfg x) :
    (val cfg x < 0 → x.m_isNegative = true) ∧ (0 ≤ val cfg x → x.m_isNegative = false) := by
  constructor
  · intro hv
    unfold val at hv
    cases hs : x.m_isNegative
    · rw [hs] at hv
      simp only [Bool.false_eq_true, if_false] at hv
      omega
    · rfl
  · intro hv
    rcases hc.cases with ⟨_, c2, _, _⟩ | ⟨_, c2, _⟩
    · exact c2
    · unfold val at hv
      cases hs : x.m_isNegative
      · rfl
      · rw [hs] at hv
        simp only [if_true] at hv
        omega

/-- Helper: after `Decrement` has returned `y` on a canonical `x`, `Increment` on `y` returns a
value that compares equal to `x`. -/
theorem Increment_after_Decrement (cfg : Config) (x y : JavascriptBigInt)
    (hc : Canonical cfg x) (h : Decrement cfg x = .ok y) :
    ∃ z, Increment cfg y = .ok z ∧ Compare z x = .ok 0 ∧ Equals z x = .ok true := by
  have hB := hc.one_lt_base
  obtain ⟨h1, h2, h3⟩ := Decrement_spec cfg x y hc h
  have hy : Canonical cfg y ∨ (WellFormed cfg y ∧ y.m_length = 0 ∧ y.m_isNegative = false) := by
    rcases h2 with r | ⟨r1, r2, r3, _⟩
    · exact Or.inl r
    · exact Or.inr ⟨r1, r2, r3⟩
  obtain ⟨z, hz⟩ := Increment_ok cfg hB y hy h3
  obtain ⟨z1, z2⟩ := Increment_spec cfg hB y z hy hz
  have hcmp : Compare z x = .ok 0 :=
    Compare_eq_zero_of_val_eq cfg z x z1 hc (by rw [z2, h1]; ring)
  exact ⟨z, hz, hcmp, by simp [Equals, hcmp]⟩

/-- C2: for every canonical value `x`, the in-place `Increment` returns, and the value it
leaves denotes `val(x) + 1`, whenever no growth is needed (`x` is negative, or the buffer has a
free cell, or the digits do not carry out) or growth to `m_length + 1` digits succeeds; any
value it returns denotes `val(x) + 1`; on -1 it returns the non-negative magnitude `[0]`, and
on 9999999999 it returns 10000000000 (32-bit digits). -/
theorem Increment_correct (cfg : Config) (x : JavascriptBigInt) (hc : Canonical cfg x) :
    ((x.m_isNegative = true ∨ x.m_length < x.m_maxLength ∨
        magnitude cfg x + 1 < cfg.base ^ x.m_length ∨ GrowthOk cfg x.m_length) →
      ∃ y, Increment cfg x = .ok y ∧ val cfg y = val cfg x + 1) ∧
    (∀ y, Increment cfg x = .ok y → val cfg y = val cfg x + 1) ∧
    (val cfg x = -1 →
      ∃ y, Increment cfg x = .ok y ∧ val cfg y = 0 ∧
        y.m_isNegative = false ∧ y.m_length = 1 ∧ y.m_digits[0]? = some 0) ∧
    (∃ a b,
      InitFromCharDigits cfg32 ⟨[], 0, 2, false⟩ [57, 57, 57, 57, 57, 57, 57, 57, 57, 57, 110]
        11 false = .ok a ∧
      val cfg32 a = 9999999999 ∧ Increment cfg32 a = .ok b ∧ val cfg32 b = 10000000000 ∧
      InitFromCharDigits cfg32 ⟨[], 0, 2, false⟩
        [49, 48, 48, 48, 48, 48, 48, 48, 48, 48, 48, 110] 12 false = .ok b) := by
  have hB := hc.one_lt_base
  refine ⟨?_, ?_, ?_, ?_⟩
  · intro hr
    obtain ⟨y, hy⟩ := Increment_returns cfg x hc hr
    exact ⟨y, hy, (Increment_spec cfg hB x y (Or.inl hc) hy).2⟩
  · intro y hy
    exact (Increment_spec cfg hB x y (Or.inl hc) hy).2
  · intro hv
    have hs : x.m_isNegative = true := hc.sign_of_val.1 (by omega)
    obtain ⟨y, hy⟩ := Increment_returns cfg x hc (Or.inl hs)
    have h2 := (Increment_spec cfg hB x y (Or.inl hc) hy).2
    exact ⟨y, hy, by rw [h2, hv]; rfl, Increment_minus_one cfg x y hc hy hv⟩
  · exact ⟨⟨[1410065407, 2], 2, 2, false⟩, ⟨[1410065408, 2], 2, 2, false⟩,
      by decide, by decide, by decide, by decide, by decide⟩

theorem Increment_correct_witness :
    Canonical cfg32 ⟨[4294967295], 1, 1, false⟩ ∧ GrowthOk cfg32 1 ∧
    ∃ y, Increment cfg32 ⟨[4294967295], 1, 1, false⟩ = .ok y ∧
      val cfg32 y = val cfg32 ⟨[4294967295], 1, 1, false⟩ + 1 :=
  have hc : Canonical cfg32 ⟨[4294967295], 1, 1, false⟩ := by
    decide
  have hg : GrowthOk cfg32 1 := by
    decide
  ⟨hc, hg, (Increment_correct cfg32 ⟨[4294967295], 1, 1, false⟩ hc).1
    (Or.inr (Or.inr (Or.inr hg)))⟩

/-- C3: for every canonical value `x`, the in-place `Decrement` returns, and the value it
leaves denotes `val(x) - 1`, whenever no growth is needed (`x` is non-negative, or the buffer
has a free cell, or the digits do not carry out) or growth to `m_length + 1` digits succeeds;
any value it returns denotes `val(x) - 1`; on 0 it returns the magnitude `[1]` with
`isNegative = true`. -/
theorem Decrement_correct (cfg : Config) (x : JavascriptBigInt) (hc : Canonical cfg x) :
    ((x.m_isNegative = false ∨ x.m_length < x.m_maxLength ∨
        magnitude cfg x + 1 < cfg.base ^ x.m_length ∨ GrowthOk cfg x.m_length) →
      ∃ y, Decrement cfg x = .ok y ∧ val cfg y = val cfg x - 1) ∧
    (∀ y, Decrement cfg x = .ok y → val cfg y = val cfg x - 1) ∧
    (val cfg x = 0 →
      ∃ y, Decrement cfg x = .ok y ∧ val cfg y = -1 ∧
        y.m_isNegative = true ∧ y.m_length = 1 ∧ y.m_digits[0]? = some 1) := by
  refine ⟨?_, ?_, ?_⟩
  · intro hr
    obtain ⟨y, hy⟩ := Decrement_returns cfg x hc hr
    exact ⟨y, hy, (Decrement_spec cfg x y hc hy).1⟩
  · intro y hy
    exact (Decrement_spec cfg x y hc hy).1
  · intro hv
    have hs : x.m_isNegative = false := hc.sign_of_val.2 (by omega)
    obtain ⟨y, hy⟩ := Decrement_returns cfg x hc (Or.inl hs)
    have h2 := (Decrement_spec cfg x y hc hy).1
    exact ⟨y, hy, by rw [h2, hv]; rfl, Decrement_zero cfg x y hc hy hv⟩

theorem Decrement_correct_witness :
    Canonical cfg32 ⟨[4294967295, 4294967295], 2, 2, true⟩ ∧ GrowthOk cfg32 2 ∧
    ∃ y, Decrement cfg32 ⟨[4294967295, 4294967295], 2, 2, true⟩ = .ok y ∧
      val cfg32 y = val cfg32 ⟨[4294967295, 4294967295], 2, 2, true⟩ - 1 :=
  have hc : Canonical cfg32 ⟨[4294967295, 4294967295], 2, 2, true⟩ := by
    decide
  have hg : GrowthOk cfg32 2 := by
    decide
  ⟨hc, hg, (Decrement_correct cfg32 ⟨[4294967295, 4294967295], 2, 2, true⟩ hc).1
    (Or.inr (Or.inr (Or.inr hg)))⟩

/-- C5: for every canonical value `x`, `Decrement` returns a value `y` and `Increment` on `y`
then returns a value `z` with `Compare(z, x) = 0` and `Equals(z, x)` true, whenever `Decrement`
needs no growth (`x` is non-negative, or the buffer has a free cell, or the digits do not
carry out) or growth to `m_length + 1` digits succeeds; and after any return of `Decrement`,
`Increment` returns such a `z`. -/
theorem Decrement_Increment_roundtrip (cfg : Config) (x : JavascriptBigInt)
    (hc : Canonical cfg x) :
    ((x.m_isNegative = false ∨ x.m_length < x.m_maxLength ∨
        magnitude cfg x + 1 < cfg.base ^ x.m_length ∨ GrowthOk cfg x.m_length) →
      ∃ y z, Decrement cfg x = .ok y ∧ Increment cfg y = .ok z ∧
        Compare z x = .ok 0 ∧ Equals z x = .ok true) ∧
    (∀ y, Decrement cfg x = .ok y →
      ∃ z, Increment cfg y = .ok z ∧ Compare z x = .ok 0 ∧ Equals z x = .ok true) := by
  constructor
  · intro hr
    obtain ⟨y, hy⟩ := Decrement_returns cfg x hc hr
    obtain ⟨z, hz⟩ := Increment_after_Decrement cfg x y hc hy
    exact ⟨y, z, hy, hz⟩
  · intro y hy
    exact Increment_after_Decrement cfg x y hc hy

theorem Decrement_Increment_roundtrip_witness :
    Canonical cfg32 ⟨[4294967295], 1, 1, true⟩ ∧ GrowthOk cfg32 1 ∧
    ∃ y z, Decrement cfg32 ⟨[4294967295], 1, 1, true⟩ = .ok y ∧ Increment cfg32 y = .ok z ∧
      Compare z ⟨[4294967295], 1, 1, true⟩ = .ok 0 ∧
      Equals z ⟨[4294967295], 1, 1, true⟩ = .ok true :=
  have hc : Canonical cfg32 ⟨[4294967295], 1, 1, true⟩ := by
    decide
  have hg : GrowthOk cfg32 1 := by
    decide
  ⟨hc, hg, (Decrement_Increment_roundtrip cfg32 ⟨[4294967295], 1, 1, true⟩ hc).1
    (Or.inr (Or.inr (Or.inr hg)))⟩

end Js
